import Mathlib

/-!
# B+ tree (order 4): shallow embedding of `src/b_pluss_tree.cc`

The C++ source stores nodes behind `std::shared_ptr` and mutates them in
place.  We embed this faithfully as explicit state passing over an arena:
`nodes : List BPlusNode` is the heap (a node's arena index plays the role of
its `shared_ptr` identity, so pointer comparison `p == q` becomes index
equality), and `root_ : Option Nat` is the tree's root pointer (`none` is
`nullptr`).  Allocation (`std::make_shared`) appends to the arena; nodes are
never freed in the source, so indices stay stable.  The recursive walks
(`findLeaf`, `findParent`) and the split cascade take an explicit fuel
argument; callers pass `nodes.length + 1`, which exceeds the height of any
acyclic tree stored in the arena, so fuel exhaustion only occurs in states
the C++ program could never be in (where it would loop or exhibit UB).
Out-of-range vector accesses (UB in C++) are modelled as no-ops / `none`.
-/

namespace BPlusTree

/-- `static constexpr int kOrder = 4`. -/
def kOrder : Nat := 4

/-- The two node variants (`BPlusLeafNode` / `BPlusInternalNode`), merged into
one tagged type exactly as the C++ class hierarchy tags them with `isLeaf_`.
A leaf holds `keys_`, `values_` and the sibling pointer `next_` (arena id);
an internal node holds `keys_` and `childPointers_` (arena ids). -/
inductive BPlusNode where
  | leaf (keys_ values_ : List Int) (next_ : Option Nat)
  | internal (keys_ : List Int) (childPointers_ : List Nat)
deriving DecidableEq, Repr

/-- The `isLeaf_` tag of `BPlusNode`. -/
def BPlusNode.isLeaf_ : BPlusNode → Bool
  | .leaf .. => true
  | .internal .. => false

/-- The tree object: the arena of allocated nodes plus the root pointer
`root_` (`nullptr` at construction). -/
structure BPlusTreeState where
  nodes : List BPlusNode
  root_ : Option Nat
deriving DecidableEq, Repr

/-- Dereference an arena id (a `shared_ptr`). -/
def getNode (s : BPlusTreeState) (i : Nat) : Option BPlusNode := s.nodes[i]?

/-- In-place mutation of the node behind id `i`. -/
def setNode (s : BPlusTreeState) (i : Nat) (n : BPlusNode) : BPlusTreeState :=
  { s with nodes := s.nodes.set i n }

/-- `std::make_shared`: allocate a fresh node at the end of the arena; the new
node's id is the pre-allocation `nodes.length`. -/
def alloc (s : BPlusTreeState) (n : BPlusNode) : BPlusTreeState :=
  { s with nodes := s.nodes ++ [n] }

/-- `BPlusTree::findLeaf`, the descent loop: while the current node exists and
is internal, advance the child index `i` while `key >= keys_[i]`, then descend
into `childPointers_[i]`.  The fuel bounds the number of iterations. -/
def findLeafRec (s : BPlusTreeState) (key : Int) : Nat → Option Nat → Option Nat
  | _, none => none
  | 0, some _ => none
  | fuel + 1, some cur =>
    match getNode s cur with
    | some (.leaf ..) => some cur
    | some (.internal keys children) =>
      let i := (keys.takeWhile (fun k => k ≤ key)).length
      findLeafRec s key fuel children[i]?
    | none => none

/-- `findLeaf(key)`: run the descent loop from `root_`. -/
def findLeaf (s : BPlusTreeState) (key : Int) : Option Nat :=
  findLeafRec s key (s.nodes.length + 1) s.root_

mutual

/-- `BPlusTree::findParent(current, child)`: `nullptr`/leaf current yields
`nullptr`, otherwise scan the children (`findParentScan`).  Fuel is consumed
once per visited node and once per scanned child so that the recursion is
structural; callers supply fuel exceeding the total cost of the walk. -/
def findParentRec (s : BPlusTreeState) : Nat → Option Nat → Nat → Option Nat
  | _, none, _ => none
  | 0, some _, _ => none
  | fuel + 1, some cur, child =>
    match getNode s cur with
    | some (.internal _ children) => findParentScan s fuel cur children child
    | _ => none

/-- The `for (auto ptr : childPointers_)` loop of `findParent`: return
`current` on identity match, otherwise recurse into internal children in
order, returning the first hit. -/
def findParentScan (s : BPlusTreeState) : Nat → Nat → List Nat → Nat → Option Nat
  | _, _, [], _ => none
  | 0, _, _ :: _, _ => none
  | fuel + 1, cur, c :: cs, child =>
    if c = child then some cur
    else
      match getNode s c with
      | some (.internal ..) =>
        match findParentRec s fuel (some c) child with
        | some p => some p
        | none => findParentScan s fuel cur cs child
      | _ => findParentScan s fuel cur cs child

end

/-- `findParent(root_, child)` as invoked by the insertion helpers; the fuel
`3 * nodes.length + 1` dominates the cost of a full depth-first walk over any
acyclic tree stored in the arena. -/
def findParent (s : BPlusTreeState) (child : Nat) : Option Nat :=
  findParentRec s (3 * s.nodes.length + 1) s.root_ child

mutual

/-- `BPlusTree::splitInternalNode`: split at `midIndex = keys_.size() / 2`,
promote `keys_[midIndex]`, move keys after `midIndex` and children from
`midIndex + 1` to a fresh internal node; install a new root if the split node
was the root, else push the promoted key up via `insertInternalUpKey`. -/
def splitInternalNode (s : BPlusTreeState) : Nat → Nat → BPlusTreeState
  | 0, _ => s
  | fuel + 1, nid =>
    match getNode s nid with
    | some (.internal keys children) =>
      let midIndex := keys.length / 2
      let upKey := keys.getD midIndex 0
      let newId := s.nodes.length
      let s1 := alloc s (.internal (keys.drop (midIndex + 1)) (children.drop (midIndex + 1)))
      let s2 := setNode s1 nid (.internal (keys.take midIndex) (children.take (midIndex + 1)))
      if s2.root_ = some nid then
        { alloc s2 (.internal [upKey] [nid, newId]) with root_ := some s2.nodes.length }
      else insertInternalUpKey s2 fuel upKey nid newId
    | _ => s

/-- `BPlusTree::insertInternalUpKey`: find the parent of `leftChild` from the
root, locate `leftChild` by identity among its children, insert the promoted
`key` at that index and `rightChild` right after, then split the parent if it
reached `kOrder` keys. -/
def insertInternalUpKey (s : BPlusTreeState) : Nat → Int → Nat → Nat → BPlusTreeState
  | 0, _, _, _ => s
  | fuel + 1, key, leftChild, rightChild =>
    match findParent s leftChild with
    | none => s
    | some pid =>
      match getNode s pid with
      | some (.internal keys children) =>
        let idx := (children.takeWhile (fun c => c ≠ leftChild)).length
        let keys' := keys.insertIdx idx key
        let children' := children.insertIdx (idx + 1) rightChild
        let s' := setNode s pid (.internal keys' children')
        if kOrder ≤ keys'.length then splitInternalNode s' fuel pid else s'
      | _ => s

end

/-- `BPlusTree::insertInternalNode`: same body as `insertInternalUpKey`
(the source duplicates it with leaf-typed child parameters). -/
def insertInternalNode (s : BPlusTreeState) (fuel : Nat) (key : Int)
    (leftChild rightChild : Nat) : BPlusTreeState :=
  match findParent s leftChild with
  | none => s
  | some pid =>
    match getNode s pid with
    | some (.internal keys children) =>
      let idx := (children.takeWhile (fun c => c ≠ leftChild)).length
      let keys' := keys.insertIdx idx key
      let children' := children.insertIdx (idx + 1) rightChild
      let s' := setNode s pid (.internal keys' children')
      if kOrder ≤ keys'.length then splitInternalNode s' fuel pid else s'
    | _ => s

/-- `BPlusTree::splitLeafNode`: move entries `[mid, count)` (`mid = count/2`)
to a fresh leaf, splice it into the sibling chain (`newLeaf->next_ =
leaf->next_; leaf->next_ = newLeaf`), promote the new leaf's first key; if the
leaf was the root install a fresh internal root, else call
`insertInternalNode`. -/
def splitLeafNode (s : BPlusTreeState) (fuel : Nat) (leafId : Nat) : BPlusTreeState :=
  match getNode s leafId with
  | some (.leaf keys values next) =>
    let mid := keys.length / 2
    let newId := s.nodes.length
    let s1 := alloc s (.leaf (keys.drop mid) (values.drop mid) next)
    let s2 := setNode s1 leafId (.leaf (keys.take mid) (values.take mid) (some newId))
    let newKey := (keys.drop mid).headD 0
    if s2.root_ = some leafId then
      { alloc s2 (.internal [newKey] [leafId, newId]) with root_ := some s2.nodes.length }
    else insertInternalNode s2 fuel newKey leafId newId
  | _ => s

/-- `std::swap(l[i], l[j])` on a vector. -/
def swapAt (l : List Int) (i j : Nat) : List Int :=
  let a := l.getD i 0
  let b := l.getD j 0
  (l.set i b).set j a

/-- The adjacent-swap pass of `insert`:
`for (i = size-1; i > 0; i--) { if (keys_[i] < keys_[i-1]) swap both arrays
else break }`.  The `Nat` argument is the loop counter `i`. -/
def bubbleLoop : List Int → List Int → Nat → List Int × List Int
  | keys, values, 0 => (keys, values)
  | keys, values, i + 1 =>
    if keys.getD (i + 1) 0 < keys.getD i 0 then
      bubbleLoop (swapAt keys (i + 1) i) (swapAt values (i + 1) i) i
    else (keys, values)

/-- The linear scan of `search`: first index with `keys_[i] == key` yields
`values_[i]`. -/
def scanLeaf (key : Int) : List Int → List Int → Option Int
  | k :: ks, v :: vs => if k = key then some v else scanLeaf key ks vs
  | _, _ => none

/-- `BPlusTree::search(key)`. -/
def search (s : BPlusTreeState) (key : Int) : Option Int :=
  match s.root_ with
  | none => none
  | some _ =>
    match findLeaf s key with
    | none => none
    | some lid =>
      match getNode s lid with
      | some (.leaf keys values _) => scanLeaf key keys values
      | _ => none

/-- `BPlusTree::insert(key, value)`: empty tree installs a fresh one-entry
leaf as root; otherwise descend to the leaf, overwrite on a key match, else
append and bubble into place, and split the leaf when it reaches `kOrder`
entries. -/
def insert (s : BPlusTreeState) (key value : Int) : BPlusTreeState :=
  match s.root_ with
  | none =>
    { alloc s (.leaf [key] [value] none) with root_ := some s.nodes.length }
  | some _ =>
    match findLeaf s key with
    | none => s
    | some lid =>
      match getNode s lid with
      | some (.leaf keys values next) =>
        match keys.findIdx? (fun k => k = key) with
        | some i => setNode s lid (.leaf keys (values.set i value) next)
        | none =>
          let keys1 := keys ++ [key]
          let values1 := values ++ [value]
          let p := bubbleLoop keys1 values1 (keys1.length - 1)
          let s' := setNode s lid (.leaf p.1 p.2 next)
          if kOrder ≤ p.1.length then splitLeafNode s' (s'.nodes.length + 1) lid else s'
      | _ => s

/-- `BPlusTree()` default construction: empty arena, null root. -/
def emptyTree : BPlusTreeState := ⟨[], none⟩

/-- Run a sequence of `insert(key, value)` calls. -/
def insertAll (ps : List (Int × Int)) (s : BPlusTreeState) : BPlusTreeState :=
  ps.foldl (fun t p => insert t p.1 p.2) s

/-- States reachable from the freshly constructed tree by `insert` calls. -/
def Reachable (s : BPlusTreeState) : Prop := ∃ ps, s = insertAll ps emptyTree

/-- The nine inserts performed by the demo driver in `main`. -/
def demoInserts : List (Int × Int) :=
  [(10, 100), (20, 200), (5, 50), (6, 60), (15, 150), (25, 250), (2, 20), (16, 160), (18, 180)]

/-! ## Decorated trees

The verification-side view of the arena: a `DTree` is the tree structure
with every node's arena id attached.  `Decodes s d` states that the arena
`s` actually stores `d` (node by node), `WF` is the B+ order/size/sortedness
invariant, `ChainOK` the sibling-chain invariant, and `Inv` packages the
whole reachable-state invariant. -/

/-- A tree as laid out in the arena, with arena ids attached. -/
inductive DTree where
  | leaf (i : Nat) (keys values : List Int) (next : Option Nat)
  | node (i : Nat) (keys : List Int) (children : List DTree)

/-- The arena id at the root of a decorated tree. -/
def dId : DTree → Nat
  | .leaf i _ _ _ => i
  | .node i _ _ => i

/-- The arena ids of a list of decorated children. -/
def childIds (cs : List DTree) : List Nat := cs.map dId

mutual

/-- All arena ids occurring in a decorated tree (preorder). -/
def ids : DTree → List Nat
  | .leaf i _ _ _ => [i]
  | .node i _ cs => i :: idsList cs

def idsList : List DTree → List Nat
  | [] => []
  | c :: cs => ids c ++ idsList cs

end

mutual

/-- The (key, value) pairs stored in the tree, in left-to-right order. -/
def entries : DTree → List (Int × Int)
  | .leaf _ ks vs _ => ks.zip vs
  | .node _ _ cs => entriesList cs

def entriesList : List DTree → List (Int × Int)
  | [] => []
  | c :: cs => entries c ++ entriesList cs

end

mutual

/-- The leaves of the tree in left-to-right order, as (id, next) pairs. -/
def leafCells : DTree → List (Nat × Option Nat)
  | .leaf i _ _ nx => [(i, nx)]
  | .node _ _ cs => leafCellsList cs

def leafCellsList : List DTree → List (Nat × Option Nat)
  | [] => []
  | c :: cs => leafCells c ++ leafCellsList cs

end

mutual

/-- Height of a decorated tree (a leaf has depth 1). -/
def depth : DTree → Nat
  | .leaf _ _ _ _ => 1
  | .node _ _ cs => depthList cs + 1

def depthList : List DTree → Nat
  | [] => 0
  | c :: cs => max (depth c) (depthList cs)

end

mutual

/-- Cost of a depth-first walk over the tree (fuel needed by
`findParentRec`): one unit per visited node plus one per scanned child. -/
def weight : DTree → Nat
  | .leaf _ _ _ _ => 1
  | .node _ _ cs => weightList cs + 1

def weightList : List DTree → Nat
  | [] => 0
  | c :: cs => 1 + weight c + weightList cs

end

mutual

/-- The arena `s` stores the decorated tree `d`: every decorated node's id
dereferences to the corresponding record, with child pointers equal to the
decorated children's ids. -/
def Decodes (s : BPlusTreeState) : DTree → Prop
  | .leaf i ks vs nx => getNode s i = some (.leaf ks vs nx)
  | .node i ks cs => getNode s i = some (.internal ks (childIds cs)) ∧ DecodesList s cs

def DecodesList (s : BPlusTreeState) : List DTree → Prop
  | [] => True
  | c :: cs => Decodes s c ∧ DecodesList s cs

end

/-- Key bounds: `lo ≤ k` (when `lo` present) and `k < hi` (when `hi`
present) — the separator rule, inclusive on the right subtree. -/
def inBounds (lo hi : Option Int) (k : Int) : Prop :=
  (∀ l, lo = some l → l ≤ k) ∧ (∀ h, hi = some h → k < h)

mutual

/-- The B+ tree structural invariant with key bounds: leaves hold
`1 .. kOrder - 1` sorted entries within the bounds, internal nodes hold
`1 .. kOrder - 1` keys with one more child than keys, each child well-formed
within the bounds cut by the separators. -/
def WF : Option Int → Option Int → DTree → Prop
  | lo, hi, .leaf _ ks vs _ =>
    ks.length = vs.length ∧ 1 ≤ ks.length ∧ ks.length ≤ kOrder - 1 ∧
    ks.Chain' (· < ·) ∧ ∀ k ∈ ks, inBounds lo hi k
  | lo, hi, .node _ ks cs =>
    1 ≤ ks.length ∧ ks.length ≤ kOrder - 1 ∧ WFKids lo hi ks cs

/-- Children of an internal node, cut by the separators: with keys
`k₁ … kₙ` and children `c₀ … cₙ`, child `cᵢ` is well-formed on
`[kᵢ, kᵢ₊₁)` (with the node's own `lo`/`hi` at the two ends). -/
def WFKids : Option Int → Option Int → List Int → List DTree → Prop
  | lo, hi, [], [c] => WF lo hi c
  | lo, hi, k :: ks, c :: cs => WF lo (some k) c ∧ WFKids (some k) hi ks cs
  | _, _, _, _ => False

end

/-- The sibling chain: consecutive leaves are linked by `next_` and the last
leaf's `next_` is null. -/
def ChainOK : List (Nat × Option Nat) → Prop
  | [] => True
  | [(_, nx)] => nx = none
  | (_, nx) :: (j, nx2) :: rest => nx = some j ∧ ChainOK ((j, nx2) :: rest)

mutual

/-- Pure counterpart of `findParent`'s depth-first search: the id of the
node that directly holds `c` among its children, scanning in the same order
as the source. -/
def parentOf (c : Nat) : DTree → Option Nat
  | .leaf _ _ _ _ => none
  | .node i _ cs => parentScan c i cs

def parentScan (c : Nat) (i : Nat) : List DTree → Option Nat
  | [] => none
  | t :: ts =>
    if dId t = c then some i
    else
      match parentOf c t with
      | some p => some p
      | none => parentScan c i ts

end

mutual

/-- Pure counterpart of `findLeaf`'s descent: at an internal node advance the
child index while `key ≥ keys[i]` (i.e. take the length of the prefix of keys
`≤ key`) and descend; returns the reached leaf (or `none` if the index falls
outside the children, which cannot happen on well-formed trees). -/
def targetLeaf (key : Int) : DTree → Option DTree
  | .leaf i ks vs nx => some (.leaf i ks vs nx)
  | .node _ ks cs => targetIn key ((ks.takeWhile (fun k => k ≤ key)).length) cs

def targetIn (key : Int) : Nat → List DTree → Option DTree
  | _, [] => none
  | 0, c :: _ => targetLeaf key c
  | n + 1, _ :: cs => targetIn key n cs

end

mutual

/-- In `d`, the node with id `p` directly holds a child whose id is `c`. -/
def HasPC : DTree → Nat → Nat → Prop
  | .leaf _ _ _ _, _, _ => False
  | .node i _ cs, p, c => (i = p ∧ c ∈ childIds cs) ∨ HasPCList cs p c

def HasPCList : List DTree → Nat → Nat → Prop
  | [], _, _ => False
  | t :: ts, p, c => HasPC t p c ∨ HasPCList ts p c

end

/-- One internal node of the tree with a hole at child position
`childrenL.length`; `keysL` are the separators before the hole (so
`keysL.length = childrenL.length` on frames produced by descent). -/
structure Frame where
  fid : Nat
  keysL : List Int
  keysR : List Int
  childrenL : List DTree
  childrenR : List DTree

/-- Fill a frame's hole. -/
def plug1 (f : Frame) (t : DTree) : DTree :=
  .node f.fid (f.keysL ++ f.keysR) (f.childrenL ++ t :: f.childrenR)

/-- Fill a whole context (innermost frame first). -/
def plug : List Frame → DTree → DTree
  | [], t => t
  | f :: fs, t => plug fs (plug1 f t)

/-- All arena ids mentioned by a frame (its own id and its other children). -/
def frameIds (f : Frame) : List Nat :=
  f.fid :: (idsList f.childrenL ++ idsList f.childrenR)

/-- All arena ids mentioned by a context. -/
def ctxIds : List Frame → List Nat
  | [] => []
  | f :: fs => frameIds f ++ ctxIds fs

/-- The id of the root of `plug ctx t` when the hole carries id `holeId`. -/
def ctxTopId : List Frame → Nat → Nat
  | [], holeId => holeId
  | f :: fs, _ => ctxTopId fs f.fid

/-- The arena stores this frame, with the hole child pointer equal to
`holeId`. -/
def FrameDecodes (s : BPlusTreeState) (f : Frame) (holeId : Nat) : Prop :=
  getNode s f.fid =
    some (.internal (f.keysL ++ f.keysR)
      (childIds f.childrenL ++ holeId :: childIds f.childrenR)) ∧
  DecodesList s f.childrenL ∧ DecodesList s f.childrenR

/-- The arena stores all frames of the context, innermost hole id first. -/
def CtxDecodes (s : BPlusTreeState) : List Frame → Nat → Prop
  | [], _ => True
  | f :: fs, holeId => FrameDecodes s f holeId ∧ CtxDecodes s fs f.fid

/-- Bounds structure to the right of a hole: the hole's upper bound `mhi` is
the first right-hand separator (or the node's own `fhi` when there is none),
and the remaining separators/children are well-formed. -/
def WFRest : Option Int → Option Int → List Int → List DTree → Prop
  | mhi, fhi, [], [] => mhi = fhi
  | mhi, fhi, k :: ks, cs => mhi = some k ∧ WFKids (some k) fhi ks cs
  | _, _, [], _ :: _ => False

/-- The separator/child structure of an internal node around a hole:
`keysL`/`childrenL` pair up to the left of the hole, the hole has bounds
`(mlo, mhi)`, and `keysR`/`childrenR` continue to the right. -/
def WFKidsH : Option Int → Option Int → List Int → List DTree → List Int → List DTree →
    Option Int → Option Int → Prop
  | flo, fhi, [], [], keysR, childrenR, mlo, mhi =>
    flo = mlo ∧ WFRest mhi fhi keysR childrenR
  | flo, fhi, kL :: keysL, cL :: childrenL, keysR, childrenR, mlo, mhi =>
    WF flo (some kL) cL ∧ WFKidsH (some kL) fhi keysL childrenL keysR childrenR mlo mhi
  | _, _, _, _, _, _, _, _ => False

/-- The frames of a context are well-formed around the hole: each frame holds
`1 .. kOrder - 1` separators correctly cut around its hole, and the outermost
hole bounds are `(none, none)`. -/
def CtxBounds : List Frame → Option Int → Option Int → Prop
  | [], mlo, mhi => mlo = none ∧ mhi = none
  | f :: fs, mlo, mhi => ∃ flo fhi,
    CtxBounds fs flo fhi ∧
    1 ≤ (f.keysL ++ f.keysR).length ∧
    (f.keysL ++ f.keysR).length ≤ kOrder - 1 ∧
    f.keysL.length = f.childrenL.length ∧
    WFKidsH flo fhi f.keysL f.childrenL f.keysR f.childrenR mlo mhi

/-- The tree entries around a context's hole, with `e` standing for the
entries of whatever fills the hole. -/
def entriesAt : List Frame → List (Int × Int) → List (Int × Int)
  | [], e => e
  | f :: fs, e =>
    entriesAt fs (entriesList f.childrenL ++ e ++ entriesList f.childrenR)

/-- The leaf cells around a context's hole. -/
def cellsAt : List Frame → List (Nat × Option Nat) → List (Nat × Option Nat)
  | [], e => e
  | f :: fs, e =>
    cellsAt fs (leafCellsList f.childrenL ++ e ++ leafCellsList f.childrenR)

/-- The reachable-state invariant for a nonempty tree: the arena stores `d`,
the root points at `d`, the ids of `d` are exactly the allocated ids (each
used once — no sharing, no garbage), `d` is well-formed with no outer
bounds, and its sibling chain is intact. -/
def InvTree (s : BPlusTreeState) (d : DTree) : Prop :=
  Decodes s d ∧ s.root_ = some (dId d) ∧
  (ids d).Perm (List.range s.nodes.length) ∧
  WF none none d ∧
  ChainOK (leafCells d)

/-- The reachable-state invariant: the tree is either the freshly
constructed empty one or stores a well-formed decorated tree. -/
def Inv (s : BPlusTreeState) : Prop :=
  (s.root_ = none ∧ s.nodes = []) ∨ ∃ d, InvTree s d

/-- First-match association lookup, mirroring the linear scan of `search`. -/
def lookupKey (key : Int) : List (Int × Int) → Option Int
  | [] => none
  | (k, v) :: rest => if k = key then some v else lookupKey key rest

/-- Insert a (key, value) pair into a sorted association list, in front of
the first strictly larger key. -/
def insPair (x v : Int) : List (Int × Int) → List (Int × Int)
  | [] => [(x, v)]
  | (k, w) :: rest => if x < k then (x, v) :: (k, w) :: rest else (k, w) :: insPair x v rest

/-- Overwrite the value of the first occurrence of key `x`. -/
def setPair (x v : Int) : List (Int × Int) → List (Int × Int)
  | [] => []
  | (k, w) :: rest => if k = x then (k, v) :: rest else (k, w) :: setPair x v rest

/-- Update-or-insert on a sorted association list: the abstract effect of
one `insert` call. -/
def updAssoc (x v : Int) (l : List (Int × Int)) : List (Int × Int) :=
  if (lookupKey x l).isSome then setPair x v l else insPair x v l

/-- The abstract contents of the tree after a sequence of inserts. -/
def canon (ps : List (Int × Int)) : List (Int × Int) :=
  ps.foldl (fun l p => updAssoc p.1 p.2 l) []

/-- The value of the most recent insert with key `k` in the sequence `ps`. -/
def mostRecent (ps : List (Int × Int)) (k : Int) : Option Int :=
  ((ps.filter (fun p => p.1 = k)).getLast?).map Prod.snd

/-- Context bounds relative to given outer bounds: like `CtxBounds`, but the
outermost hole bounds are `(olo, ohi)` rather than `(none, none)`.  Used to
build a context incrementally while descending. -/
def CtxBoundsRel : List Frame → Option Int → Option Int → Option Int → Option Int → Prop
  | [], mlo, mhi, olo, ohi => mlo = olo ∧ mhi = ohi
  | f :: fs, mlo, mhi, olo, ohi => ∃ flo fhi,
    CtxBoundsRel fs flo fhi olo ohi ∧
    1 ≤ (f.keysL ++ f.keysR).length ∧
    (f.keysL ++ f.keysR).length ≤ kOrder - 1 ∧
    f.keysL.length = f.childrenL.length ∧
    WFKidsH flo fhi f.keysL f.childrenL f.keysR f.childrenR mlo mhi

/-- One leaf of the tree: its arena id, keys, values and next pointer. -/
structure LRec where
  lid : Nat
  lks : List Int
  lvs : List Int
  lnx : Option Nat

mutual

/-- The leaves of the tree in left-to-right order, with full contents. -/
def leafRecs : DTree → List LRec
  | .leaf i ks vs nx => [⟨i, ks, vs, nx⟩]
  | .node _ _ cs => leafRecsList cs

def leafRecsList : List DTree → List LRec
  | [] => []
  | c :: cs => leafRecs c ++ leafRecsList cs

end

mutual

/-- Every key appearing in any node of the tree (leaf keys and internal
separators). -/
def allKeys : DTree → List Int
  | .leaf _ ks _ _ => ks
  | .node _ ks cs => ks ++ allKeysList cs

def allKeysList : List DTree → List Int
  | [] => []
  | c :: cs => allKeys c ++ allKeysList cs

end

mutual

/-- All subtrees of a decorated tree (the tree itself included). -/
def subtrees : DTree → List DTree
  | .leaf i ks vs nx => [.leaf i ks vs nx]
  | .node i ks cs => .node i ks cs :: subtreesList cs

def subtreesList : List DTree → List DTree
  | [] => []
  | c :: cs => subtrees c ++ subtreesList cs

end

/-- A node's shape: everything except the stored values.  An insert that hits
an existing key changes no node's shape. -/
def nodeShape : BPlusNode → BPlusNode
  | .leaf ks _ nx => .leaf ks [] nx
  | .internal ks cs => .internal ks cs

/-- The number of keys a node record holds (`keys_.size()`). -/
def keyCount : BPlusNode → Nat
  | .leaf ks _ _ => ks.length
  | .internal ks _ => ks.length

/-- Descend along the first child pointer down to a leaf: the leftmost leaf
of the tree (the starting point of a sibling-chain walk). -/
def leftmostLeafRec (s : BPlusTreeState) : Nat → Option Nat → Option Nat
  | _, none => none
  | 0, some _ => none
  | fuel + 1, some cur =>
    match getNode s cur with
    | some (.leaf ..) => some cur
    | some (.internal _ children) => leftmostLeafRec s fuel children[0]?
    | none => none

/-- The leftmost leaf of the stored tree. -/
def leftmostLeaf (s : BPlusTreeState) : Option Nat :=
  leftmostLeafRec s (s.nodes.length + 1) s.root_

/-- Walk the sibling chain from a leaf, collecting every key in order. -/
def walkChain (s : BPlusTreeState) : Nat → Option Nat → List Int
  | _, none => []
  | 0, some _ => []
  | fuel + 1, some cur =>
    match getNode s cur with
    | some (.leaf ks _ nx) => ks ++ walkChain s fuel nx
    | _ => []

/-- All keys of the tree in sibling-chain order, starting at the leftmost
leaf. -/
def walkAll (s : BPlusTreeState) : List Int :=
  walkChain s (s.nodes.length + 1) (leftmostLeaf s)

/-- The state `s` stores exactly the association list `l` (in leaf order):
either the freshly constructed empty tree, or a well-formed tree whose
entries are `l`. -/
def Models (s : BPlusTreeState) (l : List (Int × Int)) : Prop :=
  (s.root_ = none ∧ s.nodes = [] ∧ l = []) ∨ ∃ d, InvTree s d ∧ entries d = l

/-- A small reachable state used to instantiate invariant claims: the tree
after inserting (10,100), (20,200), (5,50), (6,60) — one leaf split has
occurred, so the root is internal with two leaf children. -/
def wstate9 : BPlusTreeState := insertAll [(10, 100), (20, 200), (5, 50), (6, 60)] emptyTree

/-- The decorated tree stored by `wstate9`. -/
def wtree9 : DTree :=
  .node 2 [10] [.leaf 0 [5, 6] [50, 60] (some 1), .leaf 1 [10, 20] [100, 200] none]

/-! ## Shape observations used by the demo-scenario claim -/

/-- Is the node behind id `i` an internal node? -/
def isInternalB (s : BPlusTreeState) (i : Nat) : Bool :=
  match getNode s i with
  | some (.internal ..) => true
  | _ => false

/-- The root exists, is internal, and has at least one internal child — i.e.
the tree is at least three levels tall. -/
def rootHasInternalChildB (s : BPlusTreeState) : Bool :=
  match s.root_ with
  | some r =>
    match getNode s r with
    | some (.internal _ cs) => cs.any (fun c => isInternalB s c)
    | _ => false
  | none => false

/-- The root is an internal node all of whose children are leaves — i.e. the
tree has exactly two levels. -/
def rootChildrenAllLeavesB (s : BPlusTreeState) : Bool :=
  match s.root_ with
  | some r =>
    match getNode s r with
    | some (.internal _ cs) => cs.all (fun c => !isInternalB s c)
    | _ => false
  | none => false

/-- A one-node tree whose root leaf is full, used to instantiate the C6
split theorem. -/
def ws6 : BPlusTreeState := ⟨[.leaf [1, 2, 3, 4] [10, 20, 30, 40] none], some 0⟩

/-- A one-node tree whose root is a full internal node, used to instantiate
the C7 split theorem. -/
def ws7 : BPlusTreeState := ⟨[.internal [1, 2, 3, 4] [10, 11, 12, 13, 14]], some 0⟩

/-! ## Basic arena lemmas -/

theorem getNode_lt {s : BPlusTreeState} {i : Nat} {n : BPlusNode}
    (h : getNode s i = some n) : i < s.nodes.length := by
  by_contra hlt
  rw [getNode, List.getElem?_eq_none (Nat.le_of_not_lt hlt)] at h
  exact Option.noConfusion h

theorem getNode_setNode_self {s : BPlusTreeState} {i : Nat} (n : BPlusNode)
    (h : i < s.nodes.length) : getNode (setNode s i n) i = some n := by
  simp [getNode, setNode, List.getElem?_set, h]

theorem getNode_setNode_ne {s : BPlusTreeState} {i j : Nat} (n : BPlusNode)
    (h : j ≠ i) : getNode (setNode s j n) i = getNode s i := by
  simp [getNode, setNode, List.getElem?_set_ne h]

theorem getNode_alloc_self (s : BPlusTreeState) (n : BPlusNode) :
    getNode (alloc s n) s.nodes.length = some n :=
  List.getElem?_concat_length s.nodes n

theorem getNode_alloc_ne {s : BPlusTreeState} {i : Nat} (n : BPlusNode)
    (h : i ≠ s.nodes.length) : getNode (alloc s n) i = getNode s i := by
  rcases Nat.lt_or_ge i s.nodes.length with h' | h'
  · simp [getNode, alloc, List.getElem?_append_left h']
  · have hle : (alloc s n).nodes.length ≤ i := by
      simp only [alloc, List.length_append, List.length_singleton]
      omega
    rw [getNode, getNode, List.getElem?_eq_none h', List.getElem?_eq_none hle]

theorem getNode_alloc_lt {s : BPlusTreeState} {i : Nat} (n : BPlusNode)
    (h : i < s.nodes.length) : getNode (alloc s n) i = getNode s i :=
  getNode_alloc_ne n (Nat.ne_of_lt h)

theorem root_setNode (s : BPlusTreeState) (i : Nat) (n : BPlusNode) :
    (setNode s i n).root_ = s.root_ := rfl

theorem root_alloc (s : BPlusTreeState) (n : BPlusNode) :
    (alloc s n).root_ = s.root_ := rfl

theorem length_setNode (s : BPlusTreeState) (i : Nat) (n : BPlusNode) :
    (setNode s i n).nodes.length = s.nodes.length := List.length_set s.nodes i n

theorem length_alloc (s : BPlusTreeState) (n : BPlusNode) :
    (alloc s n).nodes.length = s.nodes.length + 1 := by
  simp [alloc]

theorem getNode_withRoot (s : BPlusTreeState) (r : Option Nat) (i : Nat) :
    getNode { s with root_ := r } i = getNode s i := rfl

/-- The split cascade only ever mutates internal nodes (and allocates fresh
ones past the end of the arena): any leaf record already in the arena is left
untouched by `splitInternalNode` and `insertInternalUpKey`. -/
theorem cascade_preserves_leaf (fuel : Nat) :
    (∀ s nid i ks vs nx, getNode s i = some (.leaf ks vs nx) →
      getNode (splitInternalNode s fuel nid) i = some (.leaf ks vs nx)) ∧
    (∀ s key l r i ks vs nx, getNode s i = some (.leaf ks vs nx) →
      getNode (insertInternalUpKey s fuel key l r) i = some (.leaf ks vs nx)) := by
  induction fuel with
  | zero =>
    refine ⟨?_, ?_⟩
    · intro s nid i ks vs nx h
      simpa [splitInternalNode] using h
    · intro s key l r i ks vs nx h
      simpa [insertInternalUpKey] using h
  | succ fuel ih =>
    refine ⟨?_, ?_⟩
    · intro s nid i ks vs nx h
      have hi : i < s.nodes.length := getNode_lt h
      rw [splitInternalNode]
      split
      · next keys children heq =>
        have hne : i ≠ nid := by
          intro e
          rw [e, heq] at h
          exact BPlusNode.noConfusion (Option.some.inj h)
        dsimp only
        split
        · rw [getNode_withRoot, getNode_alloc_ne, getNode_setNode_ne _ (Ne.symm hne),
            getNode_alloc_ne _ (Nat.ne_of_lt hi)]
          · exact h
          · rw [length_setNode, length_alloc]
            omega
        · exact ih.2 _ _ _ _ _ _ _ _ (by
            rw [getNode_setNode_ne _ (Ne.symm hne), getNode_alloc_ne _ (Nat.ne_of_lt hi)]
            exact h)
      · exact h
    · intro s key l r i ks vs nx h
      rw [insertInternalUpKey]
      split
      · exact h
      · next pid hp =>
        split
        · next keys children heq =>
          have hne : i ≠ pid := by
            intro e
            rw [e, heq] at h
            exact BPlusNode.noConfusion (Option.some.inj h)
          dsimp only
          split
          · exact ih.1 _ _ _ _ _ _ (by
              rw [getNode_setNode_ne _ (Ne.symm hne)]
              exact h)
          · rw [getNode_setNode_ne _ (Ne.symm hne)]
            exact h
        · exact h

/-- `insertInternalNode` (the leaf-split entry point of the cascade) also
leaves every leaf record untouched except for the nodes it explicitly
rewires. -/
theorem insertInternalNode_preserves_leaf {s : BPlusTreeState} (fuel : Nat)
    (key : Int) (l r : Nat) {i : Nat} {ks vs : List Int} {nx : Option Nat}
    (h : getNode s i = some (.leaf ks vs nx)) :
    getNode (insertInternalNode s fuel key l r) i = some (.leaf ks vs nx) := by
  rw [insertInternalNode]
  split
  · exact h
  · next pid hp =>
    split
    · next keys children heq =>
      have hne : i ≠ pid := by
        intro e
        rw [e, heq] at h
        exact BPlusNode.noConfusion (Option.some.inj h)
      dsimp only
      split
      · exact (cascade_preserves_leaf fuel).1 _ _ _ _ _ _ (by
          rw [getNode_setNode_ne _ (Ne.symm hne)]
          exact h)
      · rw [getNode_setNode_ne _ (Ne.symm hne)]
        exact h
    · exact h

/-- **C8, counterexample.**  Running the nine demo inserts
(10,100), (20,200), (5,50), (6,60), (15,150), (25,250), (2,20), (16,160),
(18,180) from the empty tree does NOT produce a three-level tree: the root is
internal but none of its children is internal, so the claim as stated
(three-level tree together with the two search results) is false. -/
theorem C8_three_level_counterexample :
    ¬ (rootHasInternalChildB (insertAll demoInserts emptyTree) = true ∧
       search (insertAll demoInserts emptyTree) 18 = some 180 ∧
       search (insertAll demoInserts emptyTree) 30 = none) := by
  intro h
  exact absurd h.1 (by decide)

/-- **C8, amended.**  Running the nine demo inserts from the empty tree
produces a two-level tree: the root is an Internal node holding exactly the
keys `[10, 16, 20]`, and every child of the root is a Leaf; afterwards
`search 18` returns `180` and `search 30` returns `none`. -/
theorem C8_demo_two_level :
    (∃ r cs, (insertAll demoInserts emptyTree).root_ = some r ∧
      getNode (insertAll demoInserts emptyTree) r =
        some (.internal [10, 16, 20] cs)) ∧
    rootChildrenAllLeavesB (insertAll demoInserts emptyTree) = true ∧
    search (insertAll demoInserts emptyTree) 18 = some 180 ∧
    search (insertAll demoInserts emptyTree) 30 = none := by
  exact ⟨⟨2, [0, 1, 4, 3], by decide, by decide⟩, by decide, by decide, by decide⟩

/-- **C6.**  Splitting a leaf holding `kOrder = 4` entries `[a,b,c,d]` moves
exactly the entries at positions `[mid, 4)` (`mid = 4 / 2 = 2`, i.e. `[c,d]`)
into a newly created leaf (id `s.nodes.length`), keeps `[a,b]` in the
original, gives the new leaf the original's old `next_`, points the
original's `next_` at the new leaf, and: if the split leaf was the root, the
new root is an internal node whose single separator key is `c` — the first
key of the new right leaf — with children (original, new) in order;
otherwise the pair (separator `c`, new leaf) is handed to
`insertInternalNode`. -/
theorem C6_splitLeafNode_spec (s : BPlusTreeState) (fuel leafId : Nat)
    (a b c d w x y z : Int) (nx : Option Nat)
    (hleaf : getNode s leafId = some (.leaf [a, b, c, d] [w, x, y, z] nx)) :
    getNode (splitLeafNode s fuel leafId) s.nodes.length =
      some (.leaf [c, d] [y, z] nx) ∧
    getNode (splitLeafNode s fuel leafId) leafId =
      some (.leaf [a, b] [w, x] (some s.nodes.length)) ∧
    (s.root_ = some leafId →
      (splitLeafNode s fuel leafId).root_ = some (s.nodes.length + 1) ∧
      getNode (splitLeafNode s fuel leafId) (s.nodes.length + 1) =
        some (.internal [c] [leafId, s.nodes.length])) ∧
    (s.root_ ≠ some leafId →
      splitLeafNode s fuel leafId =
        insertInternalNode
          (setNode (alloc s (.leaf [c, d] [y, z] nx)) leafId
            (.leaf [a, b] [w, x] (some s.nodes.length)))
          fuel c leafId s.nodes.length) := by
  have hlt : leafId < s.nodes.length := getNode_lt hleaf
  have hsplit : splitLeafNode s fuel leafId =
      if s.root_ = some leafId then
        { alloc (setNode (alloc s (.leaf [c, d] [y, z] nx)) leafId
            (.leaf [a, b] [w, x] (some s.nodes.length)))
            (.internal [c] [leafId, s.nodes.length]) with
          root_ := some (setNode (alloc s (.leaf [c, d] [y, z] nx)) leafId
            (.leaf [a, b] [w, x] (some s.nodes.length))).nodes.length }
      else
        insertInternalNode (setNode (alloc s (.leaf [c, d] [y, z] nx)) leafId
          (.leaf [a, b] [w, x] (some s.nodes.length))) fuel c leafId s.nodes.length := by
    rw [splitLeafNode, hleaf]
    norm_num [root_setNode, root_alloc, List.take_succ_cons, List.take_zero,
      List.drop_succ_cons, List.drop_zero]
  have hlen2 : (setNode (alloc s (.leaf [c, d] [y, z] nx)) leafId
      (.leaf [a, b] [w, x] (some s.nodes.length))).nodes.length = s.nodes.length + 1 := by
    rw [length_setNode, length_alloc]
  rw [hsplit]
  by_cases hroot : s.root_ = some leafId
  · rw [if_pos hroot]
    refine ⟨?_, ?_, fun _ => ⟨?_, ?_⟩, fun hn => absurd hroot hn⟩
    · rw [getNode_withRoot, getNode_alloc_ne _ (by rw [hlen2]; omega),
        getNode_setNode_ne _ (Nat.ne_of_lt hlt), getNode_alloc_self]
    · rw [getNode_withRoot, getNode_alloc_ne _ (by rw [hlen2]; omega),
        getNode_setNode_self _ (by rw [length_alloc]; omega)]
    · show some _ = _
      rw [hlen2]
    · rw [getNode_withRoot, ← hlen2, getNode_alloc_self]
  · rw [if_neg hroot]
    refine ⟨?_, ?_, fun hr => absurd hr hroot, fun _ => rfl⟩
    · exact insertInternalNode_preserves_leaf fuel _ _ _ (by
        rw [getNode_setNode_ne _ (Nat.ne_of_lt hlt), getNode_alloc_self])
    · exact insertInternalNode_preserves_leaf fuel _ _ _
        (getNode_setNode_self _ (by rw [length_alloc]; omega))

/-- **C7.**  Splitting an internal node holding `kOrder = 4` keys
`[a,b,c,d]` promotes the key at `midIndex = 4 / 2 = 2` (namely `c`), which —
the keys being strictly ascending — appears in neither resulting node: the
keys after `midIndex` (`[d]`) move to a fresh internal node together with the
children from index `midIndex + 1 = 3` onward, while the keys before
`midIndex` (`[a,b]`) and the first three children remain in the original.  If
the split node was the root, a new root holding `c` and the two halves is
installed; otherwise `c` and the new node are handed to
`insertInternalUpKey` (which may cascade further). -/
theorem C7_splitInternalNode_spec (s : BPlusTreeState) (fuel nid : Nat)
    (a b c d : Int) (cs : List Nat)
    (hnode : getNode s nid = some (.internal [a, b, c, d] cs))
    (hab : a < b) (hbc : b < c) (hcd : c < d) :
    (c ∉ ([a, b] : List Int) ∧ c ∉ ([d] : List Int)) ∧
    (s.root_ = some nid →
      (splitInternalNode s (fuel + 1) nid).root_ = some (s.nodes.length + 1) ∧
      getNode (splitInternalNode s (fuel + 1) nid) (s.nodes.length + 1) =
        some (.internal [c] [nid, s.nodes.length]) ∧
      getNode (splitInternalNode s (fuel + 1) nid) nid =
        some (.internal [a, b] (cs.take 3)) ∧
      getNode (splitInternalNode s (fuel + 1) nid) s.nodes.length =
        some (.internal [d] (cs.drop 3))) ∧
    (s.root_ ≠ some nid →
      splitInternalNode s (fuel + 1) nid =
        insertInternalUpKey
          (setNode (alloc s (.internal [d] (cs.drop 3))) nid
            (.internal [a, b] (cs.take 3)))
          fuel c nid s.nodes.length) := by
  have hlt : nid < s.nodes.length := getNode_lt hnode
  have hsplit : splitInternalNode s (fuel + 1) nid =
      if s.root_ = some nid then
        { alloc (setNode (alloc s (.internal [d] (cs.drop 3))) nid
            (.internal [a, b] (cs.take 3)))
            (.internal [c] [nid, s.nodes.length]) with
          root_ := some (setNode (alloc s (.internal [d] (cs.drop 3))) nid
            (.internal [a, b] (cs.take 3))).nodes.length }
      else
        insertInternalUpKey (setNode (alloc s (.internal [d] (cs.drop 3))) nid
          (.internal [a, b] (cs.take 3))) fuel c nid s.nodes.length := by
    rw [splitInternalNode, hnode]
    norm_num [root_setNode, root_alloc, List.take_succ_cons, List.take_zero,
      List.drop_succ_cons, List.drop_zero]
  have hlen2 : (setNode (alloc s (.internal [d] (cs.drop 3))) nid
      (.internal [a, b] (cs.take 3))).nodes.length = s.nodes.length + 1 := by
    rw [length_setNode, length_alloc]
  refine ⟨⟨?_, ?_⟩, ?_, ?_⟩
  · intro hc
    rcases List.mem_pair.mp hc with e | e <;> omega
  · intro hc
    have e := List.mem_singleton.mp hc
    omega
  · intro hroot
    rw [hsplit, if_pos hroot]
    refine ⟨?_, ?_, ?_, ?_⟩
    · show some _ = _
      rw [hlen2]
    · rw [getNode_withRoot, ← hlen2, getNode_alloc_self]
    · rw [getNode_withRoot, getNode_alloc_ne _ (by rw [hlen2]; omega),
        getNode_setNode_self _ (by rw [length_alloc]; omega)]
    · rw [getNode_withRoot, getNode_alloc_ne _ (by rw [hlen2]; omega),
        getNode_setNode_ne _ (Nat.ne_of_lt hlt), getNode_alloc_self]
  · intro hroot
    rw [hsplit, if_neg hroot]

theorem C6_splitLeafNode_spec_witness :
    getNode ws6 0 = some (.leaf [1, 2, 3, 4] [10, 20, 30, 40] none) ∧
    (getNode (splitLeafNode ws6 0 0) 1 = some (.leaf [3, 4] [30, 40] none) ∧
     getNode (splitLeafNode ws6 0 0) 0 = some (.leaf [1, 2] [10, 20] (some 1)) ∧
     (ws6.root_ = some 0 →
       (splitLeafNode ws6 0 0).root_ = some 2 ∧
       getNode (splitLeafNode ws6 0 0) 2 = some (.internal [3] [0, 1])) ∧
     (ws6.root_ ≠ some 0 →
       splitLeafNode ws6 0 0 =
         insertInternalNode (setNode (alloc ws6 (.leaf [3, 4] [30, 40] none)) 0
           (.leaf [1, 2] [10, 20] (some 1))) 0 3 0 1)) :=
  ⟨rfl, C6_splitLeafNode_spec ws6 0 0 1 2 3 4 10 20 30 40 none rfl⟩

theorem dtree_ind (P : DTree → Prop)
    (hleaf : ∀ i ks vs nx, P (.leaf i ks vs nx))
    (hnode : ∀ i ks cs, (∀ c, c ∈ cs → P c) → P (.node i ks cs)) :
    ∀ d, P d := by
  have key : ∀ n d, sizeOf d ≤ n → P d := by
    intro n
    induction n with
    | zero =>
      intro d hd
      cases d <;> simp_arith at hd
    | succ n ih =>
      intro d hd
      cases d with
      | leaf i ks vs nx => exact hleaf i ks vs nx
      | node i ks cs =>
        refine hnode i ks cs fun c hc => ih c ?_
        have h1 := List.sizeOf_lt_of_mem hc
        simp only [DTree.node.sizeOf_spec] at hd
        omega
  exact fun d => key (sizeOf d) d le_rfl

theorem decodesList_iff {s : BPlusTreeState} {cs : List DTree} :
    DecodesList s cs ↔ ∀ c ∈ cs, Decodes s c := by
  induction cs with
  | nil => simp [DecodesList]
  | cons c cs ih => simp [DecodesList, ih]

theorem idsList_eq {cs : List DTree} : idsList cs = (cs.map ids).flatten := by
  induction cs with
  | nil => simp [idsList]
  | cons c cs ih => simp [idsList, ih]

theorem dId_mem_ids : ∀ d : DTree, dId d ∈ ids d := by
  intro d
  cases d with
  | leaf i ks vs nx => simp [dId, ids]
  | node i ks cs => simp [dId, ids]

theorem ids_sub_idsList {cs : List DTree} {c : DTree} (hc : c ∈ cs) :
    ∀ j ∈ ids c, j ∈ idsList cs := by
  intro j hj
  rw [idsList_eq]
  exact List.mem_flatten.mpr ⟨ids c, List.mem_map_of_mem ids hc, hj⟩

theorem decodes_ids_lt {s : BPlusTreeState} :
    ∀ d, Decodes s d → ∀ j ∈ ids d, j < s.nodes.length := by
  refine dtree_ind _ ?_ ?_
  · intro i ks vs nx hd j hj
    simp only [ids, List.mem_singleton] at hj
    subst hj
    exact getNode_lt hd
  · intro i ks cs ih hd j hj
    simp only [ids, List.mem_cons] at hj
    rcases hj with rfl | hj
    · exact getNode_lt hd.1
    · rw [idsList_eq] at hj
      rcases List.mem_flatten.mp hj with ⟨l, hl, hjl⟩
      rcases List.mem_map.mp hl with ⟨c, hc, rfl⟩
      exact ih c hc (decodesList_iff.mp hd.2 c hc) j hjl

theorem decodes_alloc {s : BPlusTreeState} {n : BPlusNode} :
    ∀ d, Decodes s d → Decodes (alloc s n) d := by
  refine dtree_ind _ ?_ ?_
  · intro i ks vs nx hd
    have hi : i < s.nodes.length := getNode_lt hd
    simpa [Decodes, getNode_alloc_lt n hi] using hd
  · intro i ks cs ih hd
    have hi : i < s.nodes.length := getNode_lt hd.1
    refine ⟨by simpa [getNode_alloc_lt n hi] using hd.1, ?_⟩
    rw [decodesList_iff]
    intro c hc
    exact ih c hc (decodesList_iff.mp hd.2 c hc)

theorem decodes_setNode_off {s : BPlusTreeState} {j : Nat} {n : BPlusNode} :
    ∀ d, Decodes s d → j ∉ ids d → Decodes (setNode s j n) d := by
  refine dtree_ind _ ?_ ?_
  · intro i ks vs nx hd hj
    have hji : j ≠ i := by
      intro e
      exact hj (by simp [e, ids])
    simpa [Decodes, getNode_setNode_ne n hji] using hd
  · intro i ks cs ih hd hj
    have hji : j ≠ i := by
      intro e
      exact hj (by simp [e, ids])
    refine ⟨by simpa [getNode_setNode_ne n hji] using hd.1, ?_⟩
    rw [decodesList_iff]
    intro c hc
    refine ih c hc (decodesList_iff.mp hd.2 c hc) ?_
    intro hmem
    exact hj (by simp only [ids, List.mem_cons]; exact Or.inr (ids_sub_idsList hc j hmem))

/-- `Decodes` only inspects the arena, never the root pointer: two states
with the same node list decode the same trees. -/
theorem decodes_nodes_eq {s1 s2 : BPlusTreeState} (h : s1.nodes = s2.nodes) :
    ∀ d, Decodes s1 d → Decodes s2 d := by
  have hg : ∀ i, getNode s2 i = getNode s1 i := by
    intro i
    simp [getNode, h]
  refine dtree_ind _ ?_ ?_
  · intro i ks vs nx hd
    simpa [Decodes, hg] using hd
  · intro i ks cs ih hd
    refine ⟨by simpa [hg] using hd.1, ?_⟩
    rw [decodesList_iff]
    intro c hc
    exact ih c hc (decodesList_iff.mp hd.2 c hc)

theorem targetIn_eq {key : Int} : ∀ (cs : List DTree) (n : Nat),
    targetIn key n cs =
      match cs[n]? with
      | some c => targetLeaf key c
      | none => none := by
  intro cs
  induction cs with
  | nil => intro n; cases n <;> simp [targetIn]
  | cons c cs ih =>
    intro n
    cases n with
    | zero => simp [targetIn]
    | succ n => simpa [targetIn] using ih n

theorem depth_le_depthList {cs : List DTree} {c : DTree} (hc : c ∈ cs) :
    depth c ≤ depthList cs := by
  induction cs with
  | nil => cases hc
  | cons c' cs ih =>
    rcases List.mem_cons.mp hc with rfl | hc
    · rw [depthList]
      exact Nat.le_max_left _ _
    · rw [depthList]
      exact le_trans (ih hc) (Nat.le_max_right _ _)

theorem depth_le_ids_length : ∀ d : DTree, depth d ≤ (ids d).length := by
  refine dtree_ind _ ?_ ?_
  · intro i ks vs nx
    simp [depth, ids]
  · intro i ks cs ih
    have hlist : depthList cs ≤ (idsList cs).length := by
      clear i ks
      induction cs with
      | nil => simp [depthList, idsList]
      | cons c cs ihcs =>
        rw [depthList, idsList]
        have h1 : depth c ≤ (ids c).length := ih c (List.mem_cons_self c cs)
        have h2 : depthList cs ≤ (idsList cs).length :=
          ihcs fun c' hc' => ih c' (List.mem_cons_of_mem c hc')
        simp only [List.length_append]
        have h3 : 1 ≤ (ids c).length := by
          have := dId_mem_ids c
          cases h : ids c with
          | nil => rw [h] at this; cases this
          | cons a l => simp [h]
        omega
    rw [depth, ids]
    simp only [List.length_cons]
    omega

theorem weight_add_two_le : ∀ d : DTree, weight d + 2 ≤ 3 * (ids d).length := by
  refine dtree_ind _ ?_ ?_
  · intro i ks vs nx
    simp [weight, ids]
  · intro i ks cs ih
    have hlist : weightList cs + cs.length ≤ 3 * (idsList cs).length := by
      clear i ks
      induction cs with
      | nil => simp [weightList, idsList]
      | cons c cs ihcs =>
        rw [weightList, idsList]
        have h1 := ih c (List.mem_cons_self c cs)
        have h2 := ihcs fun c' hc' => ih c' (List.mem_cons_of_mem c hc')
        simp only [List.length_append, List.length_cons]
        omega
    rw [weight, ids]
    simp only [List.length_cons]
    omega

theorem findLeafRec_eq {s : BPlusTreeState} {key : Int} :
    ∀ d, Decodes s d → ∀ fuel, depth d ≤ fuel →
      findLeafRec s key fuel (some (dId d)) = (targetLeaf key d).map dId := by
  refine dtree_ind _ ?_ ?_
  · intro i ks vs nx hd fuel hf
    rw [depth] at hf
    cases fuel with
    | zero => omega
    | succ f =>
      rw [Decodes] at hd
      simp [findLeafRec, dId, hd, targetLeaf]
  · intro i ks cs ih hd fuel hf
    rw [depth] at hf
    cases fuel with
    | zero => omega
    | succ f =>
      rw [Decodes] at hd
      rw [dId, findLeafRec, hd.1]
      dsimp only
      rw [targetLeaf, targetIn_eq]
      have hidx : (childIds cs)[(ks.takeWhile (fun k => k ≤ key)).length]? =
          (cs[(ks.takeWhile (fun k => k ≤ key)).length]?).map dId := by
        rw [childIds, List.getElem?_map]
      cases hc : cs[(ks.takeWhile (fun k => k ≤ key)).length]? with
      | none =>
        rw [hidx, hc]
        cases f <;> rfl
      | some c =>
        have hcm : c ∈ cs := by
          rcases List.getElem?_eq_some.mp hc with ⟨hlt, he⟩
          exact he ▸ List.getElem_mem hlt
        have hrec := ih c hcm (decodesList_iff.mp hd.2 c hcm) f
          (le_trans (depth_le_depthList hcm) (by omega))
        rw [hidx, hc]
        exact hrec

theorem findParentRec_eq {s : BPlusTreeState} {child : Nat} :
    ∀ d, Decodes s d → ∀ fuel, weight d ≤ fuel →
      findParentRec s fuel (some (dId d)) child = parentOf child d := by
  refine dtree_ind _ ?_ ?_
  · intro i ks vs nx hd fuel hf
    rw [weight] at hf
    cases fuel with
    | zero => omega
    | succ f =>
      rw [Decodes] at hd
      rw [dId, findParentRec, hd]
      rw [parentOf]
  · intro i ks cs ih hd fuel hf
    rw [weight] at hf
    cases fuel with
    | zero => omega
    | succ f =>
      rw [Decodes] at hd
      rw [dId, findParentRec, hd.1]
      dsimp only
      rw [parentOf]
      have hscan : ∀ (cs' : List DTree), DecodesList s cs' →
          (∀ c ∈ cs', ∀ fl, weight c ≤ fl →
            findParentRec s fl (some (dId c)) child = parentOf child c) →
          ∀ f' cur, weightList cs' ≤ f' →
            findParentScan s f' cur (childIds cs') child = parentScan child cur cs' := by
        intro cs'
        induction cs' with
        | nil =>
          intro _ _ f' cur _
          rw [childIds, List.map_nil, parentScan]
          cases f' <;> rfl
        | cons c cs' ihs =>
          intro hdec ihm f' cur hw
          rw [weightList] at hw
          cases f' with
          | zero => omega
          | succ f2 =>
            rw [childIds, List.map_cons, findParentScan, parentScan]
            by_cases hceq : dId c = child
            · rw [if_pos hceq, if_pos hceq]
            · rw [if_neg hceq, if_neg hceq]
              have hrest : findParentScan s f2 cur (childIds cs') child =
                  parentScan child cur cs' := by
                refine ihs hdec.2 (fun c' hc' => ihm c' (List.mem_cons_of_mem c hc')) f2 cur ?_
                omega
              cases c with
              | leaf ci cks cvs cnx =>
                have hcd := hdec.1
                rw [Decodes] at hcd
                rw [dId] at hceq ⊢
                rw [hcd]
                dsimp only
                rw [parentOf]
                dsimp only
                exact hrest
              | node ci cks ccs =>
                have hcd := hdec.1
                rw [Decodes] at hcd
                rw [dId] at hceq ⊢
                rw [hcd.1]
                dsimp only
                have hrec : findParentRec s f2 (some ci) child =
                    parentOf child (DTree.node ci cks ccs) := by
                  have := ihm (DTree.node ci cks ccs) (List.mem_cons_self _ _)
                  rw [dId] at this
                  exact this f2 (by omega)
                rw [hrec]
                cases hpo : parentOf child (DTree.node ci cks ccs) with
                | some p => rfl
                | none =>
                  dsimp only
                  exact hrest
      exact hscan cs hd.2 (fun c hc => ih c hc (decodesList_iff.mp hd.2 c hc)) f i (by omega)

/-- `findParent` (as called by the insertion helpers) agrees with the pure
depth-first parent computation on the decoded tree. -/
theorem findParent_eq {s : BPlusTreeState} {d : DTree} {child : Nat}
    (hdec : Decodes s d) (hroot : s.root_ = some (dId d))
    (hlen : (ids d).length ≤ s.nodes.length) :
    findParent s child = parentOf child d := by
  rw [findParent, hroot]
  refine findParentRec_eq d hdec _ ?_
  have := weight_add_two_le d
  omega

theorem childIds_append (cs1 cs2 : List DTree) :
    childIds (cs1 ++ cs2) = childIds cs1 ++ childIds cs2 := by
  simp [childIds]

theorem childIds_cons (c : DTree) (cs : List DTree) :
    childIds (c :: cs) = dId c :: childIds cs := rfl

theorem decodesList_append {s : BPlusTreeState} {cs1 cs2 : List DTree} :
    DecodesList s (cs1 ++ cs2) ↔ DecodesList s cs1 ∧ DecodesList s cs2 := by
  simp only [decodesList_iff, List.mem_append]
  constructor
  · intro h
    exact ⟨fun c hc => h c (Or.inl hc), fun c hc => h c (Or.inr hc)⟩
  · rintro ⟨h1, h2⟩ c hc
    exact hc.elim (h1 c) (h2 c)

theorem idsList_append (cs1 cs2 : List DTree) :
    idsList (cs1 ++ cs2) = idsList cs1 ++ idsList cs2 := by
  rw [idsList_eq, idsList_eq, idsList_eq, List.map_append, List.flatten_append]

theorem entriesList_append (cs1 cs2 : List DTree) :
    entriesList (cs1 ++ cs2) = entriesList cs1 ++ entriesList cs2 := by
  induction cs1 with
  | nil => simp [entriesList]
  | cons c cs ih => simp [entriesList, ih]

theorem leafCellsList_append (cs1 cs2 : List DTree) :
    leafCellsList (cs1 ++ cs2) = leafCellsList cs1 ++ leafCellsList cs2 := by
  induction cs1 with
  | nil => simp [leafCellsList]
  | cons c cs ih => simp [leafCellsList, ih]

theorem dId_plug1 (f : Frame) (t : DTree) : dId (plug1 f t) = f.fid := rfl

theorem decodes_plug1 {s : BPlusTreeState} {f : Frame} {t : DTree} :
    Decodes s (plug1 f t) ↔ FrameDecodes s f (dId t) ∧ Decodes s t := by
  rw [plug1, Decodes, FrameDecodes, childIds_append, childIds_cons]
  rw [show DecodesList s (f.childrenL ++ t :: f.childrenR) ↔
      DecodesList s f.childrenL ∧ Decodes s t ∧ DecodesList s f.childrenR by
    rw [decodesList_append]
    rw [show DecodesList s (t :: f.childrenR) ↔ Decodes s t ∧ DecodesList s f.childrenR
      from Iff.rfl]]
  tauto

theorem decodes_plug {s : BPlusTreeState} :
    ∀ (ctx : List Frame) (t : DTree),
      Decodes s (plug ctx t) ↔ CtxDecodes s ctx (dId t) ∧ Decodes s t := by
  intro ctx
  induction ctx with
  | nil => intro t; simp [plug, CtxDecodes]
  | cons f fs ih =>
    intro t
    rw [plug, ih (plug1 f t), dId_plug1, decodes_plug1, CtxDecodes]
    tauto

theorem ctxTopId_cons (f : Frame) (fs : List Frame) (h : Nat) :
    ctxTopId (f :: fs) h = ctxTopId fs f.fid := rfl

theorem dId_plug : ∀ (ctx : List Frame) (t : DTree), dId (plug ctx t) = ctxTopId ctx (dId t) := by
  intro ctx
  induction ctx with
  | nil => intro t; rfl
  | cons f fs ih => intro t; rw [plug, ih, ctxTopId_cons, dId_plug1]

theorem ids_plug1_perm (f : Frame) (t : DTree) :
    (ids (plug1 f t)).Perm (frameIds f ++ ids t) := by
  rw [plug1, ids, idsList_append, frameIds]
  rw [show idsList (t :: f.childrenR) = ids t ++ idsList f.childrenR from rfl]
  refine List.Perm.cons _ ?_
  refine List.Perm.trans (List.Perm.append_left _ List.perm_append_comm) ?_
  rw [← List.append_assoc]
  exact List.Perm.refl _

theorem ids_plug_perm : ∀ (ctx : List Frame) (t : DTree),
    (ids (plug ctx t)).Perm (ctxIds ctx ++ ids t) := by
  intro ctx
  induction ctx with
  | nil => intro t; simp [plug, ctxIds]
  | cons f fs ih =>
    intro t
    rw [plug, ctxIds]
    refine List.Perm.trans (ih (plug1 f t)) ?_
    refine List.Perm.trans (List.Perm.append_left _ (ids_plug1_perm f t)) ?_
    rw [← List.append_assoc, List.append_assoc (ctxIds fs)]
    refine List.Perm.trans ?_ (List.Perm.append_right (ids t) List.perm_append_comm)
    rw [List.append_assoc]

theorem entries_plug1 (f : Frame) (t : DTree) :
    entries (plug1 f t) =
      entriesList f.childrenL ++ entries t ++ entriesList f.childrenR := by
  rw [plug1, entries, entriesList_append]
  rw [show entriesList (t :: f.childrenR) = entries t ++ entriesList f.childrenR from rfl]
  rw [List.append_assoc]

theorem leafCells_plug1 (f : Frame) (t : DTree) :
    leafCells (plug1 f t) =
      leafCellsList f.childrenL ++ leafCells t ++ leafCellsList f.childrenR := by
  rw [plug1, leafCells, leafCellsList_append]
  rw [show leafCellsList (t :: f.childrenR) = leafCells t ++ leafCellsList f.childrenR from rfl]
  rw [List.append_assoc]

theorem decodesList_setNode_off {s : BPlusTreeState} {j : Nat} {n : BPlusNode}
    {cs : List DTree} (h : DecodesList s cs) (hj : j ∉ idsList cs) :
    DecodesList (setNode s j n) cs := by
  rw [decodesList_iff] at h ⊢
  intro c hc
  exact decodes_setNode_off c (h c hc) (fun hm => hj (ids_sub_idsList hc j hm))

theorem decodesList_alloc {s : BPlusTreeState} {n : BPlusNode}
    {cs : List DTree} (h : DecodesList s cs) : DecodesList (alloc s n) cs := by
  rw [decodesList_iff] at h ⊢
  intro c hc
  exact decodes_alloc c (h c hc)

theorem frameDecodes_setNode_off {s : BPlusTreeState} {j : Nat} {n : BPlusNode}
    {f : Frame} {h : Nat} (hf : FrameDecodes s f h) (hj : j ∉ frameIds f) :
    FrameDecodes (setNode s j n) f h := by
  rw [frameIds, List.mem_cons, not_or, List.mem_append, not_or] at hj
  exact ⟨by rw [getNode_setNode_ne n (fun e => hj.1 e)]; exact hf.1,
    decodesList_setNode_off hf.2.1 hj.2.1,
    decodesList_setNode_off hf.2.2 hj.2.2⟩

theorem frameDecodes_alloc {s : BPlusTreeState} {n : BPlusNode}
    {f : Frame} {h : Nat} (hf : FrameDecodes s f h) :
    FrameDecodes (alloc s n) f h :=
  ⟨by rw [getNode_alloc_lt n (getNode_lt hf.1)]; exact hf.1,
    decodesList_alloc hf.2.1, decodesList_alloc hf.2.2⟩

theorem ctxDecodes_setNode_off {s : BPlusTreeState} {j : Nat} {n : BPlusNode} :
    ∀ {fs : List Frame} {h : Nat}, CtxDecodes s fs h → j ∉ ctxIds fs →
      CtxDecodes (setNode s j n) fs h := by
  intro fs
  induction fs with
  | nil => intro h _ _; trivial
  | cons f fs ih =>
    intro h hc hj
    rw [ctxIds, List.mem_append, not_or] at hj
    exact ⟨frameDecodes_setNode_off hc.1 hj.1, ih hc.2 hj.2⟩

theorem ctxDecodes_alloc {s : BPlusTreeState} {n : BPlusNode} :
    ∀ {fs : List Frame} {h : Nat}, CtxDecodes s fs h → CtxDecodes (alloc s n) fs h := by
  intro fs
  induction fs with
  | nil => intro h _; trivial
  | cons f fs ih =>
    intro h hc
    exact ⟨frameDecodes_alloc hc.1, ih hc.2⟩

theorem hasPCList_iff {cs : List DTree} {p c : Nat} :
    HasPCList cs p c ↔ ∃ t ∈ cs, HasPC t p c := by
  induction cs with
  | nil => simp [HasPCList]
  | cons t ts ih => simp [HasPCList, ih]

theorem childIds_sub_idsList {cs : List DTree} {c : Nat} (h : c ∈ childIds cs) :
    c ∈ idsList cs := by
  rcases List.mem_map.mp h with ⟨t, ht, rfl⟩
  exact ids_sub_idsList ht _ (dId_mem_ids t)

theorem hasPC_mem_sub : ∀ d : DTree, ∀ p c : Nat, HasPC d p c →
    ∃ i ks cs, d = DTree.node i ks cs ∧ c ∈ idsList cs := by
  refine dtree_ind _ ?_ ?_
  · intro i ks vs nx p c h
    exact absurd h id
  · intro i ks cs ih p c h
    refine ⟨i, ks, cs, rfl, ?_⟩
    rcases h with ⟨rfl, hmem⟩ | hlist
    · exact childIds_sub_idsList hmem
    · rcases hasPCList_iff.mp hlist with ⟨t, ht, hpc⟩
      rcases ih t ht p c hpc with ⟨j, ks', cs', rfl, hmem'⟩
      refine ids_sub_idsList ht c ?_
      rw [ids]
      exact List.mem_cons_of_mem _ hmem'

theorem hasPC_child_mem {d : DTree} {p c : Nat} (h : HasPC d p c) : c ∈ ids d := by
  rcases hasPC_mem_sub d p c h with ⟨i, ks, cs, rfl, hmem⟩
  rw [ids]
  exact List.mem_cons_of_mem _ hmem

theorem parentOf_sound : ∀ d : DTree, ∀ p c : Nat,
    parentOf c d = some p → HasPC d p c := by
  refine dtree_ind _ ?_ ?_
  · intro i ks vs nx p c h
    rw [parentOf] at h
    exact Option.noConfusion h
  · intro i ks cs ih p c h
    rw [parentOf] at h
    rw [HasPC]
    have scan : ∀ ts : List DTree, (∀ t ∈ ts, t ∈ cs) →
        parentScan c i ts = some p →
        (i = p ∧ c ∈ childIds ts) ∨ HasPCList ts p c := by
      intro ts
      induction ts with
      | nil => intro _ h'; rw [parentScan] at h'; exact Option.noConfusion h'
      | cons t ts iht =>
        intro hsub h'
        rw [parentScan] at h'
        by_cases he : dId t = c
        · rw [if_pos he] at h'
          left
          exact ⟨Option.some.inj h', by
            rw [childIds_cons, he]
            exact List.mem_cons_self _ _⟩
        · rw [if_neg he] at h'
          cases hpo : parentOf c t with
          | some q =>
            rw [hpo] at h'
            have hqp : q = p := Option.some.inj h'
            exact Or.inr (Or.inl (hqp ▸ ih t (hsub t (List.mem_cons_self _ _)) q c hpo))
          | none =>
            rw [hpo] at h'
            rcases iht (fun u hu => hsub u (List.mem_cons_of_mem t hu)) h' with hl | hr
            · exact Or.inl ⟨hl.1, by
                rw [childIds_cons]
                exact List.mem_cons_of_mem _ hl.2⟩
            · exact Or.inr (Or.inr hr)
    exact scan cs (fun _ h => h) h

theorem nodup_first_seg {t : DTree} {ts : List DTree} {c : Nat}
    (hnd : (idsList (t :: ts)).Nodup) (h1 : c ∈ ids t) : c ∉ idsList ts := by
  rw [show idsList (t :: ts) = ids t ++ idsList ts from rfl] at hnd
  exact fun h2 => List.disjoint_of_nodup_append hnd h1 h2

theorem hasPC_uniq : ∀ d : DTree, (ids d).Nodup →
    ∀ p p' c, HasPC d p c → HasPC d p' c → p = p' := by
  refine dtree_ind _ ?_ ?_
  · intro i ks vs nx _ p p' c h
    exact absurd h id
  · intro i ks cs ih hnd p p' c h h'
    rw [ids] at hnd
    have hndl : (idsList cs).Nodup := (List.nodup_cons.mp hnd).2
    have noTwo : ∀ ts : List DTree, (∀ t ∈ ts, t ∈ cs) → (idsList ts).Nodup →
        (∀ q, ¬(c ∈ childIds ts ∧ HasPCList ts q c)) ∧
        (∀ q q', HasPCList ts q c → HasPCList ts q' c → q = q') := by
      intro ts
      induction ts with
      | nil =>
        intro _ _
        exact ⟨fun q h => absurd h.2 id, fun q q' h => absurd h id⟩
      | cons t ts iht =>
        intro hsub hnd2
        have hndt : (ids t).Nodup := by
          rw [show idsList (t :: ts) = ids t ++ idsList ts from rfl] at hnd2
          exact hnd2.of_append_left
        have hnds : (idsList ts).Nodup := by
          rw [show idsList (t :: ts) = ids t ++ idsList ts from rfl] at hnd2
          exact hnd2.of_append_right
        have hcross : ∀ q, HasPC t q c → c ∉ idsList ts := fun q hq =>
          nodup_first_seg hnd2 (hasPC_child_mem hq)
        have hIHs := iht (fun u hu => hsub u (List.mem_cons_of_mem t hu)) hnds
        constructor
        · rintro q ⟨hcm, hpl⟩
          rw [childIds_cons] at hcm
          rcases List.mem_cons.mp hcm with hceq | hcm2
          · rcases hpl with hpc | hpl2
            · rcases hasPC_mem_sub t q c hpc with ⟨j, ks2, cs2, heq, hmem⟩
              rw [heq, ids] at hndt
              rw [heq, dId] at hceq
              exact (List.nodup_cons.mp hndt).1 (hceq ▸ hmem)
            · rcases hasPCList_iff.mp hpl2 with ⟨u, hu1, hu2⟩
              exact nodup_first_seg hnd2 (hceq ▸ dId_mem_ids t)
                (ids_sub_idsList hu1 c (hasPC_child_mem hu2))
          · rcases hpl with hpc | hpl2
            · exact hcross q hpc (childIds_sub_idsList hcm2)
            · exact hIHs.1 q ⟨hcm2, hpl2⟩
        · intro q q' hl hl'
          rcases hl with hpc | hpl
          · rcases hl' with hpc' | hpl'
            · exact ih t (hsub t (List.mem_cons_self _ _)) hndt q q' c hpc hpc'
            · rcases hasPCList_iff.mp hpl' with ⟨u, hu1, hu2⟩
              exact absurd (ids_sub_idsList hu1 c (hasPC_child_mem hu2)) (hcross q hpc)
          · rcases hl' with hpc' | hpl'
            · rcases hasPCList_iff.mp hpl with ⟨u, hu1, hu2⟩
              exact absurd (ids_sub_idsList hu1 c (hasPC_child_mem hu2)) (hcross q' hpc')
            · exact hIHs.2 q q' hpl hpl'
    rcases h with ⟨he1, hcm⟩ | hpl
    · rcases h' with ⟨he2, _⟩ | hpl'
      · rw [← he1, ← he2]
      · exact absurd ⟨hcm, hpl'⟩ ((noTwo cs (fun _ h => h) hndl).1 p')
    · rcases h' with ⟨he2, hcm2⟩ | hpl'
      · exact absurd ⟨hcm2, hpl⟩ ((noTwo cs (fun _ h => h) hndl).1 p)
      · exact (noTwo cs (fun _ h => h) hndl).2 p p' hpl hpl'

theorem parentOf_complete : ∀ d : DTree, (ids d).Nodup →
    ∀ p c, HasPC d p c → parentOf c d = some p := by
  refine dtree_ind _ ?_ ?_
  · intro i ks vs nx _ p c h
    exact absurd h id
  · intro i ks cs ih hnd p c h
    rw [ids] at hnd
    have hndl : (idsList cs).Nodup := (List.nodup_cons.mp hnd).2
    rw [parentOf]
    have scan : ∀ ts : List DTree, (∀ t ∈ ts, t ∈ cs) → (idsList ts).Nodup →
        ((i = p ∧ c ∈ childIds ts) ∨ HasPCList ts p c) →
        parentScan c i ts = some p := by
      intro ts
      induction ts with
      | nil =>
        intro _ _ hyp
        rcases hyp with ⟨_, hm⟩ | hm
        · exact absurd hm (by simp [childIds])
        · exact absurd hm id
      | cons t ts iht =>
        intro hsub hnd2 hyp
        have hndt : (ids t).Nodup := by
          rw [show idsList (t :: ts) = ids t ++ idsList ts from rfl] at hnd2
          exact hnd2.of_append_left
        have hnds : (idsList ts).Nodup := by
          rw [show idsList (t :: ts) = ids t ++ idsList ts from rfl] at hnd2
          exact hnd2.of_append_right
        rw [parentScan]
        by_cases he : dId t = c
        · rw [if_pos he]
          -- the scan hits the child directly; show the claimed parent is `i`
          rcases hyp with ⟨rfl, _⟩ | hpl
          · rfl
          · rcases hasPCList_iff.mp hpl with ⟨u, hu1, hu2⟩
            rcases hasPC_mem_sub u p c hu2 with ⟨j, ks2, cs2, hueq, hmem⟩
            rcases List.mem_cons.mp hu1 with rfl | hu3
            · rw [hueq, ids] at hndt
              rw [hueq, dId] at he
              exact absurd (he ▸ hmem) (List.nodup_cons.mp hndt).1
            · have h1 : c ∈ ids u := by
                rw [hueq, ids]
                exact List.mem_cons_of_mem _ hmem
              exact absurd (ids_sub_idsList hu3 c h1)
                (nodup_first_seg hnd2 (he ▸ dId_mem_ids t))
        · rw [if_neg he]
          cases hpo : parentOf c t with
          | some q =>
            -- the DFS found a parent inside `t`; show it is the claimed one
            have hq : HasPC t q c := parentOf_sound t q c hpo
            rcases hyp with ⟨rfl, hcm⟩ | hpl
            · rw [childIds_cons] at hcm
              rcases List.mem_cons.mp hcm with hceq | hcm2
              · exact absurd hceq.symm he
              · exact absurd (childIds_sub_idsList hcm2)
                  (nodup_first_seg hnd2 (hasPC_child_mem hq))
            · rcases hpl with hpc | hpl2
              · rw [hasPC_uniq t hndt q p c hq hpc]
              · rcases hasPCList_iff.mp hpl2 with ⟨u, hu1, hu2⟩
                exact absurd (ids_sub_idsList hu1 c (hasPC_child_mem hu2))
                  (nodup_first_seg hnd2 (hasPC_child_mem hq))
          | none =>
            rcases hyp with ⟨rfl, hcm⟩ | hpl
            · rw [childIds_cons] at hcm
              rcases List.mem_cons.mp hcm with hceq | hcm2
              · exact absurd hceq.symm he
              · exact iht (fun u hu => hsub u (List.mem_cons_of_mem t hu)) hnds
                  (Or.inl ⟨rfl, hcm2⟩)
            · rcases hpl with hpc | hpl2
              · rw [ih t (hsub t (List.mem_cons_self _ _)) hndt p c hpc] at hpo
                exact Option.noConfusion hpo
              · exact iht (fun u hu => hsub u (List.mem_cons_of_mem t hu)) hnds
                  (Or.inr hpl2)
    exact scan cs (fun _ h => h) hndl h

theorem hasPC_plug1 (f : Frame) (t : DTree) : HasPC (plug1 f t) f.fid (dId t) := by
  rw [plug1, HasPC]
  exact Or.inl ⟨rfl, by
    rw [childIds_append, childIds_cons]
    exact List.mem_append.mpr (Or.inr (List.mem_cons_self _ _))⟩

theorem hasPCList_append {cs1 cs2 : List DTree} {p c : Nat} :
    HasPCList (cs1 ++ cs2) p c ↔ HasPCList cs1 p c ∨ HasPCList cs2 p c := by
  rw [hasPCList_iff, hasPCList_iff, hasPCList_iff]
  constructor
  · rintro ⟨t, ht, hpc⟩
    rcases List.mem_append.mp ht with h | h
    · exact Or.inl ⟨t, h, hpc⟩
    · exact Or.inr ⟨t, h, hpc⟩
  · rintro (⟨t, ht, hpc⟩ | ⟨t, ht, hpc⟩)
    · exact ⟨t, List.mem_append.mpr (Or.inl ht), hpc⟩
    · exact ⟨t, List.mem_append.mpr (Or.inr ht), hpc⟩

theorem hasPC_plug_mono : ∀ (ctx : List Frame) (t : DTree) (p c : Nat),
    HasPC t p c → HasPC (plug ctx t) p c := by
  intro ctx
  induction ctx with
  | nil => intro t p c h; exact h
  | cons f fs ih =>
    intro t p c h
    rw [plug]
    refine ih _ p c ?_
    rw [plug1, HasPC]
    refine Or.inr ?_
    rw [hasPCList_append]
    exact Or.inr (Or.inl h)

theorem hasPC_plug (fs : List Frame) (f : Frame) (t : DTree) :
    HasPC (plug (f :: fs) t) f.fid (dId t) := by
  rw [plug]
  exact hasPC_plug_mono fs _ _ _ (hasPC_plug1 f t)

theorem takeWhile_ne_length {x : Nat} :
    ∀ (l1 l2 : List Nat), x ∉ l1 →
      ((l1 ++ x :: l2).takeWhile (fun c => c ≠ x)).length = l1.length := by
  intro l1
  induction l1 with
  | nil =>
    intro l2 _
    simp [List.takeWhile]
  | cons a l1 ih =>
    intro l2 hx
    have hax : a ≠ x := fun e => hx (e ▸ List.mem_cons_self a l1)
    rw [List.cons_append, List.takeWhile_cons_of_pos (by simpa using hax), List.length_cons,
      ih l2 (fun h => hx (List.mem_cons_of_mem a h))]
    rfl

theorem insertIdx_length_append {α : Type} :
    ∀ (l1 : List α) (x : α) (l2 : List α),
      (l1 ++ l2).insertIdx l1.length x = l1 ++ x :: l2 := by
  intro l1
  induction l1 with
  | nil => intro x l2; simp [List.insertIdx]
  | cons a l1 ih =>
    intro x l2
    simp only [List.cons_append, List.length_cons, List.insertIdx_succ_cons]
    rw [ih]

theorem wfKids_length : ∀ (ks : List Int) (lo hi : Option Int) (cs : List DTree),
    WFKids lo hi ks cs → cs.length = ks.length + 1 := by
  intro ks
  induction ks with
  | nil =>
    intro lo hi cs h
    match cs with
    | [] => exact h.elim
    | [c] => rfl
    | c :: c2 :: cs => exact h.elim
  | cons k ks ih =>
    intro lo hi cs h
    match cs with
    | [] => exact h.elim
    | c :: cs =>
      simp only [List.length_cons, ih (some k) hi cs h.2]

theorem wfKids_replace :
    ∀ (cl : List DTree) (ks : List Int) (lo hi : Option Int) (t t' : DTree) (cr : List DTree),
      WFKids lo hi ks (cl ++ t :: cr) →
      (∀ mlo mhi, WF mlo mhi t → WF mlo mhi t') →
      WFKids lo hi ks (cl ++ t' :: cr) := by
  intro cl
  induction cl with
  | nil =>
    intro ks lo hi t t' cr h hr
    match ks, cr with
    | [], [] => exact hr lo hi h
    | [], c2 :: cr => exact h.elim
    | k :: ks, cr => exact ⟨hr lo (some k) h.1, h.2⟩
  | cons c cl ih =>
    intro ks lo hi t t' cr h hr
    match ks with
    | [] =>
      rw [List.cons_append] at h
      rcases hx : cl ++ t :: cr with _ | ⟨y, ys⟩
      · rcases List.append_eq_nil.mp hx with ⟨_, h2⟩
        exact List.noConfusion h2
      · rw [hx] at h
        exact h.elim
    | k :: ks =>
      rw [List.cons_append] at h ⊢
      exact ⟨h.1, ih ks (some k) hi t t' cr h.2 hr⟩

theorem wfKids_split :
    ∀ (cl : List DTree) (ks : List Int) (lo hi : Option Int) (t : DTree) (cr : List DTree)
      (k : Int) (tl tr : DTree),
      WFKids lo hi ks (cl ++ t :: cr) →
      (∀ mlo mhi, WF mlo mhi t →
        WF mlo (some k) tl ∧ WF (some k) mhi tr ∧ inBounds mlo mhi k) →
      WFKids lo hi (ks.insertIdx cl.length k) (cl ++ tl :: tr :: cr) := by
  intro cl
  induction cl with
  | nil =>
    intro ks lo hi t cr k tl tr h hr
    match ks, cr with
    | [], [] =>
      rcases hr lo hi h with ⟨h1, h2, _⟩
      simp only [List.length_nil, List.insertIdx_zero, List.nil_append]
      exact ⟨h1, h2⟩
    | [], c2 :: cr => exact h.elim
    | k0 :: ks, cr =>
      rcases hr lo (some k0) h.1 with ⟨h1, h2, _⟩
      simp only [List.length_nil, List.insertIdx_zero, List.nil_append]
      exact ⟨h1, h2, h.2⟩
  | cons c cl ih =>
    intro ks lo hi t cr k tl tr h hr
    match ks with
    | [] =>
      rw [List.cons_append] at h
      rcases hx : cl ++ t :: cr with _ | ⟨y, ys⟩
      · rcases List.append_eq_nil.mp hx with ⟨_, h2⟩
        exact List.noConfusion h2
      · rw [hx] at h
        exact h.elim
    | k0 :: ks =>
      rw [List.cons_append] at h
      simp only [List.length_cons, List.insertIdx_succ_cons, List.cons_append]
      exact ⟨h.1, ih ks (some k0) hi t cr k tl tr h.2 hr⟩

theorem wf_lt_of_bounds : ∀ d : DTree, ∀ a b : Int,
    WF (some a) (some b) d → a < b := by
  refine dtree_ind _ ?_ ?_
  · intro i ks vs nx a b h
    rw [WF] at h
    rcases h with ⟨_, hlen, _, _, hb⟩
    match ks with
    | [] => exact absurd hlen (by simp)
    | k :: ks =>
      have := hb k (List.mem_cons_self _ _)
      have h1 := this.1 a rfl
      have h2 := this.2 b rfl
      omega
  · intro i ks cs ih a b h
    rw [WF] at h
    rcases h with ⟨_, _, hkids⟩
    -- walk the separator chain through the children
    have walk : ∀ (ks' : List Int) (cs' : List DTree) (a' : Int),
        (∀ c ∈ cs', c ∈ cs) → WFKids (some a') (some b) ks' cs' → a' < b := by
      intro ks'
      induction ks' with
      | nil =>
        intro cs' a' hsub h
        match cs' with
        | [] => exact h.elim
        | [c] => exact ih c (hsub c (List.mem_cons_self _ _)) a' b h
        | c :: c2 :: cs' => exact h.elim
      | cons k ks' ihk =>
        intro cs' a' hsub h
        match cs' with
        | [] => exact h.elim
        | c :: cs' =>
          have h1 : a' < k := ih c (hsub c (List.mem_cons_self _ _)) a' k h.1
          have h2 : k < b := ihk cs' k (fun u hu => hsub u (List.mem_cons_of_mem c hu)) h.2
          omega
    exact walk ks cs a (fun _ h => h) hkids

theorem wfKidsH_fill :
    ∀ (kl : List Int) (cl : List DTree) (flo fhi : Option Int) (kr : List Int)
      (cr : List DTree) (mlo mhi : Option Int) (t : DTree),
      WFKidsH flo fhi kl cl kr cr mlo mhi → WF mlo mhi t →
      WFKids flo fhi (kl ++ kr) (cl ++ t :: cr) := by
  intro kl
  induction kl with
  | nil =>
    intro cl flo fhi kr cr mlo mhi t h hwf
    match cl with
    | [] =>
      obtain ⟨rfl, hrest⟩ := h
      match kr, cr with
      | [], [] =>
        rw [show WFRest mhi fhi [] [] = (mhi = fhi) from rfl] at hrest
        subst hrest
        exact hwf
      | k :: ks, cr => exact ⟨hrest.1 ▸ hwf, hrest.2⟩
      | [], c :: cr => exact hrest.elim
    | c :: cl => exact h.elim
  | cons k kl ih =>
    intro cl flo fhi kr cr mlo mhi t h hwf
    match cl with
    | [] => exact h.elim
    | c :: cl => exact ⟨h.1, ih cl (some k) fhi kr cr mlo mhi t h.2 hwf⟩

theorem wfKidsH_split_fill :
    ∀ (kl : List Int) (cl : List DTree) (flo fhi : Option Int) (kr : List Int)
      (cr : List DTree) (mlo mhi : Option Int) (k : Int) (tl tr : DTree),
      WFKidsH flo fhi kl cl kr cr mlo mhi →
      WF mlo (some k) tl → WF (some k) mhi tr →
      WFKids flo fhi (kl ++ k :: kr) (cl ++ tl :: tr :: cr) := by
  intro kl
  induction kl with
  | nil =>
    intro cl flo fhi kr cr mlo mhi k tl tr h htl htr
    match cl with
    | [] =>
      obtain ⟨rfl, hrest⟩ := h
      refine ⟨htl, ?_⟩
      match kr, cr with
      | [], [] =>
        rw [show WFRest mhi fhi [] [] = (mhi = fhi) from rfl] at hrest
        subst hrest
        exact htr
      | k1 :: ks, cr => exact ⟨hrest.1 ▸ htr, hrest.2⟩
      | [], c :: cr => exact hrest.elim
    | c :: cl => exact h.elim
  | cons k0 kl ih =>
    intro cl flo fhi kr cr mlo mhi k tl tr h htl htr
    match cl with
    | [] => exact h.elim
    | c :: cl => exact ⟨h.1, ih cl (some k0) fhi kr cr mlo mhi k tl tr h.2 htl htr⟩

theorem wfKidsH_length :
    ∀ (kl : List Int) (cl : List DTree) (flo fhi : Option Int) (kr : List Int)
      (cr : List DTree) (mlo mhi : Option Int),
      WFKidsH flo fhi kl cl kr cr mlo mhi →
      cl.length + cr.length = kl.length + kr.length := by
  intro kl
  induction kl with
  | nil =>
    intro cl flo fhi kr cr mlo mhi h
    match cl with
    | [] =>
      obtain ⟨rfl, hrest⟩ := h
      match kr, cr with
      | [], [] => rfl
      | k :: ks, cr =>
        have := wfKids_length ks (some k) fhi cr hrest.2
        simp only [List.length_nil, List.length_cons]
        omega
      | [], c :: cr => exact hrest.elim
    | c :: cl => exact h.elim
  | cons k kl ih =>
    intro cl flo fhi kr cr mlo mhi h
    match cl with
    | [] => exact h.elim
    | c :: cl =>
      have := ih cl (some k) fhi kr cr mlo mhi h.2
      simp only [List.length_cons]
      omega

theorem ctxBounds_plug_wf : ∀ (fs : List Frame) (flo fhi : Option Int) (X : DTree),
    CtxBounds fs flo fhi → WF flo fhi X → WF none none (plug fs X) := by
  intro fs
  induction fs with
  | nil =>
    intro flo fhi X h hw
    obtain ⟨rfl, rfl⟩ := h
    exact hw
  | cons g gs ih =>
    intro flo fhi X h hw
    obtain ⟨glo, ghi, hgs, h1, h2, h3, hH⟩ := h
    rw [plug]
    refine ih glo ghi _ hgs ?_
    exact ⟨h1, h2, wfKidsH_fill _ _ _ _ _ _ _ _ _ hH hw⟩

theorem entries_plug_at : ∀ (ctx : List Frame) (t : DTree),
    entries (plug ctx t) = entriesAt ctx (entries t) := by
  intro ctx
  induction ctx with
  | nil => intro t; rfl
  | cons f fs ih =>
    intro t
    rw [plug, ih (plug1 f t), entries_plug1, entriesAt]

theorem cells_plug_at : ∀ (ctx : List Frame) (t : DTree),
    leafCells (plug ctx t) = cellsAt ctx (leafCells t) := by
  intro ctx
  induction ctx with
  | nil => intro t; rfl
  | cons f fs ih =>
    intro t
    rw [plug, ih (plug1 f t), leafCells_plug1, cellsAt]

theorem ids_length_pos : ∀ d : DTree, 1 ≤ (ids d).length := by
  intro d
  have := dId_mem_ids d
  cases h : ids d with
  | nil => rw [h] at this; cases this
  | cons a l => simp

theorem idsList_length_ge : ∀ cs : List DTree, cs.length ≤ (idsList cs).length := by
  intro cs
  induction cs with
  | nil => simp [idsList]
  | cons c cs ih =>
    rw [show idsList (c :: cs) = ids c ++ idsList cs from rfl]
    simp only [List.length_cons, List.length_append]
    have := ids_length_pos c
    omega

theorem ctxIds_length_ge : ∀ (ctx : List Frame) (mlo mhi : Option Int),
    CtxBounds ctx mlo mhi → 2 * ctx.length ≤ (ctxIds ctx).length := by
  intro ctx
  induction ctx with
  | nil => intro _ _ _; simp [ctxIds]
  | cons f fs ih =>
    intro mlo mhi h
    obtain ⟨flo, fhi, hfs, h1, h2, h3, hH⟩ := h
    have hrec := ih flo fhi hfs
    have harity := wfKidsH_length _ _ _ _ _ _ _ _ hH
    have hkl : 1 ≤ f.childrenL.length + f.childrenR.length := by
      rw [List.length_append] at h1
      omega
    have hgl := idsList_length_ge f.childrenL
    have hgr := idsList_length_ge f.childrenR
    rw [ctxIds, frameIds]
    simp only [List.length_cons, List.length_append]
    omega

theorem exists_list_four {α : Type} {l : List α} (h : l.length = 4) :
    ∃ a b c d, l = [a, b, c, d] := by
  match l, h with
  | [a, b, c, d], _ => exact ⟨a, b, c, d, rfl⟩

theorem exists_list_five {α : Type} {l : List α} (h : l.length = 5) :
    ∃ a b c d e, l = [a, b, c, d, e] := by
  match l, h with
  | [a, b, c, d, e], _ => exact ⟨a, b, c, d, e, rfl⟩

theorem childIds_take (cs : List DTree) (n : Nat) :
    childIds (cs.take n) = (childIds cs).take n := by
  simp [childIds, List.map_take]

theorem childIds_drop (cs : List DTree) (n : Nat) :
    childIds (cs.drop n) = (childIds cs).drop n := by
  simp [childIds, List.map_drop]

theorem chainOK_splice : ∀ (L : List (Nat × Option Nat)) (lid nid : Nat)
    (nx : Option Nat) (R : List (Nat × Option Nat)),
    ChainOK (L ++ (lid, nx) :: R) →
    ChainOK (L ++ (lid, some nid) :: (nid, nx) :: R) := by
  intro L
  induction L with
  | nil =>
    intro lid nid nx R h
    match R with
    | [] =>
      rw [List.nil_append] at h
      exact ⟨rfl, h⟩
    | (j, nx2) :: R => exact ⟨rfl, h.1, h.2⟩
  | cons p L ih =>
    intro lid nid nx R h
    match p, L with
    | (i0, nx0), [] =>
      exact ⟨h.1, ih lid nid nx R h.2⟩
    | (i0, nx0), q :: L =>
      exact ⟨h.1, ih lid nid nx R h.2⟩

theorem wf_internal_split {flo fhi : Option Int} {k0 k1 k2 k3 : Int}
    {c0 c1 c2 c3 c4 : DTree} (nid nid2 : Nat)
    (h : WFKids flo fhi [k0, k1, k2, k3] [c0, c1, c2, c3, c4]) :
    WF flo (some k2) (.node nid [k0, k1] [c0, c1, c2]) ∧
    WF (some k2) fhi (.node nid2 [k3] [c3, c4]) := by
  obtain ⟨h0, h1, h2, h3, h4⟩ := h
  exact ⟨⟨by simp, by norm_num [kOrder], h0, h1, h2⟩,
    ⟨by simp, by norm_num [kOrder], h3, h4⟩⟩

theorem wf_leaf_split {mlo mhi : Option Int} {a b c d w x y z : Int} (lid nid : Nat)
    (hs : List.Chain' (· < ·) ([a, b, c, d] : List Int))
    (hb : ∀ k ∈ ([a, b, c, d] : List Int), inBounds mlo mhi k) (nx nx2 : Option Nat) :
    WF mlo (some c) (.leaf lid [a, b] [w, x] nx) ∧
    WF (some c) mhi (.leaf nid [c, d] [y, z] nx2) := by
  have hord : a < b ∧ b < c ∧ c < d := by
    simp only [List.chain'_cons, List.chain'_singleton, and_true] at hs
    exact hs
  constructor
  · refine ⟨rfl, by simp, by norm_num [kOrder], by simp [List.chain'_cons]; omega, ?_⟩
    intro k hk
    rcases List.mem_pair.mp hk with rfl | rfl
    · exact ⟨fun l hl => ((hb k (by simp)).1 l hl), fun h2 hh => by
        injection hh with hh
        omega⟩
    · exact ⟨fun l hl => ((hb k (by simp)).1 l hl), fun h2 hh => by
        injection hh with hh
        omega⟩
  · refine ⟨rfl, by simp, by norm_num [kOrder], by simp [List.chain'_cons]; omega, ?_⟩
    intro k hk
    rcases List.mem_pair.mp hk with rfl | rfl
    · exact ⟨fun l hl => by injection hl with hl; omega,
        fun h2 hh => (hb k (by simp)).2 h2 hh⟩
    · exact ⟨fun l hl => by injection hl with hl; omega,
        fun h2 hh => (hb k (by simp)).2 h2 hh⟩

theorem insertInternalNode_eq_upKey (s : BPlusTreeState) (fuel : Nat) (key : Int)
    (l r : Nat) : insertInternalNode s fuel key l r = insertInternalUpKey s (fuel + 1) key l r := rfl

theorem ctxTopId_mem : ∀ (fs : List Frame) (x : Nat), fs ≠ [] → ctxTopId fs x ∈ ctxIds fs := by
  intro fs
  induction fs with
  | nil => intro x h; exact absurd rfl h
  | cons g gs ih =>
    intro x _
    rw [ctxTopId_cons, ctxIds]
    match gs with
    | [] =>
      exact List.mem_append.mpr (Or.inl (by rw [frameIds]; exact List.mem_cons_self _ _))
    | g2 :: gs2 =>
      exact List.mem_append.mpr (Or.inr (ih g.fid (by simp)))

theorem C7_splitInternalNode_spec_witness :
    getNode ws7 0 = some (.internal [1, 2, 3, 4] [10, 11, 12, 13, 14]) ∧
    ((3 ∉ ([1, 2] : List Int) ∧ 3 ∉ ([4] : List Int)) ∧
     (ws7.root_ = some 0 →
       (splitInternalNode ws7 1 0).root_ = some 2 ∧
       getNode (splitInternalNode ws7 1 0) 2 = some (.internal [3] [0, 1]) ∧
       getNode (splitInternalNode ws7 1 0) 0 = some (.internal [1, 2] [10, 11, 12]) ∧
       getNode (splitInternalNode ws7 1 0) 1 = some (.internal [4] [13, 14])) ∧
     (ws7.root_ ≠ some 0 →
       splitInternalNode ws7 1 0 =
         insertInternalUpKey (setNode (alloc ws7 (.internal [4] [13, 14])) 0
           (.internal [1, 2] [10, 11, 12])) 0 3 0 1)) :=
  ⟨rfl, C7_splitInternalNode_spec ws7 0 0 1 2 3 4 [10, 11, 12, 13, 14] rfl
    (by decide) (by decide) (by decide)⟩

end BPlusTree

namespace BPlusTree

set_option maxHeartbeats 1000000 in
theorem cascade_ok : ∀ (fuel : Nat) (ctx : List Frame) (s : BPlusTreeState)
    (tl tr : DTree) (key : Int) (mlo mhi : Option Int),
    ctx ≠ [] →
    2 * ctx.length ≤ fuel →
    CtxDecodes s ctx (dId tl) →
    Decodes s tl → Decodes s tr →
    s.root_ = some (ctxTopId ctx (dId tl)) →
    (ids (plug ctx tl) ++ ids tr).Perm (List.range s.nodes.length) →
    CtxBounds ctx mlo mhi →
    WF mlo (some key) tl → WF (some key) mhi tr →
    ChainOK (cellsAt ctx (leafCells tl ++ leafCells tr)) →
    ∃ d', InvTree (insertInternalUpKey s fuel key (dId tl) (dId tr)) d' ∧
      entries d' = entriesAt ctx (entries tl ++ entries tr) ∧
      leafCells d' = cellsAt ctx (leafCells tl ++ leafCells tr) := by
  intro fuel
  induction fuel using Nat.strong_induction_on with
  | _ fuel IH =>
  intro ctx s tl tr key mlo mhi hne hfuel hctxdec htl htr hroot hperm hbounds hwtl hwtr hchain
  match ctx, hne with
  | f :: fs, _ =>
  match fuel, hfuel with
  | fl + 1, hfuel =>
  obtain ⟨flo, fhi, hbfs, hsz1, hsz2, hklen, hH⟩ := hbounds
  have hfd : FrameDecodes s f (dId tl) := hctxdec.1
  have hcd_fs : CtxDecodes s fs f.fid := hctxdec.2
  have hdec_tree : Decodes s (plug (f :: fs) tl) := (decodes_plug _ _).mpr ⟨hctxdec, htl⟩
  have hndp : (ids (plug (f :: fs) tl) ++ ids tr).Nodup :=
    (hperm.nodup_iff).mpr (List.nodup_range _)
  have hlen_eq : (ids (plug (f :: fs) tl)).length + (ids tr).length = s.nodes.length := by
    have := hperm.length_eq
    simpa [List.length_append, List.length_range] using this
  -- normalized id decomposition
  have hp1 : (ids (plug (f :: fs) tl)).Perm ((frameIds f ++ ctxIds fs) ++ ids tl) :=
    ids_plug_perm (f :: fs) tl
  have hp2 : (ids (plug (f :: fs) tl) ++ ids tr).Perm
      (f.fid :: (idsList f.childrenL ++ (idsList f.childrenR ++ (ctxIds fs ++ (ids tl ++ ids tr))))) := by
    refine List.Perm.trans (hp1.append_right _) ?_
    rw [← Multiset.coe_eq_coe]
    simp only [frameIds, ← Multiset.coe_add, ← Multiset.cons_coe]
    simp only [← Multiset.singleton_add]
    abel
  have hndX : (f.fid :: (idsList f.childrenL ++ (idsList f.childrenR ++ (ctxIds fs ++ (ids tl ++ ids tr))))).Nodup :=
    (hp2.nodup_iff).mp hndp
  -- unpack the no-sharing facts we need
  have hfid_notin : f.fid ∉ idsList f.childrenL ++ (idsList f.childrenR ++ (ctxIds fs ++ (ids tl ++ ids tr))) :=
    (List.nodup_cons.mp hndX).1
  have hndrest : (idsList f.childrenL ++ (idsList f.childrenR ++ (ctxIds fs ++ (ids tl ++ ids tr)))).Nodup :=
    (List.nodup_cons.mp hndX).2
  have hdisj1 : (idsList f.childrenL).Disjoint (idsList f.childrenR ++ (ctxIds fs ++ (ids tl ++ ids tr))) :=
    List.disjoint_of_nodup_append hndrest
  have hndrest2 : (idsList f.childrenR ++ (ctxIds fs ++ (ids tl ++ ids tr))).Nodup :=
    hndrest.of_append_right
  have hdisj2 : (idsList f.childrenR).Disjoint (ctxIds fs ++ (ids tl ++ ids tr)) :=
    List.disjoint_of_nodup_append hndrest2
  have hndrest3 : (ctxIds fs ++ (ids tl ++ ids tr)).Nodup := hndrest2.of_append_right
  have hdisj3 : (ctxIds fs).Disjoint (ids tl ++ ids tr) :=
    List.disjoint_of_nodup_append hndrest3
  have hndrest4 : (ids tl ++ ids tr).Nodup := hndrest3.of_append_right
  have hdisj4 : (ids tl).Disjoint (ids tr) := List.disjoint_of_nodup_append hndrest4
  have hfid_nin_tl : f.fid ∉ ids tl := fun h =>
    hfid_notin (List.mem_append.mpr (Or.inr (List.mem_append.mpr (Or.inr
      (List.mem_append.mpr (Or.inr (List.mem_append.mpr (Or.inl h))))))))
  have hfid_nin_tr : f.fid ∉ ids tr := fun h =>
    hfid_notin (List.mem_append.mpr (Or.inr (List.mem_append.mpr (Or.inr
      (List.mem_append.mpr (Or.inr (List.mem_append.mpr (Or.inr h))))))))
  have hfid_nin_cl : f.fid ∉ idsList f.childrenL := fun h =>
    hfid_notin (List.mem_append.mpr (Or.inl h))
  have hfid_nin_cr : f.fid ∉ idsList f.childrenR := fun h =>
    hfid_notin (List.mem_append.mpr (Or.inr (List.mem_append.mpr (Or.inl h))))
  have hfid_nin_fs : f.fid ∉ ctxIds fs := fun h =>
    hfid_notin (List.mem_append.mpr (Or.inr (List.mem_append.mpr (Or.inr
      (List.mem_append.mpr (Or.inl h))))))
  have htl_nin_cl : dId tl ∉ childIds f.childrenL := fun h =>
    hdisj1 (childIds_sub_idsList h) (List.mem_append.mpr (Or.inr
      (List.mem_append.mpr (Or.inr (List.mem_append.mpr (Or.inl (dId_mem_ids tl)))))))
  -- findParent hits the innermost frame
  have hfp : findParent s (dId tl) = some f.fid := by
    rw [findParent_eq hdec_tree (by rw [hroot, dId_plug]) (by omega)]
    exact parentOf_complete _ hndp.of_append_left _ _ (hasPC_plug fs f tl)
  -- one unfolded step of the promotion
  have htake : ((childIds f.childrenL ++ dId tl :: childIds f.childrenR).takeWhile
      (fun c => c ≠ dId tl)).length = (childIds f.childrenL).length :=
    takeWhile_ne_length _ _ htl_nin_cl
  have hins1 : (f.keysL ++ f.keysR).insertIdx (childIds f.childrenL).length key =
      f.keysL ++ key :: f.keysR := by
    rw [childIds, List.length_map, ← hklen]
    exact insertIdx_length_append _ _ _
  have hins2 : (childIds f.childrenL ++ dId tl :: childIds f.childrenR).insertIdx
      ((childIds f.childrenL).length + 1) (dId tr) =
      childIds f.childrenL ++ dId tl :: dId tr :: childIds f.childrenR := by
    rw [show childIds f.childrenL ++ dId tl :: childIds f.childrenR =
        (childIds f.childrenL ++ [dId tl]) ++ childIds f.childrenR by simp]
    rw [show (childIds f.childrenL).length + 1 = (childIds f.childrenL ++ [dId tl]).length by simp]
    rw [insertIdx_length_append]
    simp
  have hstep : insertInternalUpKey s (fl + 1) key (dId tl) (dId tr) =
      (if kOrder ≤ (f.keysL ++ key :: f.keysR).length
       then splitInternalNode (setNode s f.fid (.internal (f.keysL ++ key :: f.keysR)
         (childIds f.childrenL ++ dId tl :: dId tr :: childIds f.childrenR))) fl f.fid
       else setNode s f.fid (.internal (f.keysL ++ key :: f.keysR)
         (childIds f.childrenL ++ dId tl :: dId tr :: childIds f.childrenR))) := by
    rw [insertInternalUpKey, hfp]
    dsimp only
    rw [hfd.1]
    dsimp only
    rw [htake, hins1, hins2]
  have hsz2' : (f.keysL ++ f.keysR).length ≤ 3 := by simpa [kOrder] using hsz2
  have hlen3 : (f.keysL ++ key :: f.keysR).length = (f.keysL ++ f.keysR).length + 1 := by
    simp only [List.length_append, List.length_cons]
    omega
  have hfid_lt : f.fid < s.nodes.length := getNode_lt hfd.1
  have hdecN : Decodes (setNode s f.fid (.internal (f.keysL ++ key :: f.keysR)
      (childIds f.childrenL ++ dId tl :: dId tr :: childIds f.childrenR)))
      (DTree.node f.fid (f.keysL ++ key :: f.keysR) (f.childrenL ++ tl :: tr :: f.childrenR)) := by
    refine ⟨?_, ?_⟩
    · rw [getNode_setNode_self _ hfid_lt, childIds_append, childIds_cons, childIds_cons]
    · rw [decodesList_iff]
      intro c hc
      rcases List.mem_append.mp hc with hcl | hrest
      · refine decodes_setNode_off c (decodesList_iff.mp hfd.2.1 c hcl) ?_
        intro hm
        exact hfid_nin_cl (ids_sub_idsList hcl _ hm)
      · rcases List.mem_cons.mp hrest with rfl | hrest2
        · exact decodes_setNode_off c htl hfid_nin_tl
        · rcases List.mem_cons.mp hrest2 with rfl | hcr
          · exact decodes_setNode_off c htr hfid_nin_tr
          · refine decodes_setNode_off c (decodesList_iff.mp hfd.2.2 c hcr) ?_
            intro hm
            exact hfid_nin_cr (ids_sub_idsList hcr _ hm)
  have hidsN : ids (DTree.node f.fid (f.keysL ++ key :: f.keysR)
      (f.childrenL ++ tl :: tr :: f.childrenR)) =
      f.fid :: (idsList f.childrenL ++ (ids tl ++ (ids tr ++ idsList f.childrenR))) := by
    rw [ids, idsList_append]
    rfl
  have hentN : entries (DTree.node f.fid (f.keysL ++ key :: f.keysR)
      (f.childrenL ++ tl :: tr :: f.childrenR)) =
      entriesList f.childrenL ++ (entries tl ++ entries tr) ++ entriesList f.childrenR := by
    rw [entries, entriesList_append]
    simp [entriesList, List.append_assoc]
  have hcellN : leafCells (DTree.node f.fid (f.keysL ++ key :: f.keysR)
      (f.childrenL ++ tl :: tr :: f.childrenR)) =
      leafCellsList f.childrenL ++ (leafCells tl ++ leafCells tr) ++ leafCellsList f.childrenR := by
    rw [leafCells, leafCellsList_append]
    simp [leafCellsList, List.append_assoc]
  rw [hstep]
  by_cases hov : (f.keysL ++ f.keysR).length = 3
  · -- overflow: the parent reaches kOrder keys and splits
    rw [if_pos (by rw [hlen3, hov]; simp [kOrder])]
    obtain ⟨fl2, rfl⟩ : ∃ fl2, fl = fl2 + 1 := by
      refine ⟨fl - 1, ?_⟩
      simp only [List.length_cons] at hfuel
      omega
    obtain ⟨q0, q1, q2, q3, heqK⟩ := @exists_list_four Int (f.keysL ++ key :: f.keysR)
      (by rw [hlen3, hov])
    have harity := wfKidsH_length _ _ _ _ _ _ _ _ hH
    obtain ⟨u0, u1, u2, u3, u4, heqC⟩ :=
      @exists_list_five DTree (f.childrenL ++ tl :: tr :: f.childrenR) (by
        simp only [List.length_append, List.length_cons]
        simp only [List.length_append] at harity hov
        omega)
    have hcid : (childIds f.childrenL ++ dId tl :: dId tr :: childIds f.childrenR) =
        [dId u0, dId u1, dId u2, dId u3, dId u4] := by
      rw [← childIds_cons, ← childIds_cons, ← childIds_append, heqC]
      rfl
    have hKids : WFKids flo fhi [q0, q1, q2, q3] [u0, u1, u2, u3, u4] := by
      rw [← heqK, ← heqC]
      exact wfKidsH_split_fill _ _ _ _ _ _ _ _ _ _ _ hH hwtl hwtr
    have hlen' : (setNode s f.fid (BPlusNode.internal (f.keysL ++ key :: f.keysR)
        (childIds f.childrenL ++ dId tl :: dId tr :: childIds f.childrenR))).nodes.length =
        s.nodes.length := length_setNode _ _ _
    have hrec' : getNode (setNode s f.fid (BPlusNode.internal (f.keysL ++ key :: f.keysR)
        (childIds f.childrenL ++ dId tl :: dId tr :: childIds f.childrenR))) f.fid =
        some (.internal [q0, q1, q2, q3] [dId u0, dId u1, dId u2, dId u3, dId u4]) := by
      rw [getNode_setNode_self _ hfid_lt, heqK, hcid]
    have hstep2 : splitInternalNode (setNode s f.fid (BPlusNode.internal
        (f.keysL ++ key :: f.keysR)
        (childIds f.childrenL ++ dId tl :: dId tr :: childIds f.childrenR))) (fl2 + 1) f.fid =
        (if s.root_ = some f.fid then
          { alloc (setNode (alloc (setNode s f.fid (BPlusNode.internal
              (f.keysL ++ key :: f.keysR)
              (childIds f.childrenL ++ dId tl :: dId tr :: childIds f.childrenR)))
              (.internal [q3] [dId u3, dId u4])) f.fid
              (.internal [q0, q1] [dId u0, dId u1, dId u2]))
              (.internal [q2] [f.fid, s.nodes.length]) with
            root_ := some (s.nodes.length + 1) }
        else insertInternalUpKey (setNode (alloc (setNode s f.fid (BPlusNode.internal
              (f.keysL ++ key :: f.keysR)
              (childIds f.childrenL ++ dId tl :: dId tr :: childIds f.childrenR)))
              (.internal [q3] [dId u3, dId u4])) f.fid
              (.internal [q0, q1] [dId u0, dId u1, dId u2])) fl2 q2 f.fid s.nodes.length) := by
      rw [splitInternalNode, hrec']
      norm_num [root_setNode, root_alloc, hlen', length_setNode, length_alloc,
        List.take_succ_cons, List.take_zero, List.drop_succ_cons, List.drop_zero]
    rw [hstep2]
    -- facts about the post-split state s2
    have hdecCs : DecodesList (setNode s f.fid (BPlusNode.internal (f.keysL ++ key :: f.keysR)
        (childIds f.childrenL ++ dId tl :: dId tr :: childIds f.childrenR)))
        [u0, u1, u2, u3, u4] := by
      rw [← heqC]
      exact hdecN.2
    have hfid_nin_cs : f.fid ∉ idsList [u0, u1, u2, u3, u4] := by
      rw [← heqC, idsList_append]
      intro h
      rcases List.mem_append.mp h with h1 | h2
      · exact hfid_nin_cl h1
      · rw [show idsList (tl :: tr :: f.childrenR) =
            ids tl ++ (ids tr ++ idsList f.childrenR) from rfl] at h2
        rcases List.mem_append.mp h2 with h3 | h4
        · exact hfid_nin_tl h3
        · rcases List.mem_append.mp h4 with h5 | h6
          · exact hfid_nin_tr h5
          · exact hfid_nin_cr h6
    have hdecCs2 : DecodesList (setNode (alloc (setNode s f.fid (BPlusNode.internal
        (f.keysL ++ key :: f.keysR)
        (childIds f.childrenL ++ dId tl :: dId tr :: childIds f.childrenR)))
        (.internal [q3] [dId u3, dId u4])) f.fid
        (.internal [q0, q1] [dId u0, dId u1, dId u2])) [u0, u1, u2, u3, u4] := by
      rw [decodesList_iff]
      intro c hc
      refine decodes_setNode_off c (decodes_alloc c (decodesList_iff.mp hdecCs c hc)) ?_
      intro hm
      exact hfid_nin_cs (ids_sub_idsList hc _ hm)
    have hfid_lt1 : f.fid < (alloc (setNode s f.fid (BPlusNode.internal
        (f.keysL ++ key :: f.keysR)
        (childIds f.childrenL ++ dId tl :: dId tr :: childIds f.childrenR)))
        (.internal [q3] [dId u3, dId u4])).nodes.length := by
      rw [length_alloc, hlen']
      omega
    have hgTL : getNode (setNode (alloc (setNode s f.fid (BPlusNode.internal
        (f.keysL ++ key :: f.keysR)
        (childIds f.childrenL ++ dId tl :: dId tr :: childIds f.childrenR)))
        (.internal [q3] [dId u3, dId u4])) f.fid
        (.internal [q0, q1] [dId u0, dId u1, dId u2])) f.fid =
        some (.internal [q0, q1] [dId u0, dId u1, dId u2]) :=
      getNode_setNode_self _ hfid_lt1
    have hgTR : getNode (setNode (alloc (setNode s f.fid (BPlusNode.internal
        (f.keysL ++ key :: f.keysR)
        (childIds f.childrenL ++ dId tl :: dId tr :: childIds f.childrenR)))
        (.internal [q3] [dId u3, dId u4])) f.fid
        (.internal [q0, q1] [dId u0, dId u1, dId u2])) s.nodes.length =
        some (.internal [q3] [dId u3, dId u4]) := by
      rw [getNode_setNode_ne _ (Nat.ne_of_lt hfid_lt), ← hlen', getNode_alloc_self]
    have hdecTL : Decodes (setNode (alloc (setNode s f.fid (BPlusNode.internal
        (f.keysL ++ key :: f.keysR)
        (childIds f.childrenL ++ dId tl :: dId tr :: childIds f.childrenR)))
        (.internal [q3] [dId u3, dId u4])) f.fid
        (.internal [q0, q1] [dId u0, dId u1, dId u2]))
        (DTree.node f.fid [q0, q1] [u0, u1, u2]) := by
      refine ⟨hgTL, ?_⟩
      rw [decodesList_iff]
      intro c hc
      refine decodesList_iff.mp hdecCs2 c ?_
      simp only [List.mem_cons, List.not_mem_nil, or_false] at hc ⊢
      tauto
    have hdecTR : Decodes (setNode (alloc (setNode s f.fid (BPlusNode.internal
        (f.keysL ++ key :: f.keysR)
        (childIds f.childrenL ++ dId tl :: dId tr :: childIds f.childrenR)))
        (.internal [q3] [dId u3, dId u4])) f.fid
        (.internal [q0, q1] [dId u0, dId u1, dId u2]))
        (DTree.node s.nodes.length [q3] [u3, u4]) := by
      refine ⟨hgTR, ?_⟩
      rw [decodesList_iff]
      intro c hc
      refine decodesList_iff.mp hdecCs2 c ?_
      simp only [List.mem_cons, List.not_mem_nil, or_false] at hc ⊢
      tauto
    have hcdfs2 : CtxDecodes (setNode (alloc (setNode s f.fid (BPlusNode.internal
        (f.keysL ++ key :: f.keysR)
        (childIds f.childrenL ++ dId tl :: dId tr :: childIds f.childrenR)))
        (.internal [q3] [dId u3, dId u4])) f.fid
        (.internal [q0, q1] [dId u0, dId u1, dId u2])) fs f.fid :=
      ctxDecodes_setNode_off (ctxDecodes_alloc (ctxDecodes_setNode_off hcd_fs hfid_nin_fs))
        hfid_nin_fs
    have hwsplit := @wf_internal_split flo fhi q0 q1 q2 q3 u0 u1 u2 u3 u4 f.fid s.nodes.length hKids
    have hidsCat : (idsList [u0, u1, u2] ++ idsList [u3, u4] : List Nat) =
        idsList f.childrenL ++ (ids tl ++ (ids tr ++ idsList f.childrenR)) := by
      have h1 : (idsList [u0, u1, u2] ++ idsList [u3, u4] : List Nat) =
          idsList [u0, u1, u2, u3, u4] := by
        simp [idsList, List.append_assoc]
      rw [h1, ← heqC, idsList_append]
      rfl
    have hentCat : (entriesList [u0, u1, u2] ++ entriesList [u3, u4] : List (Int × Int)) =
        entriesList f.childrenL ++ (entries tl ++ (entries tr ++ entriesList f.childrenR)) := by
      have h1 : (entriesList [u0, u1, u2] ++ entriesList [u3, u4] : List (Int × Int)) =
          entriesList [u0, u1, u2, u3, u4] := by
        simp [entriesList, List.append_assoc]
      rw [h1, ← heqC, entriesList_append]
      rfl
    have hcellCat : (leafCellsList [u0, u1, u2] ++ leafCellsList [u3, u4] :
        List (Nat × Option Nat)) =
        leafCellsList f.childrenL ++ (leafCells tl ++ (leafCells tr ++ leafCellsList f.childrenR)) := by
      have h1 : (leafCellsList [u0, u1, u2] ++ leafCellsList [u3, u4] :
          List (Nat × Option Nat)) = leafCellsList [u0, u1, u2, u3, u4] := by
        simp [leafCellsList, List.append_assoc]
      rw [h1, ← heqC, leafCellsList_append]
      rfl
    cases fs with
    | nil =>
      -- the split node was the root: install a fresh internal root
      have hroot' : s.root_ = some f.fid := hroot
      rw [if_pos hroot']
      obtain ⟨hflo, hfhi⟩ : flo = none ∧ fhi = none := hbfs
      subst hflo
      subst hfhi
      have hl2 : (setNode (alloc (setNode s f.fid (BPlusNode.internal
          (f.keysL ++ key :: f.keysR)
          (childIds f.childrenL ++ dId tl :: dId tr :: childIds f.childrenR)))
          (.internal [q3] [dId u3, dId u4])) f.fid
          (.internal [q0, q1] [dId u0, dId u1, dId u2])).nodes.length =
          s.nodes.length + 1 := by
        rw [length_setNode, length_alloc, hlen']
      refine ⟨DTree.node (s.nodes.length + 1) [q2]
        [DTree.node f.fid [q0, q1] [u0, u1, u2],
         DTree.node s.nodes.length [q3] [u3, u4]], ⟨?_, ?_, ?_, ?_, ?_⟩, ?_, ?_⟩
      · -- decodes
        refine ⟨?_, ?_⟩
        · rw [getNode_withRoot, ← hl2, getNode_alloc_self]
          rfl
        · refine ⟨?_, ?_, trivial⟩
          · refine decodes_nodes_eq ?_ _
              (@decodes_alloc _ (.internal [q2] [f.fid, s.nodes.length]) _ hdecTL)
            rfl
          · refine decodes_nodes_eq ?_ _
              (@decodes_alloc _ (.internal [q2] [f.fid, s.nodes.length]) _ hdecTR)
            rfl
      · rfl
      · -- ids permutation
        show (ids _).Perm (List.range (alloc _ _).nodes.length)
        rw [length_alloc, hl2, List.range_succ, List.range_succ]
        have p1 : (ids (DTree.node (s.nodes.length + 1) [q2]
            [DTree.node f.fid [q0, q1] [u0, u1, u2],
             DTree.node s.nodes.length [q3] [u3, u4]])).Perm
            ((idsList [u0, u1, u2] ++ idsList [u3, u4]) ++
              [s.nodes.length + 1, f.fid, s.nodes.length]) := by
          rw [← Multiset.coe_eq_coe]
          simp only [ids, idsList, ← Multiset.coe_add, ← Multiset.cons_coe]
          simp only [← Multiset.singleton_add]
          abel
        refine p1.trans ?_
        rw [hidsCat]
        refine List.Perm.trans ?_ ((hperm.append_right [s.nodes.length]).append_right
          [s.nodes.length + 1])
        refine List.Perm.trans ?_ (((hp2.symm).append_right [s.nodes.length]).append_right
          [s.nodes.length + 1])
        rw [← Multiset.coe_eq_coe]
        simp only [ctxIds, ← Multiset.coe_add, ← Multiset.cons_coe]
        simp only [← Multiset.singleton_add]
        abel
      · -- well-formedness
        exact ⟨by simp, by norm_num [kOrder], hwsplit.1, hwsplit.2⟩
      · -- sibling chain
        show ChainOK (leafCellsList [u0, u1, u2] ++ (leafCellsList [u3, u4] ++ []))
        rw [List.append_nil, hcellCat]
        have heq2 : (leafCellsList f.childrenL ++
            (leafCells tl ++ (leafCells tr ++ leafCellsList f.childrenR))) =
            cellsAt [f] (leafCells tl ++ leafCells tr) := by
          show _ = leafCellsList f.childrenL ++ (leafCells tl ++ leafCells tr) ++
            leafCellsList f.childrenR
          simp [List.append_assoc]
        rw [heq2]
        exact hchain
      · -- entries
        show (entriesList [u0, u1, u2] ++ (entriesList [u3, u4] ++ [])) = _
        rw [List.append_nil, hentCat]
        show _ = entriesList f.childrenL ++ (entries tl ++ entries tr) ++
          entriesList f.childrenR
        simp [List.append_assoc]
      · -- leaf cells
        show (leafCellsList [u0, u1, u2] ++ (leafCellsList [u3, u4] ++ [])) = _
        rw [List.append_nil, hcellCat]
        show _ = leafCellsList f.childrenL ++ (leafCells tl ++ leafCells tr) ++
          leafCellsList f.childrenR
        simp [List.append_assoc]
    | cons g gs =>
      -- promotion continues into the parent of the split node
      have hcne : ¬(s.root_ = some f.fid) := by
        rw [hroot]
        intro hcontr
        have := Option.some.inj hcontr
        exact hfid_nin_fs (this ▸ ctxTopId_mem (g :: gs) f.fid (by simp))
      rw [if_neg hcne]
      have hl2 : (setNode (alloc (setNode s f.fid (BPlusNode.internal
          (f.keysL ++ key :: f.keysR)
          (childIds f.childrenL ++ dId tl :: dId tr :: childIds f.childrenR)))
          (.internal [q3] [dId u3, dId u4])) f.fid
          (.internal [q0, q1] [dId u0, dId u1, dId u2])).nodes.length =
          s.nodes.length + 1 := by
        rw [length_setNode, length_alloc, hlen']
      obtain ⟨d', hd1, hd2, hd3⟩ := IH fl2 (by omega) (g :: gs) _
        (DTree.node f.fid [q0, q1] [u0, u1, u2])
        (DTree.node s.nodes.length [q3] [u3, u4]) q2 flo fhi
        (by simp)
        (by simp only [List.length_cons] at hfuel ⊢; omega)
        hcdfs2 hdecTL hdecTR
        (by rw [root_setNode, root_alloc, root_setNode, hroot]; rfl)
        (by
          rw [hl2, List.range_succ]
          have p1 : (ids (plug (g :: gs) (DTree.node f.fid [q0, q1] [u0, u1, u2])) ++
              ids (DTree.node s.nodes.length [q3] [u3, u4])).Perm
              ((idsList [u0, u1, u2] ++ idsList [u3, u4]) ++
                (ctxIds (g :: gs) ++ [f.fid, s.nodes.length])) := by
            refine ((ids_plug_perm (g :: gs) _).append_right _).trans ?_
            rw [← Multiset.coe_eq_coe]
            simp only [ids, idsList, ← Multiset.coe_add, ← Multiset.cons_coe]
            simp only [← Multiset.singleton_add]
            abel
          refine p1.trans ?_
          rw [hidsCat]
          refine List.Perm.trans ?_ (hperm.append_right [s.nodes.length])
          refine List.Perm.trans ?_ ((hp2.symm).append_right [s.nodes.length])
          rw [← Multiset.coe_eq_coe]
          simp only [← Multiset.coe_add, ← Multiset.cons_coe]
          simp only [← Multiset.singleton_add]
          abel)
        hbfs hwsplit.1 hwsplit.2
        (by
          have heq2 : (leafCells (DTree.node f.fid [q0, q1] [u0, u1, u2]) ++
              leafCells (DTree.node s.nodes.length [q3] [u3, u4])) =
              (leafCellsList f.childrenL ++ (leafCells tl ++ leafCells tr) ++
                leafCellsList f.childrenR) := by
            show (leafCellsList [u0, u1, u2] ++ leafCellsList [u3, u4] :
              List (Nat × Option Nat)) = _
            rw [hcellCat]
            simp [List.append_assoc]
          rw [heq2]
          exact hchain)
      refine ⟨d', hd1, ?_, ?_⟩
      · rw [hd2]
        have heq2 : (entries (DTree.node f.fid [q0, q1] [u0, u1, u2]) ++
            entries (DTree.node s.nodes.length [q3] [u3, u4])) =
            (entriesList f.childrenL ++ (entries tl ++ entries tr) ++
              entriesList f.childrenR) := by
          show (entriesList [u0, u1, u2] ++ entriesList [u3, u4] : List (Int × Int)) = _
          rw [hentCat]
          simp [List.append_assoc]
        rw [heq2]
        rfl
      · rw [hd3]
        have heq2 : (leafCells (DTree.node f.fid [q0, q1] [u0, u1, u2]) ++
            leafCells (DTree.node s.nodes.length [q3] [u3, u4])) =
            (leafCellsList f.childrenL ++ (leafCells tl ++ leafCells tr) ++
              leafCellsList f.childrenR) := by
          show (leafCellsList [u0, u1, u2] ++ leafCellsList [u3, u4] :
            List (Nat × Option Nat)) = _
          rw [hcellCat]
          simp [List.append_assoc]
        rw [heq2]
        rfl
  · -- no overflow: the parent absorbs the separator
    rw [if_neg (by rw [hlen3]; simp only [kOrder]; omega)]
    refine ⟨plug fs (DTree.node f.fid (f.keysL ++ key :: f.keysR)
      (f.childrenL ++ tl :: tr :: f.childrenR)), ⟨?_, ?_, ?_, ?_, ?_⟩, ?_, ?_⟩
    · exact (decodes_plug _ _).mpr ⟨ctxDecodes_setNode_off hcd_fs hfid_nin_fs, hdecN⟩
    · rw [root_setNode, hroot, dId_plug]
      rfl
    · rw [length_setNode]
      refine List.Perm.trans ?_ hperm
      refine List.Perm.trans (ids_plug_perm fs _) ?_
      rw [hidsN]
      refine List.Perm.trans ?_ hp2.symm
      rw [← Multiset.coe_eq_coe]
      simp only [← Multiset.coe_add, ← Multiset.cons_coe]
      simp only [← Multiset.singleton_add]
      abel
    · refine ctxBounds_plug_wf fs flo fhi _ hbfs ?_
      refine ⟨by simp only [List.length_append, List.length_cons]; omega, ?_,
        wfKidsH_split_fill _ _ _ _ _ _ _ _ _ _ _ hH hwtl hwtr⟩
      rw [hlen3]
      simp only [kOrder]
      omega
    · rw [cells_plug_at, hcellN]
      exact hchain
    · rw [entries_plug_at, hentN]
      rfl
    · rw [cells_plug_at, hcellN]
      rfl


/-! ## Association-list algebra -/

theorem lookupKey_none_iff {key : Int} :
    ∀ l : List (Int × Int), lookupKey key l = none ↔ ∀ p ∈ l, p.1 ≠ key := by
  intro l
  induction l with
  | nil => simp [lookupKey]
  | cons q rest ih =>
    obtain ⟨k, w⟩ := q
    rw [lookupKey]
    by_cases hk : k = key
    · simp [hk]
    · simp only [if_neg hk, ih, List.mem_cons]
      constructor
      · rintro h p (rfl | hp)
        · exact hk
        · exact h p hp
      · intro h p hp
        exact h p (Or.inr hp)

theorem lookupKey_append_skip {key : Int} :
    ∀ (A B : List (Int × Int)), (∀ p ∈ A, p.1 ≠ key) →
      lookupKey key (A ++ B) = lookupKey key B := by
  intro A
  induction A with
  | nil => intro B _; rfl
  | cons q rest ih =>
    intro B h
    obtain ⟨k, w⟩ := q
    rw [List.cons_append, lookupKey, if_neg (h (k, w) (by simp))]
    exact ih B (fun p hp => h p (List.mem_cons_of_mem _ hp))

theorem lookupKey_between {key : Int} (A B e : List (Int × Int))
    (hA : ∀ p ∈ A, p.1 ≠ key) (hB : ∀ p ∈ B, p.1 ≠ key) :
    lookupKey key (A ++ (e ++ B)) = lookupKey key e := by
  rw [lookupKey_append_skip A _ hA]
  induction e with
  | nil => exact lookupKey_none_iff B |>.mpr hB
  | cons q rest ih =>
    obtain ⟨k, w⟩ := q
    rw [List.cons_append, lookupKey, lookupKey]
    by_cases hk : k = key
    · rw [if_pos hk, if_pos hk]
    · rw [if_neg hk, if_neg hk, ih]

theorem setPair_append_skip {x v : Int} :
    ∀ (A rest : List (Int × Int)), (∀ p ∈ A, p.1 ≠ x) →
      setPair x v (A ++ rest) = A ++ setPair x v rest := by
  intro A
  induction A with
  | nil => intro rest _; rfl
  | cons q A ih =>
    intro rest h
    obtain ⟨k, w⟩ := q
    rw [List.cons_append, setPair, if_neg (h (k, w) (by simp)), List.cons_append,
      ih rest (fun p hp => h p (List.mem_cons_of_mem _ hp))]

theorem setPair_append_found {x v : Int} :
    ∀ (e B : List (Int × Int)), (lookupKey x e).isSome →
      setPair x v (e ++ B) = setPair x v e ++ B := by
  intro e
  induction e with
  | nil => intro B h; simp [lookupKey] at h
  | cons q e ih =>
    intro B h
    obtain ⟨k, w⟩ := q
    by_cases hk : k = x
    · rw [List.cons_append, setPair, if_pos hk, setPair, if_pos hk, List.cons_append]
    · rw [lookupKey, if_neg (fun hkk => hk hkk)] at h
      rw [List.cons_append, setPair, if_neg hk, setPair, if_neg hk, List.cons_append,
        ih B h]

theorem insPair_append_small {x v : Int} :
    ∀ (A rest : List (Int × Int)), (∀ p ∈ A, ¬ x < p.1) →
      insPair x v (A ++ rest) = A ++ insPair x v rest := by
  intro A
  induction A with
  | nil => intro rest _; rfl
  | cons q A ih =>
    intro rest h
    obtain ⟨k, w⟩ := q
    rw [List.cons_append, insPair, if_neg (h (k, w) (by simp)), List.cons_append,
      ih rest (fun p hp => h p (List.mem_cons_of_mem _ hp))]

theorem insPair_append_big {x v : Int} :
    ∀ (e B : List (Int × Int)), (∀ p ∈ B, x < p.1) →
      insPair x v (e ++ B) = insPair x v e ++ B := by
  intro e
  induction e with
  | nil =>
    intro B h
    match B with
    | [] => rfl
    | q :: B =>
      obtain ⟨k, w⟩ := q
      rw [List.nil_append, insPair, insPair, if_pos (show x < k from h (k, w) (by simp))]
      rfl
  | cons q e ih =>
    intro B h
    obtain ⟨k, w⟩ := q
    by_cases hx : x < k
    · rw [List.cons_append, insPair, if_pos hx, insPair, if_pos hx]
      simp
    · rw [List.cons_append, insPair, if_neg hx, insPair, if_neg hx, List.cons_append,
        ih B h]

theorem insPair_all_small {x v : Int} :
    ∀ l : List (Int × Int), (∀ p ∈ l, ¬ x < p.1) → insPair x v l = l ++ [(x, v)] := by
  intro l
  induction l with
  | nil => intro _; rfl
  | cons q l ih =>
    intro h
    obtain ⟨k, w⟩ := q
    rw [insPair, if_neg (h (k, w) (by simp)), ih (fun p hp => h p (List.mem_cons_of_mem _ hp)),
      List.cons_append]

theorem insPair_length {x v : Int} :
    ∀ l : List (Int × Int), (insPair x v l).length = l.length + 1 := by
  intro l
  induction l with
  | nil => rfl
  | cons q l ih =>
    obtain ⟨k, w⟩ := q
    rw [insPair]
    by_cases hx : x < k
    · rw [if_pos hx]
      simp
    · rw [if_neg hx]
      simp [ih]

theorem insPair_mem {x v : Int} :
    ∀ (l : List (Int × Int)) (p : Int × Int), p ∈ insPair x v l → p = (x, v) ∨ p ∈ l := by
  intro l
  induction l with
  | nil => intro p hp; simp [insPair] at hp; exact Or.inl hp
  | cons q l ih =>
    intro p hp
    obtain ⟨k, w⟩ := q
    rw [insPair] at hp
    by_cases hx : x < k
    · rw [if_pos hx] at hp
      rcases List.mem_cons.mp hp with h | h
      · exact Or.inl h
      · exact Or.inr h
    · rw [if_neg hx] at hp
      rcases List.mem_cons.mp hp with h | h
      · exact Or.inr (by simp [h])
      · rcases ih p h with h2 | h2
        · exact Or.inl h2
        · exact Or.inr (List.mem_cons_of_mem _ h2)

theorem insPair_map_fst_mem {x v : Int} {l : List (Int × Int)} {k : Int}
    (h : k ∈ (insPair x v l).map Prod.fst) : k = x ∨ k ∈ l.map Prod.fst := by
  obtain ⟨p, hp, rfl⟩ := List.mem_map.mp h
  rcases insPair_mem l p hp with h2 | h2
  · exact Or.inl (by rw [h2])
  · exact Or.inr (List.mem_map_of_mem _ h2)

theorem insPair_sorted {x v : Int} :
    ∀ l : List (Int × Int), (l.map Prod.fst).Pairwise (· < ·) →
      (∀ p ∈ l, p.1 ≠ x) → ((insPair x v l).map Prod.fst).Pairwise (· < ·) := by
  intro l
  induction l with
  | nil => intro _ _; simp [insPair]
  | cons q l ih =>
    intro hs hne
    obtain ⟨k, w⟩ := q
    rw [List.map_cons, List.pairwise_cons] at hs
    rw [insPair]
    by_cases hx : x < k
    · rw [if_pos hx, List.map_cons, List.map_cons, List.pairwise_cons]
      refine ⟨?_, List.pairwise_cons.mpr hs⟩
      intro b hb
      rcases List.mem_cons.mp hb with rfl | hb
      · exact hx
      · exact lt_trans hx (hs.1 b hb)
    · have hkx : k < x := by
        rcases lt_or_eq_of_le (not_lt.mp hx) with h | h
        · exact h
        · exact absurd h (hne (k, w) (by simp))
      rw [if_neg hx, List.map_cons, List.pairwise_cons]
      refine ⟨?_, ih hs.2 (fun p hp => hne p (List.mem_cons_of_mem _ hp))⟩
      intro b hb
      rcases insPair_map_fst_mem hb with rfl | hb
      · exact hkx
      · exact hs.1 b hb

theorem setPair_map_fst {x v : Int} :
    ∀ l : List (Int × Int), (setPair x v l).map Prod.fst = l.map Prod.fst := by
  intro l
  induction l with
  | nil => rfl
  | cons q l ih =>
    obtain ⟨k, w⟩ := q
    rw [setPair]
    by_cases hk : k = x
    · rw [if_pos hk]
      simp
    · rw [if_neg hk]
      simp [ih]

theorem setPair_mem {x v : Int} :
    ∀ (l : List (Int × Int)) (p : Int × Int), p ∈ setPair x v l → p ∈ l ∨ ∃ k, p = (k, v) ∧ k ∈ l.map Prod.fst := by
  intro l
  induction l with
  | nil => intro p hp; exact Or.inl hp
  | cons q l ih =>
    intro p hp
    obtain ⟨k, w⟩ := q
    rw [setPair] at hp
    by_cases hk : k = x
    · rw [if_pos hk] at hp
      rcases List.mem_cons.mp hp with rfl | h
      · exact Or.inr ⟨k, rfl, by simp⟩
      · exact Or.inl (List.mem_cons_of_mem _ h)
    · rw [if_neg hk] at hp
      rcases List.mem_cons.mp hp with rfl | h
      · exact Or.inl (by simp)
      · rcases ih p h with h2 | ⟨k2, rfl, h2⟩
        · exact Or.inl (List.mem_cons_of_mem _ h2)
        · exact Or.inr ⟨k2, rfl, by simp [h2]⟩

theorem lookupKey_setPair_ne {k' x v : Int} (h : k' ≠ x) :
    ∀ l : List (Int × Int), lookupKey k' (setPair x v l) = lookupKey k' l := by
  intro l
  induction l with
  | nil => rfl
  | cons q l ih =>
    obtain ⟨k, w⟩ := q
    rw [setPair]
    by_cases hk : k = x
    · subst hk
      rw [if_pos rfl, lookupKey, lookupKey, if_neg (fun hkk => h hkk.symm),
        if_neg (fun hkk => h hkk.symm)]
    · rw [if_neg hk, lookupKey, lookupKey]
      by_cases hkk : k = k'
      · rw [if_pos hkk, if_pos hkk]
      · rw [if_neg hkk, if_neg hkk, ih]

theorem lookupKey_setPair_self {x v : Int} :
    ∀ l : List (Int × Int), (lookupKey x l).isSome → lookupKey x (setPair x v l) = some v := by
  intro l
  induction l with
  | nil => intro h; simp [lookupKey] at h
  | cons q l ih =>
    intro h
    obtain ⟨k, w⟩ := q
    rw [setPair]
    by_cases hk : k = x
    · rw [if_pos hk, lookupKey, if_pos hk]
    · rw [lookupKey, if_neg hk] at h
      rw [if_neg hk, lookupKey, if_neg hk, ih h]

theorem lookupKey_insPair_ne {k' x v : Int} (h : k' ≠ x) :
    ∀ l : List (Int × Int), lookupKey k' (insPair x v l) = lookupKey k' l := by
  intro l
  induction l with
  | nil =>
    show (if x = k' then some v else lookupKey k' []) = lookupKey k' []
    rw [if_neg (fun hkk : x = k' => h hkk.symm)]
  | cons q l ih =>
    obtain ⟨k, w⟩ := q
    rw [insPair]
    by_cases hx : x < k
    · rw [if_pos hx, lookupKey, if_neg (fun hkk : x = k' => h hkk.symm), lookupKey]
    · rw [if_neg hx, lookupKey, lookupKey]
      by_cases hkk : k = k'
      · rw [if_pos hkk, if_pos hkk]
      · rw [if_neg hkk, if_neg hkk, ih]

theorem lookupKey_insPair_self {x v : Int} :
    ∀ l : List (Int × Int), (∀ p ∈ l, p.1 ≠ x) → lookupKey x (insPair x v l) = some v := by
  intro l
  induction l with
  | nil => intro _; simp [insPair, lookupKey]
  | cons q l ih =>
    intro h
    obtain ⟨k, w⟩ := q
    rw [insPair]
    by_cases hx : x < k
    · rw [if_pos hx, lookupKey, if_pos rfl]
    · rw [if_neg hx, lookupKey, if_neg (h (k, w) (by simp)),
        ih (fun p hp => h p (List.mem_cons_of_mem _ hp))]

theorem lookupKey_updAssoc (x v k' : Int) (l : List (Int × Int)) :
    lookupKey k' (updAssoc x v l) = if x = k' then some v else lookupKey k' l := by
  rw [updAssoc]
  by_cases hs : (lookupKey x l).isSome
  · rw [if_pos hs]
    by_cases hx : x = k'
    · subst hx
      rw [if_pos rfl, lookupKey_setPair_self l hs]
    · rw [if_neg hx, lookupKey_setPair_ne (fun h => hx h.symm)]
  · rw [if_neg hs]
    have hnone : ∀ p ∈ l, p.1 ≠ x :=
      lookupKey_none_iff l |>.mp (Option.not_isSome_iff_eq_none.mp hs)
    by_cases hx : x = k'
    · subst hx
      rw [if_pos rfl, lookupKey_insPair_self l hnone]
    · rw [if_neg hx, lookupKey_insPair_ne (fun h => hx h.symm)]

/-! ## zip / scan lemmas -/

theorem scanLeaf_eq_lookup (key : Int) :
    ∀ ks vs : List Int, scanLeaf key ks vs = lookupKey key (ks.zip vs) := by
  intro ks
  induction ks with
  | nil => intro vs; rfl
  | cons k ks ih =>
    intro vs
    match vs with
    | [] => rfl
    | v :: vs =>
      rw [scanLeaf, List.zip_cons_cons, lookupKey]
      by_cases hk : k = key
      · rw [if_pos hk, if_pos hk]
      · rw [if_neg hk, if_neg hk, ih]

theorem lookupKey_zip_mem {key : Int} :
    ∀ ks vs : List Int, ks.length = vs.length → key ∈ ks →
      (lookupKey key (ks.zip vs)).isSome := by
  intro ks
  induction ks with
  | nil => intro vs _ h; simp at h
  | cons k ks ih =>
    intro vs hlen hmem
    match vs with
    | [] => simp at hlen
    | v :: vs =>
      rw [List.zip_cons_cons, lookupKey]
      by_cases hk : k = key
      · rw [if_pos hk]
        rfl
      · rw [if_neg hk]
        rcases List.mem_cons.mp hmem with rfl | hmem
        · exact absurd rfl hk
        · exact ih vs (by simpa using hlen) hmem

theorem lookupKey_zip_notmem {key : Int} :
    ∀ ks vs : List Int, key ∉ ks → ∀ p ∈ ks.zip vs, p.1 ≠ key := by
  intro ks vs hmem p hp
  intro he
  exact hmem (he ▸ (List.of_mem_zip hp).1)

theorem zip_set {key v : Int} :
    ∀ (ks vs : List Int) (i : Nat), ks.length = vs.length →
      ks.findIdx? (fun k => k = key) = some i →
      ks.zip (vs.set i v) = setPair key v (ks.zip vs) := by
  intro ks
  induction ks with
  | nil => intro vs i _ h; simp [List.findIdx?] at h
  | cons k ks ih =>
    intro vs i hlen hidx
    match vs with
    | [] => simp at hlen
    | w :: vs =>
      rw [List.findIdx?_cons] at hidx
      by_cases hk : k = key
      · rw [if_pos (by simpa using hk)] at hidx
        have : i = 0 := by
          simpa using hidx.symm
        subst this
        rw [List.set_cons_zero, List.zip_cons_cons, List.zip_cons_cons, setPair, if_pos hk]
      · rw [if_neg (by simpa using hk), List.findIdx?_succ] at hidx
        obtain ⟨j, hj, rfl⟩ := Option.map_eq_some'.mp hidx
        rw [List.set_cons_succ, List.zip_cons_cons, List.zip_cons_cons, setPair,
          if_neg hk, ih vs j (by simpa using hlen) hj]

theorem findIdx?_none_iff {key : Int} :
    ∀ ks : List Int, ks.findIdx? (fun k => k = key) = none ↔ key ∉ ks := by
  intro ks
  rw [List.findIdx?_eq_none_iff]
  constructor
  · intro h hmem
    simpa using h key hmem
  · intro h x hx
    simp only [decide_eq_false_iff_not]
    intro he
    exact h (he ▸ hx)


/-! ## canon / mostRecent -/

theorem mostRecent_cons (p : Int × Int) (ps : List (Int × Int)) (k : Int) :
    mostRecent (p :: ps) k =
      match mostRecent ps k with
      | some v => some v
      | none => if p.1 = k then some p.2 else none := by
  rw [mostRecent, mostRecent, List.filter_cons]
  by_cases hp : p.1 = k
  · rw [if_pos (by simpa using hp), if_pos hp]
    match hF : (ps.filter (fun q => decide (q.1 = k))) with
    | [] =>
      rw [hF]
      rfl
    | q :: F =>
      rw [hF, List.getLast?_cons_cons]
      obtain ⟨r, hr⟩ : ∃ r, (q :: F).getLast? = some r := by
        cases hL : (q :: F).getLast? with
        | none => exact absurd (List.getLast?_eq_none_iff.mp hL) (by simp)
        | some r => exact ⟨r, rfl⟩
      rw [hr]
      rfl
  · rw [if_neg (by simpa using hp), if_neg hp]
    cases hL : (ps.filter (fun q => decide (q.1 = k))).getLast? with
    | none => rfl
    | some r => rfl

theorem lookup_foldl (k : Int) :
    ∀ (ps : List (Int × Int)) (l : List (Int × Int)),
      lookupKey k (ps.foldl (fun l p => updAssoc p.1 p.2 l) l) =
        match mostRecent ps k with
        | some v => some v
        | none => lookupKey k l := by
  intro ps
  induction ps with
  | nil => intro l; rfl
  | cons p ps ih =>
    intro l
    rw [List.foldl_cons, ih, mostRecent_cons, lookupKey_updAssoc]
    match mostRecent ps k with
    | some v => rfl
    | none =>
      by_cases hp : p.1 = k
      · rw [if_pos hp, if_pos hp]
      · rw [if_neg hp, if_neg hp]

theorem lookup_canon (ps : List (Int × Int)) (k : Int) :
    lookupKey k (canon ps) = mostRecent ps k := by
  rw [canon, lookup_foldl]
  match mostRecent ps k with
  | some v => rfl
  | none => rfl


/-! ## The adjacent-swap insertion pass -/

theorem getD_append_lt (xs ys : List Int) (i : Nat) (h : i < xs.length) :
    (xs ++ ys).getD i 0 = xs.getD i 0 := by
  simp [List.getD, List.getElem?_append_left h]

theorem getD_append_two_lo (xs : List Int) (p q : Int) :
    (xs ++ [p, q]).getD xs.length 0 = p := by
  simp [List.getD, List.getElem?_append_right (Nat.le_refl xs.length)]

theorem getD_append_two_hi (xs : List Int) (p q : Int) :
    (xs ++ [p, q]).getD (xs.length + 1) 0 = q := by
  simp [List.getD, List.getElem?_append_right (Nat.le_succ_of_le (Nat.le_refl xs.length))]

theorem set_append_len : ∀ (xs ys : List Int) (i : Nat) (x : Int),
    (xs ++ ys).set (xs.length + i) x = xs ++ ys.set i x := by
  intro xs
  induction xs with
  | nil => intro ys i x; simp
  | cons c xs ih =>
    intro ys i x
    rw [List.cons_append, List.length_cons,
      show xs.length + 1 + i = (xs.length + i) + 1 by omega,
      List.set_cons_succ, ih, List.cons_append]

theorem swapAt_length (l : List Int) (i j : Nat) : (swapAt l i j).length = l.length := by
  simp [swapAt]

theorem swapAt_pair (xs : List Int) (p q : Int) :
    swapAt (xs ++ [p, q]) (xs.length + 1) xs.length = xs ++ [q, p] := by
  show ((xs ++ [p, q]).set (xs.length + 1) ((xs ++ [p, q]).getD xs.length 0)).set
      xs.length ((xs ++ [p, q]).getD (xs.length + 1) 0) = xs ++ [q, p]
  rw [getD_append_two_lo, getD_append_two_hi, set_append_len,
    show ([p, q].set 1 p) = [p, p] from rfl,
    show xs.length = xs.length + 0 by omega, set_append_len]
  rfl

theorem swapAt_append_lt (l t : List Int) (i : Nat) (h : i + 1 < l.length) :
    swapAt (l ++ t) (i + 1) i = swapAt l (i + 1) i ++ t := by
  show ((l ++ t).set (i + 1) ((l ++ t).getD i 0)).set i ((l ++ t).getD (i + 1) 0) =
    (l.set (i + 1) (l.getD i 0)).set i (l.getD (i + 1) 0) ++ t
  rw [getD_append_lt _ _ _ h, getD_append_lt _ _ _ (Nat.lt_of_succ_lt h),
    List.set_append_left _ _ h,
    List.set_append_left _ _ (by rw [List.length_set]; exact Nat.lt_of_succ_lt h)]

theorem bubbleLoop_append_tail : ∀ (i : Nat) (xs ys t1 t2 : List Int),
    i < xs.length → i < ys.length →
    bubbleLoop (xs ++ t1) (ys ++ t2) i =
      ((bubbleLoop xs ys i).1 ++ t1, (bubbleLoop xs ys i).2 ++ t2) := by
  intro i
  induction i with
  | zero => intro xs ys t1 t2 _ _; rfl
  | succ i ih =>
    intro xs ys t1 t2 hx hy
    rw [bubbleLoop, getD_append_lt _ _ _ hx, getD_append_lt _ _ _ (Nat.lt_of_succ_lt hx)]
    by_cases c : xs.getD (i + 1) 0 < xs.getD i 0
    · rw [if_pos c, swapAt_append_lt _ _ _ hx, swapAt_append_lt _ _ _ hy,
        ih _ _ t1 t2 (by rw [swapAt_length]; exact Nat.lt_of_succ_lt hx)
          (by rw [swapAt_length]; exact Nat.lt_of_succ_lt hy),
        show bubbleLoop xs ys (i + 1) =
          bubbleLoop (swapAt xs (i + 1) i) (swapAt ys (i + 1) i) i from by
            rw [bubbleLoop, if_pos c]]
    · rw [if_neg c,
        show bubbleLoop xs ys (i + 1) = (xs, ys) from by rw [bubbleLoop, if_neg c]]

theorem bubble_insert (key v : Int) :
    ∀ ks vs : List Int, ks.length = vs.length → ks.Pairwise (· < ·) →
      bubbleLoop (ks ++ [key]) (vs ++ [v]) ks.length =
        ((insPair key v (ks.zip vs)).map Prod.fst,
         (insPair key v (ks.zip vs)).map Prod.snd) := by
  intro ks
  induction ks using List.reverseRecOn with
  | nil =>
    intro vs hlen _
    match vs with
    | [] => rfl
    | w :: vs => simp at hlen
  | append_singleton ks' a ih =>
    intro vs hlen hsort
    have hvne : vs ≠ [] := by
      intro h
      rw [h] at hlen
      simp at hlen
    obtain ⟨vs', b, rfl⟩ : ∃ vs' b, vs = vs' ++ [b] :=
      ⟨vs.dropLast, vs.getLast hvne, (List.dropLast_concat_getLast hvne).symm⟩
    have hlen' : ks'.length = vs'.length := by
      simp only [List.length_append, List.length_singleton] at hlen
      omega
    have hzip : (ks' ++ [a]).zip (vs' ++ [b]) = ks'.zip vs' ++ [(a, b)] :=
      List.zip_append hlen'
    have hc : (ks' ++ [a]).length = ks'.length + 1 := by simp
    rw [hc, bubbleLoop, List.append_assoc ks' [a] [key],
      show ([a] ++ [key] : List Int) = [a, key] from rfl,
      getD_append_two_lo, getD_append_two_hi]
    by_cases hlt : key < a
    · have hsv : swapAt (vs' ++ [b, v]) (ks'.length + 1) ks'.length = vs' ++ [v, b] := by
        rw [hlen']
        exact swapAt_pair vs' b v
      rw [if_pos hlt, swapAt_pair, List.append_assoc vs' [b] [v],
        show ([b] ++ [v] : List Int) = [b, v] from rfl, hsv,
        show ks' ++ [key, a] = (ks' ++ [key]) ++ [a] by simp,
        show vs' ++ [v, b] = (vs' ++ [v]) ++ [b] by simp,
        bubbleLoop_append_tail ks'.length (ks' ++ [key]) (vs' ++ [v]) [a] [b]
          (by simp) (by simp [← hlen']),
        ih vs' hlen' (List.pairwise_append.mp hsort).1,
        hzip, insPair_append_big _ [(a, b)] (by
          intro p hp
          rw [List.mem_singleton.mp hp]
          exact hlt)]
      simp
    · rw [if_neg hlt, hzip, insPair_all_small _ (by
        intro p hp
        rcases List.mem_append.mp hp with hp | hp
        · have hm := List.of_mem_zip hp
          have hpa : p.1 < a := (List.pairwise_append.mp hsort).2.2 p.1 hm.1 a (by simp)
          exact not_lt.mpr (le_of_lt (lt_of_lt_of_le hpa (not_lt.mp hlt)))
        · rw [List.mem_singleton.mp hp]
          exact hlt)]
      simp [List.map_fst_zip _ _ hlen'.le, List.map_snd_zip _ _ hlen'.ge]


/-! ## Entries of well-formed trees: sorted, bounded, nonempty -/

theorem wfKids_entries_facts :
    ∀ (ks2 : List Int) (cs2 : List DTree),
      (∀ c ∈ cs2, ∀ lo hi : Option Int, WF lo hi c →
        ((entries c).map Prod.fst).Pairwise (· < ·) ∧
        (∀ p ∈ entries c, inBounds lo hi p.1) ∧ entries c ≠ []) →
      ∀ lo hi : Option Int, WFKids lo hi ks2 cs2 →
        ((entriesList cs2).map Prod.fst).Pairwise (· < ·) ∧
        (∀ p ∈ entriesList cs2, inBounds lo hi p.1) ∧ entriesList cs2 ≠ [] := by
  intro ks2
  induction ks2 with
  | nil =>
    intro cs2 hmem lo hi hk
    match cs2 with
    | [] => exact hk.elim
    | [c] =>
      have hc := hmem c (by simp) lo hi hk
      rw [entriesList, entriesList, List.append_nil]
      exact hc
    | c1 :: c2 :: rest => exact hk.elim
  | cons k ks2 ih2 =>
    intro cs2 hmem lo hi hk
    match cs2 with
    | [] => exact hk.elim
    | c :: cs2 =>
      have hc := hmem c (by simp) lo (some k) hk.1
      have hrest := ih2 cs2 (fun c hc => hmem c (List.mem_cons_of_mem _ hc)) (some k) hi hk.2
      obtain ⟨q, hq⟩ := List.exists_mem_of_ne_nil _ hrest.2.2
      obtain ⟨r, hr⟩ := List.exists_mem_of_ne_nil _ hc.2.2
      have hqk : k ≤ q.1 := (hrest.2.1 q hq).1 k rfl
      have hrk : r.1 < k := (hc.2.1 r hr).2 k rfl
      rw [show entriesList (c :: cs2) = entries c ++ entriesList cs2 from rfl]
      refine ⟨?_, ?_, by simp [hc.2.2]⟩
      · rw [List.map_append, List.pairwise_append]
        refine ⟨hc.1, hrest.1, ?_⟩
        intro a ha b hb
        obtain ⟨p, hp, rfl⟩ := List.mem_map.mp ha
        obtain ⟨p2, hp2, rfl⟩ := List.mem_map.mp hb
        have h1 : p.1 < k := (hc.2.1 p hp).2 k rfl
        have h2 : k ≤ p2.1 := (hrest.2.1 p2 hp2).1 k rfl
        omega
      · intro p hp
        rcases List.mem_append.mp hp with hp | hp
        · have hb := hc.2.1 p hp
          refine ⟨hb.1, ?_⟩
          intro H hH
          have h1 : p.1 < k := hb.2 k rfl
          have h2 : q.1 < H := (hrest.2.1 q hq).2 H hH
          omega
        · have hb := hrest.2.1 p hp
          refine ⟨?_, hb.2⟩
          intro L hL
          have h1 : L ≤ r.1 := (hc.2.1 r hr).1 L hL
          have h2 : k ≤ p.1 := hb.1 k rfl
          omega

theorem wf_entries_facts : ∀ (d : DTree) (lo hi : Option Int), WF lo hi d →
    ((entries d).map Prod.fst).Pairwise (· < ·) ∧
    (∀ p ∈ entries d, inBounds lo hi p.1) ∧ entries d ≠ [] := by
  refine dtree_ind _ ?_ ?_
  · intro i ks vs nx lo hi hw
    obtain ⟨hlv, h1, h3, hchain, hb⟩ := hw
    rw [show entries (.leaf i ks vs nx) = ks.zip vs from rfl]
    refine ⟨?_, ?_, ?_⟩
    · rw [List.map_fst_zip _ _ hlv.le]
      exact List.chain'_iff_pairwise.mp hchain
    · intro p hp
      exact hb p.1 (List.of_mem_zip hp).1
    · intro h
      have h0 : (ks.zip vs).length = 0 := by rw [h]; rfl
      rw [List.length_zip, ← hlv, Nat.min_self] at h0
      omega
  · intro i ks cs ih lo hi hw
    obtain ⟨h1, h2, hkids⟩ := hw
    exact wfKids_entries_facts ks cs ih lo hi hkids

theorem wfKids_bounds_lt {ks : List Int} {cs : List DTree} {a b : Int}
    (h : WFKids (some a) (some b) ks cs) : a < b := by
  have hf := wfKids_entries_facts ks cs (fun c _ => wf_entries_facts c) _ _ h
  obtain ⟨q, hq⟩ := List.exists_mem_of_ne_nil _ hf.2.2
  have h1 : a ≤ q.1 := (hf.2.1 q hq).1 a rfl
  have h2 : q.1 < b := (hf.2.1 q hq).2 b rfl
  omega

theorem wfRest_hi {key : Int} :
    ∀ (ksR : List Int) (csR : List DTree) (mhi fhi : Option Int),
      WFRest mhi fhi ksR csR → (∀ m, mhi = some m → key < m) →
      ∀ H, fhi = some H → key < H := by
  intro ksR csR mhi fhi hrest hk H hH
  match ksR, csR with
  | [], [] =>
    exact hk H (by rw [hrest, hH])
  | [], c :: csR => exact hrest.elim
  | k :: ks, cs =>
    have h1 : key < k := hk k hrest.1
    have h2 : k < H := wfKids_bounds_lt (hH ▸ hrest.2)
    omega

theorem wfKidsH_sides {key : Int} :
    ∀ (ksL : List Int) (csL : List DTree) (ksR : List Int) (csR : List DTree)
      (flo fhi mlo mhi : Option Int),
      WFKidsH flo fhi ksL csL ksR csR mlo mhi → inBounds mlo mhi key →
      inBounds flo fhi key ∧
      (∀ p ∈ entriesList csL, p.1 < key) ∧
      (∀ p ∈ entriesList csR, key < p.1) := by
  intro ksL
  induction ksL with
  | nil =>
    intro csL ksR csR flo fhi mlo mhi hH hk
    match csL with
    | c :: csL => exact hH.elim
    | [] =>
      obtain ⟨hflo, hrest⟩ := hH
      refine ⟨⟨by rw [hflo]; exact hk.1, wfRest_hi ksR csR mhi fhi hrest hk.2⟩,
        by simp [entriesList], ?_⟩
      match ksR, csR with
      | [], [] => simp [entriesList]
      | [], c :: csR => exact hrest.elim
      | k :: ks, cs =>
        intro p hp
        have h1 : key < k := hk.2 k hrest.1
        have h2 : k ≤ p.1 :=
          ((wfKids_entries_facts ks cs (fun c _ => wf_entries_facts c) _ _ hrest.2).2.1
            p hp).1 k rfl
        omega
  | cons kL ksL ih =>
    intro csL ksR csR flo fhi mlo mhi hH hk
    match csL with
    | [] => exact hH.elim
    | cL :: csL =>
      obtain ⟨hwf, hrec⟩ := hH
      have rec := ih csL ksR csR (some kL) fhi mlo mhi hrec hk
      have hfacts := wf_entries_facts cL flo (some kL) hwf
      obtain ⟨r, hr⟩ := List.exists_mem_of_ne_nil _ hfacts.2.2
      have hkLkey : kL ≤ key := rec.1.1 kL rfl
      refine ⟨⟨?_, rec.1.2⟩, ?_, rec.2.2⟩
      · intro L hL
        have h1 : L ≤ r.1 := (hfacts.2.1 r hr).1 L hL
        have h2 : r.1 < kL := (hfacts.2.1 r hr).2 kL rfl
        omega
      · intro p hp
        rcases List.mem_append.mp hp with hp | hp
        · have h1 : p.1 < kL := (hfacts.2.1 p hp).2 kL rfl
          omega
        · exact rec.2.1 p hp

/-! ## Decomposition of entries / cells around a context hole -/

theorem cellsAt_shape : ∀ ctx : List Frame, ∃ A B : List (Nat × Option Nat),
    ∀ e, cellsAt ctx e = A ++ (e ++ B) := by
  intro ctx
  induction ctx with
  | nil => exact ⟨[], [], fun e => by simp [cellsAt]⟩
  | cons f fs ih =>
    obtain ⟨A, B, hAB⟩ := ih
    refine ⟨A ++ leafCellsList f.childrenL, leafCellsList f.childrenR ++ B, ?_⟩
    intro e
    rw [cellsAt, hAB]
    simp [List.append_assoc]

theorem entriesAt_decomp {key : Int} :
    ∀ (ctx : List Frame) (mlo mhi : Option Int),
      CtxBounds ctx mlo mhi → inBounds mlo mhi key →
      ∃ A B : List (Int × Int),
        (∀ l, entriesAt ctx l = A ++ (l ++ B)) ∧
        (∀ p ∈ A, p.1 < key) ∧ (∀ p ∈ B, key < p.1) := by
  intro ctx
  induction ctx with
  | nil =>
    intro mlo mhi _ _
    exact ⟨[], [], fun l => by simp [entriesAt], by simp, by simp⟩
  | cons f fs ih =>
    intro mlo mhi hb hk
    obtain ⟨flo, fhi, hbfs, _, _, _, hH⟩ := hb
    have hsides := wfKidsH_sides f.keysL f.childrenL f.keysR f.childrenR flo fhi mlo mhi hH hk
    obtain ⟨A, B, hAB, hA, hB⟩ := ih flo fhi hbfs hsides.1
    refine ⟨A ++ entriesList f.childrenL, entriesList f.childrenR ++ B, ?_, ?_, ?_⟩
    · intro l
      rw [entriesAt, hAB]
      simp [List.append_assoc]
    · intro p hp
      rcases List.mem_append.mp hp with hp | hp
      · exact hA p hp
      · exact hsides.2.1 p hp
    · intro p hp
      rcases List.mem_append.mp hp with hp | hp
      · exact hsides.2.2 p hp
      · exact hB p hp


/-! ## Descent to the target leaf, building the context -/

theorem plug_append : ∀ (a b : List Frame) (t : DTree), plug (a ++ b) t = plug b (plug a t) := by
  intro a
  induction a with
  | nil => intro b t; rfl
  | cons f a ih =>
    intro b t
    rw [List.cons_append, plug, ih, plug]

theorem ctxBoundsRel_append :
    ∀ (a : List Frame) (l h m1 m2 : Option Int) (b : List Frame) (o1 o2 : Option Int),
      CtxBoundsRel a l h m1 m2 → CtxBoundsRel b m1 m2 o1 o2 →
      CtxBoundsRel (a ++ b) l h o1 o2 := by
  intro a
  induction a with
  | nil =>
    intro l h m1 m2 b o1 o2 ha hb
    obtain ⟨rfl, rfl⟩ := ha
    exact hb
  | cons f a ih =>
    intro l h m1 m2 b o1 o2 ha hb
    obtain ⟨flo, fhi, hrel, s1, s2, s3, hH⟩ := ha
    exact ⟨flo, fhi, ih _ _ _ _ b _ _ hrel hb, s1, s2, s3, hH⟩

theorem ctxBoundsRel_to_ctxBounds :
    ∀ (ctx : List Frame) (mlo mhi : Option Int),
      CtxBoundsRel ctx mlo mhi none none → CtxBounds ctx mlo mhi := by
  intro ctx
  induction ctx with
  | nil => intro mlo mhi h; exact ⟨h.1, h.2⟩
  | cons f fs ih =>
    intro mlo mhi h
    obtain ⟨flo, fhi, hrel, s1, s2, s3, hH⟩ := h
    exact ⟨flo, fhi, ih _ _ hrel, s1, s2, s3, hH⟩

theorem wfKids_descend (key : Int) :
    ∀ (ks : List Int) (cs : List DTree) (lo hi : Option Int),
      WFKids lo hi ks cs → inBounds lo hi key →
      ∃ (ksL ksR : List Int) (csL csR : List DTree) (c : DTree) (clo chi : Option Int),
        ks = ksL ++ ksR ∧ cs = csL ++ c :: csR ∧ ksL.length = csL.length ∧
        targetIn key ((ks.takeWhile (fun k => k ≤ key)).length) cs = targetLeaf key c ∧
        WFKidsH lo hi ksL csL ksR csR clo chi ∧
        WF clo chi c ∧ inBounds clo chi key := by
  intro ks
  induction ks with
  | nil =>
    intro cs lo hi hk hb
    match cs with
    | [] => exact hk.elim
    | [c] => exact ⟨[], [], [], [], c, lo, hi, rfl, rfl, rfl, rfl, ⟨rfl, rfl⟩, hk, hb⟩
    | c1 :: c2 :: r => exact hk.elim
  | cons k ks ih =>
    intro cs lo hi hk hb
    match cs with
    | [] => exact hk.elim
    | c :: cs =>
      by_cases hkk : k ≤ key
      · obtain ⟨ksL, ksR, csL, csR, c2, clo, chi, h1, h2, h3, h4, h5, h6, h7⟩ :=
          ih cs (some k) hi hk.2 ⟨fun l hl => by cases hl; exact hkk, hb.2⟩
        refine ⟨k :: ksL, ksR, c :: csL, csR, c2, clo, chi, by rw [h1]; rfl,
          by rw [h2]; rfl, by simp [h3], ?_, ⟨hk.1, h5⟩, h6, h7⟩
        rw [List.takeWhile_cons_of_pos (by simpa using hkk), List.length_cons]
        exact h4
      · refine ⟨[], k :: ks, [], cs, c, lo, some k, rfl, rfl, rfl, ?_,
          ⟨rfl, rfl, hk.2⟩, hk.1, ⟨hb.1, fun h hh => by cases hh; exact lt_of_not_le hkk⟩⟩
        rw [List.takeWhile_cons_of_neg (by simpa using hkk)]
        rfl

theorem descend : ∀ (d : DTree) (key : Int) (mlo mhi : Option Int),
    WF mlo mhi d → inBounds mlo mhi key →
    ∃ (ctx : List Frame) (lid : Nat) (lks lvs : List Int) (lnx : Option Nat)
      (llo lhi : Option Int),
      targetLeaf key d = some (.leaf lid lks lvs lnx) ∧
      plug ctx (.leaf lid lks lvs lnx) = d ∧
      CtxBoundsRel ctx llo lhi mlo mhi ∧
      WF llo lhi (.leaf lid lks lvs lnx) ∧
      inBounds llo lhi key := by
  refine dtree_ind _ ?_ ?_
  · intro i ks vs nx key mlo mhi hw hb
    exact ⟨[], i, ks, vs, nx, mlo, mhi, rfl, rfl, ⟨rfl, rfl⟩, hw, hb⟩
  · intro i ks cs ih key mlo mhi hw hb
    obtain ⟨h1, h2, hkids⟩ := hw
    obtain ⟨ksL, ksR, csL, csR, c, clo, chi, hks, hcs, hlen, htgt, hH, hwc, hbc⟩ :=
      wfKids_descend key ks cs mlo mhi hkids hb
    have hcmem : c ∈ cs := by
      rw [hcs]
      exact List.mem_append_right _ (by simp)
    obtain ⟨ctx, lid, lks, lvs, lnx, llo, lhi, htgt2, hplug, hrel, hwleaf, hbleaf⟩ :=
      ih c hcmem key clo chi hwc hbc
    refine ⟨ctx ++ [⟨i, ksL, ksR, csL, csR⟩], lid, lks, lvs, lnx, llo, lhi, ?_, ?_, ?_,
      hwleaf, hbleaf⟩
    · show targetIn key ((ks.takeWhile (fun k => k ≤ key)).length) cs = _
      rw [htgt, htgt2]
    · rw [plug_append, hplug]
      show DTree.node i (ksL ++ ksR) (csL ++ c :: csR) = _
      rw [← hks, ← hcs]
    · exact ctxBoundsRel_append ctx llo lhi clo chi [⟨i, ksL, ksR, csL, csR⟩] mlo mhi hrel
        ⟨mlo, mhi, ⟨rfl, rfl⟩, by rw [← hks]; exact h1, by rw [← hks]; exact h2, hlen, hH⟩

/-- The full arena-level descent package: under the invariant, `findLeaf`
reaches the id of the target leaf of the decorated tree, which sits in a
well-formed, correctly bounded context. -/
theorem invTree_descend {s : BPlusTreeState} {d : DTree} (hinv : InvTree s d) (key : Int) :
    ∃ (ctx : List Frame) (lid : Nat) (lks lvs : List Int) (lnx : Option Nat)
      (llo lhi : Option Int),
      findLeaf s key = some lid ∧
      getNode s lid = some (.leaf lks lvs lnx) ∧
      plug ctx (.leaf lid lks lvs lnx) = d ∧
      CtxDecodes s ctx lid ∧
      CtxBounds ctx llo lhi ∧
      WF llo lhi (.leaf lid lks lvs lnx) ∧
      inBounds llo lhi key := by
  obtain ⟨hdec, hroot, hperm, hwf, hchain⟩ := hinv
  obtain ⟨ctx, lid, lks, lvs, lnx, llo, lhi, htgt, hplug, hrel, hwleaf, hbleaf⟩ :=
    descend d key none none hwf ⟨by simp, by simp⟩
  have hdepth : depth d ≤ s.nodes.length + 1 := by
    have h1 := depth_le_ids_length d
    have h2 : (ids d).length = s.nodes.length := by rw [hperm.length_eq, List.length_range]
    omega
  have hfl : findLeaf s key = some lid := by
    rw [findLeaf, hroot, findLeafRec_eq d hdec _ hdepth, htgt]
    rfl
  have hd2 : Decodes s (plug ctx (.leaf lid lks lvs lnx)) := by
    rw [hplug]
    exact hdec
  have hdecs := (decodes_plug ctx _).mp hd2
  exact ⟨ctx, lid, lks, lvs, lnx, llo, lhi, hfl, hdecs.2, hplug, hdecs.1,
    ctxBoundsRel_to_ctxBounds ctx llo lhi hrel, hwleaf, hbleaf⟩


/-! ## Search correctness -/

theorem models_emptyTree : Models emptyTree [] := Or.inl ⟨rfl, rfl, rfl⟩

theorem search_models {s : BPlusTreeState} {l : List (Int × Int)} (h : Models s l)
    (key : Int) : search s key = lookupKey key l := by
  rcases h with ⟨hroot, hnil, rfl⟩ | ⟨d, hinv, rfl⟩
  · rw [search, hroot]
    rfl
  · obtain ⟨ctx, lid, lks, lvs, lnx, llo, lhi, hfl, hget, hplug, hcdec, hcb, hwleaf, hbleaf⟩ :=
      invTree_descend hinv key
    obtain ⟨A, B, hAB, hA, hB⟩ := entriesAt_decomp ctx llo lhi hcb hbleaf
    have hent : entries d = A ++ (lks.zip lvs ++ B) := by
      rw [← hplug, entries_plug_at, hAB]
      rfl
    rw [search, hinv.2.1]
    dsimp only
    rw [hfl]
    dsimp only
    rw [hget]
    dsimp only
    rw [scanLeaf_eq_lookup, hent,
      lookupKey_between A B _ (fun p hp => ne_of_lt (hA p hp))
        (fun p hp => ne_of_gt (hB p hp))]


/-! ## Insert correctness -/

set_option maxHeartbeats 1000000 in
theorem insert_models {s : BPlusTreeState} {l : List (Int × Int)} (h : Models s l)
    (key value : Int) : Models (insert s key value) (updAssoc key value l) := by
  rcases h with ⟨hroot, hnil, rfl⟩ | ⟨d, hinv, rfl⟩
  · -- empty tree: a fresh one-entry leaf becomes the root
    right
    refine ⟨DTree.leaf s.nodes.length [key] [value] none, ?_, ?_⟩
    · rw [insert, hroot]
      refine ⟨?_, rfl, ?_, ?_, rfl⟩
      · exact getNode_alloc_self s _
      · rw [length_alloc, hnil]
        simp [ids, List.range_succ]
      · refine ⟨rfl, by norm_num, by norm_num [kOrder], List.chain'_singleton _, ?_⟩
        intro k hk
        constructor
        · intro l2 hl
          cases hl
        · intro h2 hh
          cases hh
    · rfl
  · -- nonempty tree: descend to the target leaf
    have hinv' := hinv
    obtain ⟨ctx, lid, lks, lvs, lnx, llo, lhi, hfl, hget, hplug, hcdec, hcb, hwleaf, hbleaf⟩ :=
      invTree_descend hinv key
    obtain ⟨hdec, hroot, hperm, hwf, hchain⟩ := hinv'
    obtain ⟨A, B, hAB, hA, hB⟩ := entriesAt_decomp ctx llo lhi hcb hbleaf
    have hent : entries d = A ++ (lks.zip lvs ++ B) := by
      rw [← hplug, entries_plug_at, hAB]
      rfl
    obtain ⟨hlv, hge1, hle3, hchainks, hbks⟩ := hwleaf
    have hnd0 : (ids d).Nodup := hperm.nodup_iff.mpr (List.nodup_range _)
    have hpp : (ids d).Perm (ctxIds ctx ++ [lid]) := by
      rw [← hplug]
      exact ids_plug_perm ctx _
    have hnd : (ctxIds ctx ++ [lid]).Nodup := hpp.nodup_iff.mp hnd0
    have hlidnotin : lid ∉ ctxIds ctx := by
      intro hmem
      exact (List.nodup_append.mp hnd).2.2 hmem (by simp)
    have hlidlt : lid < s.nodes.length := getNode_lt hget
    have hdidtop : dId d = ctxTopId ctx lid := by
      rw [← hplug, dId_plug]
      rfl
    have hcells : leafCells d = cellsAt ctx [(lid, lnx)] := by
      rw [← hplug, cells_plug_at]
      rfl
    rw [insert, hroot]
    dsimp only
    rw [hfl]
    dsimp only
    rw [hget]
    dsimp only
    cases hidx : lks.findIdx? (fun k => k = key) with
    | some i =>
      -- overwrite in place
      dsimp only
      have hmemk : key ∈ lks := by
        by_contra hno
        rw [(findIdx?_none_iff lks).mpr hno] at hidx
        exact Option.noConfusion hidx
      have hisSome : (lookupKey key (lks.zip lvs)).isSome :=
        lookupKey_zip_mem lks lvs hlv hmemk
      have hisSomeE : (lookupKey key (A ++ (lks.zip lvs ++ B))).isSome := by
        rw [lookupKey_between A B _ (fun p hp => ne_of_lt (hA p hp))
          (fun p hp => ne_of_gt (hB p hp))]
        exact hisSome
      have hzipset := @zip_set key value lks lvs i hlv hidx
      right
      refine ⟨plug ctx (.leaf lid lks (lvs.set i value) lnx), ⟨?_, ?_, ?_, ?_, ?_⟩, ?_⟩
      · exact (decodes_plug ctx _).mpr
          ⟨ctxDecodes_setNode_off hcdec hlidnotin, getNode_setNode_self _ hlidlt⟩
      · rw [root_setNode, hroot, dId_plug, hdidtop]
        rfl
      · rw [length_setNode]
        exact ((ids_plug_perm ctx _).trans (hpp.symm.trans hperm))
      · exact ctxBounds_plug_wf ctx llo lhi _ hcb
          ⟨by rw [List.length_set]; exact hlv, hge1, hle3, hchainks, hbks⟩
      · rw [cells_plug_at]
        rw [hcells] at hchain
        exact hchain
      · rw [entries_plug_at]
        rw [show entries (DTree.leaf lid lks (lvs.set i value) lnx) =
          lks.zip (lvs.set i value) from rfl, hAB, hzipset, updAssoc, hent,
          if_pos hisSomeE,
          setPair_append_skip A _ (fun p hp => ne_of_lt (hA p hp)),
          setPair_append_found _ B hisSome]
    | none =>
      dsimp only
      have hnotmem : key ∉ lks := (findIdx?_none_iff lks).mp hidx
      have hnone_zip : ∀ p ∈ lks.zip lvs, p.1 ≠ key := lookupKey_zip_notmem lks lvs hnotmem
      have hlookup_zip : lookupKey key (lks.zip lvs) = none :=
        (lookupKey_none_iff _).mpr hnone_zip
      have hlookup_ent : lookupKey key (A ++ (lks.zip lvs ++ B)) = none := by
        rw [lookupKey_between A B _ (fun p hp => ne_of_lt (hA p hp))
          (fun p hp => ne_of_gt (hB p hp)), hlookup_zip]
      have hupd : updAssoc key value (entries d) = insPair key value (entries d) := by
        rw [updAssoc, hent, hlookup_ent]
        rfl
      have hpairw : lks.Pairwise (· < ·) := List.chain'_iff_pairwise.mp hchainks
      have hbub := bubble_insert key value lks lvs hlv hpairw
      have hlen1 : (lks ++ [key]).length - 1 = lks.length := by simp
      have hIfst : ((insPair key value (lks.zip lvs)).map Prod.fst).length =
          lks.length + 1 := by
        rw [List.length_map, insPair_length, List.length_zip, hlv, Nat.min_self]
      have hIsnd : ((insPair key value (lks.zip lvs)).map Prod.snd).length =
          lks.length + 1 := by
        rw [List.length_map, insPair_length, List.length_zip, hlv, Nat.min_self]
      have hzipI : ((insPair key value (lks.zip lvs)).map Prod.fst).zip
          ((insPair key value (lks.zip lvs)).map Prod.snd) =
          insPair key value (lks.zip lvs) :=
        (List.zip_of_prod rfl rfl).symm
      have hsortI : ((insPair key value (lks.zip lvs)).map Prod.fst).Pairwise (· < ·) := by
        apply insPair_sorted
        · rw [List.map_fst_zip _ _ hlv.le]
          exact hpairw
        · exact hnone_zip
      have hbndI : ∀ k ∈ (insPair key value (lks.zip lvs)).map Prod.fst,
          inBounds llo lhi k := by
        intro k hk
        rcases insPair_map_fst_mem hk with rfl | hk2
        · exact hbleaf
        · rw [List.map_fst_zip _ _ hlv.le] at hk2
          exact hbks k hk2
      have hkOrder : kOrder = 4 := rfl
      have hle3' : lks.length ≤ 3 := by
        rw [hkOrder] at hle3
        omega
      rw [hlen1, hbub]
      dsimp only
      by_cases hs3 : lks.length = 3
      · -- the leaf overflows to 4 entries: split it
        rw [if_pos (by rw [hIfst, hs3]; decide)]
        obtain ⟨a, b, c, dk, hKs⟩ :=
          @exists_list_four Int ((insPair key value (lks.zip lvs)).map Prod.fst)
            (by rw [hIfst, hs3])
        obtain ⟨w, x, y, z, hVs⟩ :=
          @exists_list_four Int ((insPair key value (lks.zip lvs)).map Prod.snd)
            (by rw [hIsnd, hs3])
        have hsort4 : List.Chain' (· < ·) [a, b, c, dk] := by
          rw [← hKs]
          exact List.chain'_iff_pairwise.mpr hsortI
        have hb4 : ∀ k ∈ ([a, b, c, dk] : List Int), inBounds llo lhi k := by
          intro k hk
          apply hbndI
          rw [hKs]
          exact hk
        have hI4 : insPair key value (lks.zip lvs) = [(a, w), (b, x), (c, y), (dk, z)] := by
          rw [← hzipI, hKs, hVs]
          rfl
        rw [hKs, hVs, length_setNode]
        have hstep : splitLeafNode (setNode s lid (.leaf [a, b, c, dk] [w, x, y, z] lnx))
            (s.nodes.length + 1) lid =
            if s.root_ = some lid then
              { alloc (setNode (alloc (setNode s lid (.leaf [a, b, c, dk] [w, x, y, z] lnx))
                  (.leaf [c, dk] [y, z] lnx)) lid
                  (.leaf [a, b] [w, x] (some s.nodes.length)))
                  (.internal [c] [lid, s.nodes.length]) with
                root_ := some (s.nodes.length + 1) }
            else
              insertInternalNode (setNode (alloc (setNode s lid
                  (.leaf [a, b, c, dk] [w, x, y, z] lnx))
                  (.leaf [c, dk] [y, z] lnx)) lid
                  (.leaf [a, b] [w, x] (some s.nodes.length)))
                (s.nodes.length + 1) c lid s.nodes.length := by
          rw [splitLeafNode, getNode_setNode_self _ hlidlt]
          norm_num [root_setNode, root_alloc, length_setNode, length_alloc,
            List.take_succ_cons, List.take_zero, List.drop_succ_cons, List.drop_zero]
        rw [hstep]
        have hlen2 : (setNode (alloc (setNode s lid (.leaf [a, b, c, dk] [w, x, y, z] lnx))
            (.leaf [c, dk] [y, z] lnx)) lid
            (.leaf [a, b] [w, x] (some s.nodes.length))).nodes.length =
            s.nodes.length + 1 := by
          rw [length_setNode, length_alloc, length_setNode]
        cases ctx with
        | nil =>
          have hd : DTree.leaf lid lks lvs lnx = d := hplug
          subst hd
          rw [if_pos (show s.root_ = some lid from hroot)]
          right
          refine ⟨DTree.node (s.nodes.length + 1) [c]
            [DTree.leaf lid [a, b] [w, x] (some s.nodes.length),
             DTree.leaf s.nodes.length [c, dk] [y, z] lnx], ⟨?_, ?_, ?_, ?_, ?_⟩, ?_⟩
          · refine ⟨?_, ?_, ?_, trivial⟩
            · rw [getNode_withRoot, ← hlen2, getNode_alloc_self]
              rfl
            · show getNode _ lid = _
              rw [getNode_withRoot, getNode_alloc_ne _ (by rw [hlen2]; omega),
                getNode_setNode_self _ (by rw [length_alloc, length_setNode]; omega)]
            · show getNode _ s.nodes.length = _
              rw [getNode_withRoot, getNode_alloc_ne _ (by rw [hlen2]; omega),
                getNode_setNode_ne _ (Nat.ne_of_lt hlidlt),
                show s.nodes.length =
                  (setNode s lid (.leaf [a, b, c, dk] [w, x, y, z] lnx)).nodes.length
                  from (length_setNode s lid _).symm,
                getNode_alloc_self]
          · rfl
          · rw [length_alloc, hlen2, List.range_succ, List.range_succ]
            refine List.Perm.trans ?_ ((hperm.append_right [s.nodes.length]).append_right
              [s.nodes.length + 1])
            rw [← Multiset.coe_eq_coe]
            simp only [ids, idsList, ← Multiset.coe_add, ← Multiset.cons_coe]
            simp only [← Multiset.singleton_add]
            abel
          · obtain ⟨rfl, rfl⟩ : llo = none ∧ lhi = none := hcb
            have split := @wf_leaf_split none none a b c dk w x y z lid s.nodes.length
              hsort4 hb4 (some s.nodes.length) lnx
            exact ⟨by norm_num, by norm_num [kOrder], split.1, split.2⟩
          · exact ⟨rfl, hchain⟩
          · rw [hupd, show entries (DTree.leaf lid lks lvs lnx) = lks.zip lvs from rfl, hI4]
            rfl
        | cons f fs =>
          rw [if_neg (by
            rw [hroot, hdidtop]
            intro heq
            exact hlidnotin ((Option.some.inj heq) ▸ ctxTopId_mem (f :: fs) lid (by simp)))]
          rw [insertInternalNode_eq_upKey]
          have hb4' : ∀ k ∈ ([a, b, c, dk] : List Int), inBounds llo lhi k := hb4
          have split := @wf_leaf_split llo lhi a b c dk w x y z lid s.nodes.length
            hsort4 hb4' (some s.nodes.length) lnx
          have hidlen : (ids d).length = s.nodes.length := by
            rw [hperm.length_eq, List.length_range]
          have hctxlen : (ids d).length = (ctxIds (f :: fs)).length + 1 := by
            rw [hpp.length_eq]
            simp
          obtain ⟨CA, CB, hCAB⟩ := cellsAt_shape (f :: fs)
          rw [hcells, hCAB] at hchain
          obtain ⟨d', hinv2, hent2, hcell2⟩ := cascade_ok (s.nodes.length + 1 + 1) (f :: fs)
            (setNode (alloc (setNode s lid (.leaf [a, b, c, dk] [w, x, y, z] lnx))
              (.leaf [c, dk] [y, z] lnx)) lid
              (.leaf [a, b] [w, x] (some s.nodes.length)))
            (DTree.leaf lid [a, b] [w, x] (some s.nodes.length))
            (DTree.leaf s.nodes.length [c, dk] [y, z] lnx) c llo lhi
            (by simp)
            (by
              have := ctxIds_length_ge (f :: fs) llo lhi hcb
              omega)
            (ctxDecodes_setNode_off (ctxDecodes_alloc
              (ctxDecodes_setNode_off hcdec hlidnotin)) hlidnotin)
            (getNode_setNode_self _ (by rw [length_alloc, length_setNode]; omega))
            (by
              show getNode _ s.nodes.length = _
              rw [getNode_setNode_ne _ (Nat.ne_of_lt hlidlt),
                show s.nodes.length =
                  (setNode s lid (.leaf [a, b, c, dk] [w, x, y, z] lnx)).nodes.length
                  from (length_setNode s lid _).symm,
                getNode_alloc_self])
            (by
              rw [root_setNode, root_alloc, root_setNode, hroot, hdidtop]
              rfl)
            (by
              rw [length_setNode, length_alloc, length_setNode, List.range_succ]
              refine List.Perm.trans
                ((ids_plug_perm (f :: fs) _).append_right _) ?_
              exact (hpp.symm.trans hperm).append_right [s.nodes.length])
            hcb split.1 split.2
            (by
              rw [hCAB]
              exact chainOK_splice CA lid s.nodes.length lnx CB hchain)
          right
          refine ⟨d', hinv2, ?_⟩
          have hTLTR : entries (DTree.leaf lid [a, b] [w, x] (some s.nodes.length)) ++
              entries (DTree.leaf s.nodes.length [c, dk] [y, z] lnx) =
              insPair key value (lks.zip lvs) := by
            rw [hI4]
            rfl
          rw [hent2, hTLTR, hAB, hupd, hent,
            insPair_append_small A _ (fun p hp => not_lt.mpr (le_of_lt (hA p hp))),
            insPair_append_big _ B hB]
      · -- no overflow: the updated leaf stays in place
        rw [if_neg (by rw [hIfst, hkOrder]; omega)]
        right
        refine ⟨plug ctx (.leaf lid ((insPair key value (lks.zip lvs)).map Prod.fst)
          ((insPair key value (lks.zip lvs)).map Prod.snd) lnx), ⟨?_, ?_, ?_, ?_, ?_⟩, ?_⟩
        · exact (decodes_plug ctx _).mpr
            ⟨ctxDecodes_setNode_off hcdec hlidnotin, getNode_setNode_self _ hlidlt⟩
        · rw [root_setNode, hroot, dId_plug, hdidtop]
          rfl
        · rw [length_setNode]
          exact ((ids_plug_perm ctx _).trans (hpp.symm.trans hperm))
        · refine ctxBounds_plug_wf ctx llo lhi _ hcb
            ⟨by rw [hIfst, hIsnd], by rw [hIfst]; omega, by rw [hIfst, hkOrder]; omega,
             List.chain'_iff_pairwise.mpr hsortI, hbndI⟩
        · rw [cells_plug_at]
          rw [hcells] at hchain
          exact hchain
        · rw [entries_plug_at]
          rw [show entries (DTree.leaf lid ((insPair key value (lks.zip lvs)).map Prod.fst)
            ((insPair key value (lks.zip lvs)).map Prod.snd) lnx) =
            ((insPair key value (lks.zip lvs)).map Prod.fst).zip
              ((insPair key value (lks.zip lvs)).map Prod.snd) from rfl,
            hzipI, hAB, hupd, hent,
            insPair_append_small A _ (fun p hp => not_lt.mpr (le_of_lt (hA p hp))),
            insPair_append_big _ B hB]


/-! ## The reachable-state invariant -/

theorem insertAll_models (ps : List (Int × Int)) :
    Models (insertAll ps emptyTree) (canon ps) := by
  have H : ∀ (ps : List (Int × Int)) (s : BPlusTreeState) (l : List (Int × Int)),
      Models s l → Models (insertAll ps s) (ps.foldl (fun l p => updAssoc p.1 p.2 l) l) := by
    intro ps
    induction ps with
    | nil => intro s l h; exact h
    | cons p ps ih =>
      intro s l h
      rw [insertAll, List.foldl_cons, List.foldl_cons]
      exact ih _ _ (insert_models h p.1 p.2)
  exact H ps emptyTree [] models_emptyTree

theorem reachable_models {s : BPlusTreeState} (h : Reachable s) : ∃ l, Models s l := by
  obtain ⟨ps, rfl⟩ := h
  exact ⟨canon ps, insertAll_models ps⟩

theorem set_same {α : Type} : ∀ (l : List α) (i : Nat) (a : α),
    l[i]? = some a → l.set i a = l := by
  intro l
  induction l with
  | nil => intro i a h; simp at h
  | cons c l ih =>
    intro i a h
    match i with
    | 0 =>
      simp only [List.getElem?_cons_zero, Option.some.injEq] at h
      rw [List.set_cons_zero, h]
    | i + 1 =>
      simp only [List.getElem?_cons_succ] at h
      rw [List.set_cons_succ, ih i a h]

theorem lookupKey_zip_isSome_mem {key : Int} :
    ∀ ks vs : List Int, (lookupKey key (ks.zip vs)).isSome → key ∈ ks := by
  intro ks vs h
  by_contra hno
  rw [(lookupKey_none_iff _).mpr (lookupKey_zip_notmem ks vs hno)] at h
  simp at h

/-- An insert that finds its key already present only overwrites one stored
value: the arena keeps its length, every node keeps its shape (keys, child
pointers, leaf next pointers), and the root pointer is unchanged. -/
theorem insert_overwrite_shape {s : BPlusTreeState} {d : DTree} (hinv : InvTree s d)
    {key : Int} (hsome : (lookupKey key (entries d)).isSome) (value : Int) :
    (insert s key value).nodes.map nodeShape = s.nodes.map nodeShape ∧
    (insert s key value).root_ = s.root_ := by
  obtain ⟨ctx, lid, lks, lvs, lnx, llo, lhi, hfl, hget, hplug, hcdec, hcb, hwleaf, hbleaf⟩ :=
    invTree_descend hinv key
  obtain ⟨hdec, hroot, hperm, hwf, hchain⟩ := hinv
  obtain ⟨A, B, hAB, hA, hB⟩ := entriesAt_decomp ctx llo lhi hcb hbleaf
  have hent : entries d = A ++ (lks.zip lvs ++ B) := by
    rw [← hplug, entries_plug_at, hAB]
    rfl
  have hsome2 : (lookupKey key (lks.zip lvs)).isSome := by
    rw [hent, lookupKey_between A B _ (fun p hp => ne_of_lt (hA p hp))
      (fun p hp => ne_of_gt (hB p hp))] at hsome
    exact hsome
  have hmem : key ∈ lks := lookupKey_zip_isSome_mem lks lvs hsome2
  have hlidlt : lid < s.nodes.length := getNode_lt hget
  rw [insert, hroot]
  dsimp only
  rw [hfl]
  dsimp only
  rw [hget]
  dsimp only
  cases hidx : lks.findIdx? (fun k => k = key) with
  | none => exact absurd ((findIdx?_none_iff lks).mp hidx) (by simpa using hmem)
  | some i =>
    dsimp only
    constructor
    · show (s.nodes.set lid (.leaf lks (lvs.set i value) lnx)).map nodeShape = _
      rw [List.map_set]
      apply set_same
      rw [List.getElem?_map, show s.nodes[lid]? = some (.leaf lks lvs lnx) from hget]
      rfl
    · rw [root_setNode, hroot]


/-! ## Arena-level size bounds and parent existence -/

theorem mem_idsList {cs : List DTree} {j : Nat} (h : j ∈ idsList cs) :
    ∃ c ∈ cs, j ∈ ids c := by
  rw [idsList_eq] at h
  obtain ⟨l, hl, hj⟩ := List.mem_flatten.mp h
  obtain ⟨c, hc, rfl⟩ := List.mem_map.mp hl
  exact ⟨c, hc, hj⟩

theorem wfKids_mem_wf : ∀ (ks : List Int) (cs : List DTree) (lo hi : Option Int),
    WFKids lo hi ks cs → ∀ c ∈ cs, ∃ lo2 hi2, WF lo2 hi2 c := by
  intro ks
  induction ks with
  | nil =>
    intro cs lo hi hk c hc
    match cs with
    | [] => exact hk.elim
    | [c2] =>
      rw [List.mem_singleton.mp hc]
      exact ⟨lo, hi, hk⟩
    | c1 :: c2 :: r => exact hk.elim
  | cons k ks ih =>
    intro cs lo hi hk c hc
    match cs with
    | [] => exact hk.elim
    | c2 :: cs =>
      rcases List.mem_cons.mp hc with rfl | hc
      · exact ⟨lo, some k, hk.1⟩
      · exact ih cs (some k) hi hk.2 c hc

theorem decode_size {s : BPlusTreeState} : ∀ (d : DTree) (lo hi : Option Int),
    Decodes s d → WF lo hi d → ∀ j ∈ ids d, ∃ nd, getNode s j = some nd ∧
      keyCount nd ≤ kOrder - 1 ∧
      (∀ ks vs nx, nd = .leaf ks vs nx → vs.length = ks.length) := by
  refine dtree_ind _ ?_ ?_
  · intro i ks vs nx lo hi hdec hwf j hj
    rw [show ids (DTree.leaf i ks vs nx) = [i] from rfl, List.mem_singleton] at hj
    subst hj
    refine ⟨.leaf ks vs nx, hdec, hwf.2.2.1, ?_⟩
    intro ks2 vs2 nx2 he
    cases he
    exact hwf.1.symm
  · intro i ks cs ih lo hi hdec hwf j hj
    rw [show ids (DTree.node i ks cs) = i :: idsList cs from rfl, List.mem_cons] at hj
    rcases hj with rfl | hj
    · refine ⟨.internal ks (childIds cs), hdec.1, hwf.2.1, ?_⟩
      intro ks2 vs2 nx2 he
      cases he
    · obtain ⟨c, hc, hjc⟩ := mem_idsList hj
      obtain ⟨lo2, hi2, hwc⟩ := wfKids_mem_wf ks cs lo hi hwf.2.2 c hc
      exact ih c hc lo2 hi2 (decodesList_iff.mp hdec.2 c hc) hwc j hjc

theorem ids_hasPC : ∀ d : DTree, ∀ c ∈ ids d, c ≠ dId d → ∃ p, HasPC d p c := by
  refine dtree_ind _ ?_ ?_
  · intro i ks vs nx c hc hne
    rw [show ids (DTree.leaf i ks vs nx) = [i] from rfl, List.mem_singleton] at hc
    exact absurd hc hne
  · intro i ks cs ih c hc hne
    rw [show ids (DTree.node i ks cs) = i :: idsList cs from rfl, List.mem_cons] at hc
    rcases hc with rfl | hc
    · exact absurd rfl hne
    · obtain ⟨ch, hch, hcch⟩ := mem_idsList hc
      by_cases he : c = dId ch
      · refine ⟨i, Or.inl ⟨rfl, ?_⟩⟩
        rw [he]
        exact List.mem_map_of_mem dId hch
      · obtain ⟨p, hp⟩ := ih ch hch c hcch he
        exact ⟨p, Or.inr (hasPCList_iff.mpr ⟨ch, hch, hp⟩)⟩


/-! ## Separator bounds on whole subtrees -/

theorem wfKids_allKeys_bounds :
    ∀ (ks : List Int) (cs : List DTree) (lo hi : Option Int),
      (∀ c ∈ cs, ∀ lo2 hi2 : Option Int, WF lo2 hi2 c → ∀ k ∈ allKeys c, inBounds lo2 hi2 k) →
      WFKids lo hi ks cs →
      (∀ k ∈ ks, inBounds lo hi k) ∧ (∀ k ∈ allKeysList cs, inBounds lo hi k) := by
  intro ks
  induction ks with
  | nil =>
    intro cs lo hi hmem hk
    match cs with
    | [] => exact hk.elim
    | [c] =>
      refine ⟨by simp, ?_⟩
      intro k hkk
      rw [show allKeysList [c] = allKeys c ++ [] from rfl, List.append_nil] at hkk
      exact hmem c (by simp) lo hi hk k hkk
    | c1 :: c2 :: r => exact hk.elim
  | cons k2 ks ih =>
    intro cs lo hi hmem hk
    match cs with
    | [] => exact hk.elim
    | c :: cs =>
      have rec := ih cs (some k2) hi (fun c2 hc2 => hmem c2 (List.mem_cons_of_mem _ hc2)) hk.2
      have hcf := wf_entries_facts c lo (some k2) hk.1
      obtain ⟨r, hr⟩ := List.exists_mem_of_ne_nil _ hcf.2.2
      have hrestf := wfKids_entries_facts ks cs (fun c _ => wf_entries_facts c) (some k2) hi hk.2
      obtain ⟨q, hq⟩ := List.exists_mem_of_ne_nil _ hrestf.2.2
      have hkb : inBounds lo hi k2 := by
        constructor
        · intro l hl
          have h1 : l ≤ r.1 := (hcf.2.1 r hr).1 l hl
          have h2 : r.1 < k2 := (hcf.2.1 r hr).2 k2 rfl
          omega
        · intro H hH
          have h1 : k2 ≤ q.1 := (hrestf.2.1 q hq).1 k2 rfl
          have h2 : q.1 < H := (hrestf.2.1 q hq).2 H hH
          omega
      have hweak : ∀ x : Int, inBounds (some k2) hi x → inBounds lo hi x := by
        intro x hx
        refine ⟨?_, hx.2⟩
        intro l hl
        have h1 : l ≤ k2 := hkb.1 l hl
        have h2 : k2 ≤ x := hx.1 k2 rfl
        omega
      have hweakHi : ∀ x : Int, inBounds lo (some k2) x → inBounds lo hi x := by
        intro x hx
        refine ⟨hx.1, ?_⟩
        intro H hH
        have h1 : x < k2 := hx.2 k2 rfl
        have h2 : k2 < H := hkb.2 H hH
        omega
      constructor
      · intro k hkmem
        rcases List.mem_cons.mp hkmem with rfl | hkmem
        · exact hkb
        · exact hweak k (rec.1 k hkmem)
      · intro k hkmem
        rw [show allKeysList (c :: cs) = allKeys c ++ allKeysList cs from rfl] at hkmem
        rcases List.mem_append.mp hkmem with hkmem | hkmem
        · exact hweakHi k (hmem c (by simp) lo (some k2) hk.1 k hkmem)
        · exact hweak k (rec.2 k hkmem)

theorem wf_allKeys_bounds : ∀ (d : DTree) (lo hi : Option Int), WF lo hi d →
    ∀ k ∈ allKeys d, inBounds lo hi k := by
  refine dtree_ind _ ?_ ?_
  · intro i ks vs nx lo hi hw k hk
    exact hw.2.2.2.2 k hk
  · intro i ks cs ih lo hi hw k hk
    rw [show allKeys (DTree.node i ks cs) = ks ++ allKeysList cs from rfl] at hk
    have H := wfKids_allKeys_bounds ks cs lo hi ih hw.2.2
    rcases List.mem_append.mp hk with hk | hk
    · exact H.1 k hk
    · exact H.2 k hk

theorem mem_subtreesList : ∀ {cs : List DTree} {t : DTree}, t ∈ subtreesList cs →
    ∃ c ∈ cs, t ∈ subtrees c := by
  intro cs
  induction cs with
  | nil => intro t h; exact absurd h (by simp [subtreesList])
  | cons c cs ih =>
    intro t h
    rw [show subtreesList (c :: cs) = subtrees c ++ subtreesList cs from rfl] at h
    rcases List.mem_append.mp h with h | h
    · exact ⟨c, by simp, h⟩
    · obtain ⟨c2, hc2, ht⟩ := ih h
      exact ⟨c2, List.mem_cons_of_mem _ hc2, ht⟩

theorem subtrees_wf : ∀ (d : DTree) (lo hi : Option Int), WF lo hi d →
    ∀ t ∈ subtrees d, ∃ lo2 hi2, WF lo2 hi2 t := by
  refine dtree_ind _ ?_ ?_
  · intro i ks vs nx lo hi hw t ht
    rw [show subtrees (DTree.leaf i ks vs nx) = [DTree.leaf i ks vs nx] from rfl,
      List.mem_singleton] at ht
    subst ht
    exact ⟨lo, hi, hw⟩
  · intro i ks cs ih lo hi hw t ht
    rw [show subtrees (DTree.node i ks cs) = DTree.node i ks cs :: subtreesList cs
      from rfl, List.mem_cons] at ht
    rcases ht with rfl | ht
    · exact ⟨lo, hi, hw⟩
    · obtain ⟨c, hc, htc⟩ := mem_subtreesList ht
      obtain ⟨lo2, hi2, hwc⟩ := wfKids_mem_wf ks cs lo hi hw.2.2 c hc
      exact ih c hc lo2 hi2 hwc t htc

theorem wfKids_child_bounds :
    ∀ (ks : List Int) (cs : List DTree) (lo hi : Option Int),
      WFKids lo hi ks cs →
      (∀ (j : Nat) (c : DTree), cs[j]? = some c → ∀ k ∈ allKeys c,
        (∀ kl, 1 ≤ j → ks[j - 1]? = some kl → kl ≤ k) ∧
        (∀ kh, ks[j]? = some kh → k < kh)) ∧
      (∀ c : DTree, cs[0]? = some c → ∀ k ∈ allKeys c, ∀ l, lo = some l → l ≤ k) := by
  intro ks
  induction ks with
  | nil =>
    intro cs lo hi hk
    match cs with
    | [] => exact hk.elim
    | [c2] =>
      constructor
      · intro j c hc k hkk
        constructor
        · intro kl h1 hkl
          simp at hkl
        · intro kh hkh
          simp at hkh
      · intro c hc k hkk l hl
        rw [List.getElem?_cons_zero] at hc
        cases hc
        exact (wf_allKeys_bounds c2 lo hi hk k hkk).1 l hl
    | c1 :: c2 :: r => exact hk.elim
  | cons k2 ks ih =>
    intro cs lo hi hk
    match cs with
    | [] => exact hk.elim
    | c0 :: cs =>
      have rec := ih cs (some k2) hi hk.2
      constructor
      · intro j c hc k hkk
        match j with
        | 0 =>
          rw [List.getElem?_cons_zero] at hc
          cases hc
          constructor
          · intro kl h1 hkl
            omega
          · intro kh hkh
            rw [List.getElem?_cons_zero] at hkh
            cases hkh
            exact (wf_allKeys_bounds c0 lo (some k2) hk.1 k hkk).2 k2 rfl
        | j + 1 =>
          rw [List.getElem?_cons_succ] at hc
          constructor
          · intro kl h1 hkl
            match j, hkl with
            | 0, hkl =>
              rw [show ((1 : Nat) - 1) = 0 from rfl, List.getElem?_cons_zero] at hkl
              cases hkl
              exact rec.2 c hc k hkk k2 rfl
            | j + 1, hkl =>
              rw [show (j + 1 + 1 - 1) = j + 1 from rfl, List.getElem?_cons_succ] at hkl
              refine (rec.1 (j + 1) c hc k hkk).1 kl (by omega) ?_
              rw [show (j + 1 - 1) = j from rfl]
              exact hkl
          · intro kh hkh
            rw [List.getElem?_cons_succ] at hkh
            exact (rec.1 j c hc k hkk).2 kh hkh
      · intro c hc k hkk l hl
        rw [List.getElem?_cons_zero] at hc
        cases hc
        exact (wf_allKeys_bounds c0 lo (some k2) hk.1 k hkk).1 l hl


/-! ## The sibling-chain walk -/

theorem mem_leafRecsList : ∀ {cs : List DTree} {r : LRec}, r ∈ leafRecsList cs →
    ∃ c ∈ cs, r ∈ leafRecs c := by
  intro cs
  induction cs with
  | nil => intro r h; exact absurd h (by simp [leafRecsList])
  | cons c cs ih =>
    intro r h
    rw [show leafRecsList (c :: cs) = leafRecs c ++ leafRecsList cs from rfl] at h
    rcases List.mem_append.mp h with h | h
    · exact ⟨c, by simp, h⟩
    · obtain ⟨c2, hc2, hr⟩ := ih h
      exact ⟨c2, List.mem_cons_of_mem _ hc2, hr⟩

theorem leafRecs_decode {s : BPlusTreeState} : ∀ d : DTree, Decodes s d →
    ∀ r ∈ leafRecs d, getNode s r.lid = some (.leaf r.lks r.lvs r.lnx) := by
  refine dtree_ind _ ?_ ?_
  · intro i ks vs nx hdec r hr
    rw [show leafRecs (DTree.leaf i ks vs nx) = [⟨i, ks, vs, nx⟩] from rfl,
      List.mem_singleton] at hr
    subst hr
    exact hdec
  · intro i ks cs ih hdec r hr
    rw [show leafRecs (DTree.node i ks cs) = leafRecsList cs from rfl] at hr
    obtain ⟨c, hc, hrc⟩ := mem_leafRecsList hr
    exact ih c hc (decodesList_iff.mp hdec.2 c hc) r hrc

theorem leafRecs_cells : ∀ d : DTree,
    leafCells d = (leafRecs d).map (fun r => (r.lid, r.lnx)) := by
  refine dtree_ind _ ?_ ?_
  · intro i ks vs nx
    rfl
  · intro i ks cs ih
    show leafCellsList cs = (leafRecsList cs).map _
    induction cs with
    | nil => rfl
    | cons c cs ih2 =>
      rw [show leafCellsList (c :: cs) = leafCells c ++ leafCellsList cs from rfl,
        show leafRecsList (c :: cs) = leafRecs c ++ leafRecsList cs from rfl,
        List.map_append, ih c (by simp),
        ih2 (fun c2 hc2 => ih c2 (List.mem_cons_of_mem _ hc2))]

theorem leafRecs_keys : ∀ (d : DTree) (lo hi : Option Int), WF lo hi d →
    (entries d).map Prod.fst = ((leafRecs d).map (fun r => r.lks)).flatten := by
  refine dtree_ind _ ?_ ?_
  · intro i ks vs nx lo hi hw
    show (ks.zip vs).map Prod.fst = ks ++ [].flatten
    rw [List.map_fst_zip _ _ hw.1.le]
    simp
  · intro i ks cs ih lo hi hw
    show (entriesList cs).map Prod.fst = ((leafRecsList cs).map _).flatten
    have hmem : ∀ c ∈ cs, (entries c).map Prod.fst =
        ((leafRecs c).map (fun r => r.lks)).flatten := by
      intro c hc
      obtain ⟨lo2, hi2, hwc⟩ := wfKids_mem_wf ks cs lo hi hw.2.2 c hc
      exact ih c hc lo2 hi2 hwc
    clear ih hw
    induction cs with
    | nil => rfl
    | cons c cs ih2 =>
      rw [show entriesList (c :: cs) = entries c ++ entriesList cs from rfl,
        show leafRecsList (c :: cs) = leafRecs c ++ leafRecsList cs from rfl,
        List.map_append, List.map_append, List.flatten_append, hmem c (by simp),
        ih2 (fun c2 hc2 => hmem c2 (List.mem_cons_of_mem _ hc2))]

theorem wfKids_head : ∀ (ks : List Int) (cs : List DTree) (lo hi : Option Int),
    WFKids lo hi ks cs →
    ∃ (c : DTree) (lo2 hi2 : Option Int) (cs' : List DTree),
      cs = c :: cs' ∧ WF lo2 hi2 c := by
  intro ks cs lo hi hk
  match ks, cs with
  | [], [] => exact hk.elim
  | [], [c] => exact ⟨c, lo, hi, [], rfl, hk⟩
  | [], c1 :: c2 :: r => exact hk.elim
  | k :: ks, [] => exact hk.elim
  | k :: ks, c :: cs => exact ⟨c, lo, some k, cs, rfl, hk.1⟩

theorem leafRecs_ne_nil : ∀ (d : DTree) (lo hi : Option Int), WF lo hi d →
    leafRecs d ≠ [] := by
  refine dtree_ind _ ?_ ?_
  · intro i ks vs nx lo hi _ h
    exact List.noConfusion h
  · intro i ks cs ih lo hi hw h
    obtain ⟨c, lo2, hi2, cs', rfl, hwc⟩ := wfKids_head ks cs lo hi hw.2.2
    rw [show leafRecs (DTree.node i ks (c :: cs')) = leafRecs c ++ leafRecsList cs'
      from rfl, List.append_eq_nil] at h
    exact ih c (by simp) lo2 hi2 hwc h.1

theorem leafRecs_length_le : ∀ d : DTree, (leafRecs d).length ≤ (ids d).length := by
  refine dtree_ind _ ?_ ?_
  · intro i ks vs nx
    exact le_refl _
  · intro i ks cs ih
    show (leafRecsList cs).length ≤ (ids (DTree.node i ks cs)).length
    rw [show ids (DTree.node i ks cs) = i :: idsList cs from rfl, List.length_cons]
    have H : (leafRecsList cs).length ≤ (idsList cs).length := by
      clear i ks
      induction cs with
      | nil => exact le_refl _
      | cons c cs ih2 =>
        rw [show leafRecsList (c :: cs) = leafRecs c ++ leafRecsList cs from rfl,
          show idsList (c :: cs) = ids c ++ idsList cs from rfl,
          List.length_append, List.length_append]
        have h1 := ih c (by simp)
        have h2 := ih2 (fun c2 hc2 => ih c2 (List.mem_cons_of_mem _ hc2))
        omega
    omega

theorem walkChain_none (s : BPlusTreeState) (fuel : Nat) : walkChain s fuel none = [] := by
  match fuel with
  | 0 => rfl
  | f + 1 => rfl

theorem walkChain_spec (s : BPlusTreeState) :
    ∀ (L : List LRec) (r0 : LRec) (fuel : Nat),
      (∀ r ∈ r0 :: L, getNode s r.lid = some (.leaf r.lks r.lvs r.lnx)) →
      ChainOK ((r0 :: L).map (fun r => (r.lid, r.lnx))) →
      L.length < fuel →
      walkChain s fuel (some r0.lid) = ((r0 :: L).map (fun r => r.lks)).flatten := by
  intro L
  induction L with
  | nil =>
    intro r0 fuel hdec hchain hfuel
    match fuel with
    | f + 1 =>
      rw [walkChain, hdec r0 (by simp)]
      have hnx : r0.lnx = none := hchain
      rw [hnx]
      show r0.lks ++ walkChain s f none = (List.map (fun r => r.lks) [r0]).flatten
      rw [walkChain_none]
      rfl
  | cons r1 L ih =>
    intro r0 fuel hdec hchain hfuel
    match fuel with
    | f + 1 =>
      rw [walkChain, hdec r0 (by simp)]
      have hnx : r0.lnx = some r1.lid := hchain.1
      rw [hnx]
      show r0.lks ++ walkChain s f (some r1.lid) =
        ((r0 :: r1 :: L).map (fun r => r.lks)).flatten
      rw [ih r1 f (fun r hr => hdec r (List.mem_cons_of_mem _ hr)) hchain.2
        (by simpa using hfuel)]
      rfl

theorem leftmostLeafRec_eq {s : BPlusTreeState} :
    ∀ (d : DTree) (lo hi : Option Int) (fuel : Nat), Decodes s d → WF lo hi d →
      depth d ≤ fuel →
      ∃ (r0 : LRec) (rest : List LRec), leafRecs d = r0 :: rest ∧
        leftmostLeafRec s fuel (some (dId d)) = some r0.lid := by
  refine dtree_ind _ ?_ ?_
  · intro i ks vs nx lo hi fuel hdec hwf hfuel
    match fuel with
    | 0 => exact absurd hfuel (by rw [depth]; omega)
    | f + 1 =>
      refine ⟨⟨i, ks, vs, nx⟩, [], rfl, ?_⟩
      show leftmostLeafRec s (f + 1) (some i) = some i
      rw [leftmostLeafRec, show getNode s i = some (.leaf ks vs nx) from hdec]
  · intro i ks cs ih lo hi fuel hdec hwf hfuel
    obtain ⟨c0, lo2, hi2, cs', rfl, hwc⟩ := wfKids_head ks cs lo hi hwf.2.2
    match fuel with
    | 0 => exact absurd hfuel (by rw [depth]; omega)
    | f + 1 =>
      have hdepth : depth c0 ≤ f := by
        have h1 : depth c0 ≤ depthList (c0 :: cs') :=
          depth_le_depthList (show c0 ∈ c0 :: cs' by simp)
        rw [depth] at hfuel
        omega
      obtain ⟨r0, rest, heq, hres⟩ :=
        ih c0 (by simp) lo2 hi2 f (decodesList_iff.mp hdec.2 c0 (by simp)) hwc hdepth
      refine ⟨r0, rest ++ leafRecsList cs', ?_, ?_⟩
      · rw [show leafRecs (DTree.node i ks (c0 :: cs')) =
          leafRecs c0 ++ leafRecsList cs' from rfl, heq]
        rfl
      · show leftmostLeafRec s (f + 1) (some i) = some r0.lid
        rw [leftmostLeafRec,
          show getNode s i = some (.internal ks (childIds (c0 :: cs'))) from hdec.1]
        show leftmostLeafRec s f (childIds (c0 :: cs'))[0]? = _
        rw [show (childIds (c0 :: cs'))[0]? = some (dId c0) by simp [childIds]]
        exact hres


/-! ## Claim theorems -/

/-- **C1.**  Round-trip: after any finite sequence of inserts from the empty
tree, `search(k)` returns the value of the most recent insert with key `k`
(stated for every key; on never-inserted keys both sides are `none`).
Moreover a duplicate insert overwrites the value in place: the arena keeps
its length, every node keeps its shape (keys, children, next pointers — only
one leaf's stored values change), and the root pointer is unchanged. -/
theorem C1_insert_search_roundtrip :
    (∀ (ps : List (Int × Int)) (k : Int),
      search (insertAll ps emptyTree) k = mostRecent ps k) ∧
    (∀ (s : BPlusTreeState) (key value : Int), Reachable s → (search s key).isSome →
      search (insert s key value) key = some value ∧
      (insert s key value).nodes.map nodeShape = s.nodes.map nodeShape ∧
      (insert s key value).root_ = s.root_ ∧
      (insert s key value).nodes.length = s.nodes.length) := by
  constructor
  · intro ps k
    rw [search_models (insertAll_models ps) k, lookup_canon]
  · intro s key value hreach hsome
    obtain ⟨l, hm⟩ := reachable_models hreach
    have hsearch := search_models hm key
    have hval : search (insert s key value) key = some value := by
      rw [search_models (insert_models hm key value) key, lookupKey_updAssoc]
      simp
    refine ⟨hval, ?_⟩
    rcases hm with ⟨hroot, hnil, rfl⟩ | ⟨d, hinv, rfl⟩
    · rw [hsearch] at hsome
      simp [lookupKey] at hsome
    · have hsome2 : (lookupKey key (entries d)).isSome := by
        rw [← hsearch]
        exact hsome
      have hsh := insert_overwrite_shape hinv hsome2 value
      refine ⟨hsh.1, hsh.2, ?_⟩
      have hlen := congrArg List.length hsh.1
      simpa using hlen

theorem C1_insert_search_roundtrip_witness :
    Reachable (insertAll [(1, 10)] emptyTree) ∧
    (search (insertAll [(1, 10)] emptyTree) 1).isSome ∧
    (search (insert (insertAll [(1, 10)] emptyTree) 1 99) 1 = some 99 ∧
     (insert (insertAll [(1, 10)] emptyTree) 1 99).nodes.map nodeShape =
       (insertAll [(1, 10)] emptyTree).nodes.map nodeShape ∧
     (insert (insertAll [(1, 10)] emptyTree) 1 99).root_ =
       (insertAll [(1, 10)] emptyTree).root_ ∧
     (insert (insertAll [(1, 10)] emptyTree) 1 99).nodes.length =
       (insertAll [(1, 10)] emptyTree).nodes.length) :=
  ⟨⟨[(1, 10)], rfl⟩, by decide,
    C1_insert_search_roundtrip.2 _ 1 99 ⟨[(1, 10)], rfl⟩ (by decide)⟩

/-- **C2.**  `search` returns `none` exactly when the tree is empty (null
root) or no leaf entry matches the key, and returns the stored value of the
matching entry otherwise; in this embedding `search` is a pure function of
the state, so it has no side effects and signals no error. -/
theorem C2_search_contract :
    ∀ s : BPlusTreeState, Reachable s → ∀ key : Int,
      (s.root_ = none → search s key = none) ∧
      (∀ d, InvTree s d →
        ((search s key = none ↔ lookupKey key (entries d) = none) ∧
         (∀ v, lookupKey key (entries d) = some v → search s key = some v))) := by
  intro s _ key
  constructor
  · intro hroot
    rw [search, hroot]
  · intro d hinv
    have hsm := search_models (Or.inr ⟨d, hinv, rfl⟩) key
    exact ⟨by rw [hsm], fun v hv => by rw [hsm, hv]⟩

theorem C2_search_contract_witness :
    Reachable (insertAll [(1, 10)] emptyTree) ∧
    InvTree (insertAll [(1, 10)] emptyTree) (DTree.leaf 0 [1] [10] none) ∧
    ((search (insertAll [(1, 10)] emptyTree) 2 = none ↔
       lookupKey 2 (entries (DTree.leaf 0 [1] [10] none)) = none) ∧
     (∀ v, lookupKey 2 (entries (DTree.leaf 0 [1] [10] none)) = some v →
       search (insertAll [(1, 10)] emptyTree) 2 = some v)) :=
  have hinv : InvTree (insertAll [(1, 10)] emptyTree) (DTree.leaf 0 [1] [10] none) := by
    refine ⟨?_, ?_, ?_, ?_, ?_⟩
    · show getNode _ 0 = some (.leaf [1] [10] none)
      decide
    · decide
    · decide
    · refine ⟨rfl, by norm_num, by norm_num [kOrder], List.chain'_singleton _, ?_⟩
      intro k hk
      constructor
      · intro l2 hl
        cases hl
      · intro h2 hh
        cases hh
    · rfl
  ⟨⟨[(1, 10)], rfl⟩, hinv,
    (C2_search_contract _ ⟨[(1, 10)], rfl⟩ 2).2 _ hinv⟩

/-- **C10.**  Frame property: inserting one key never changes the result of
searching for any other key, even across splits and root replacement. -/
theorem C10_insert_frame :
    ∀ s : BPlusTreeState, Reachable s → ∀ key value k2 : Int, k2 ≠ key →
      search (insert s key value) k2 = search s k2 := by
  intro s hreach key value k2 hne
  obtain ⟨l, hm⟩ := reachable_models hreach
  rw [search_models (insert_models hm key value) k2, search_models hm k2,
    lookupKey_updAssoc, if_neg (fun he => hne he.symm)]

theorem C10_insert_frame_witness :
    Reachable (insertAll [(1, 10)] emptyTree) ∧ (2 : Int) ≠ 1 ∧
    search (insert (insertAll [(1, 10)] emptyTree) 1 99) 2 =
      search (insertAll [(1, 10)] emptyTree) 2 :=
  ⟨⟨[(1, 10)], rfl⟩, by decide,
    C10_insert_frame _ ⟨[(1, 10)], rfl⟩ 1 99 2 (by decide)⟩


/-- The concrete two-level tree of `wstate9` satisfies the invariant. -/
theorem wtree9_inv : InvTree wstate9 wtree9 := by
  refine ⟨⟨?_, ?_, ?_, trivial⟩, ?_, ?_, ?_, ?_⟩
  · show getNode wstate9 2 = some (.internal [10] (childIds
      [.leaf 0 [5, 6] [50, 60] (some 1), .leaf 1 [10, 20] [100, 200] none]))
    decide
  · show getNode wstate9 0 = some (.leaf [5, 6] [50, 60] (some 1))
    decide
  · show getNode wstate9 1 = some (.leaf [10, 20] [100, 200] none)
    decide
  · decide
  · decide
  · refine ⟨by norm_num, by norm_num [kOrder], ?_, ?_⟩
    · refine ⟨rfl, by norm_num, by norm_num [kOrder], by norm_num [List.chain'_cons], ?_⟩
      intro k hk
      constructor
      · intro l hl
        cases hl
      · intro h hh
        cases hh
        fin_cases hk <;> decide
    · refine ⟨rfl, by norm_num, by norm_num [kOrder], by norm_num [List.chain'_cons], ?_⟩
      intro k hk
      constructor
      · intro l hl
        cases hl
        fin_cases hk <;> decide
      · intro h hh
        cases hh
  · exact ⟨rfl, rfl⟩

/-- **C3.**  In every state reachable by inserts, every node of the arena
(all of which are reachable from the root under the invariant) respects the
order bound: a leaf holds at most `kOrder - 1 = 3` keys and equally many
values, and an internal node holds at most `kOrder - 1 = 3` keys. -/
theorem C3_node_size_bounds :
    ∀ s : BPlusTreeState, Reachable s → ∀ nd ∈ s.nodes,
      (∀ ks vs nx, nd = BPlusNode.leaf ks vs nx →
        ks.length ≤ kOrder - 1 ∧ vs.length ≤ kOrder - 1) ∧
      (∀ ks cs, nd = BPlusNode.internal ks cs → ks.length ≤ kOrder - 1) := by
  intro s hreach nd hnd
  obtain ⟨l, hm⟩ := reachable_models hreach
  rcases hm with ⟨hroot, hnil, rfl⟩ | ⟨d, hinv, rfl⟩
  · rw [hnil] at hnd
    exact absurd hnd (by simp)
  · obtain ⟨hdec, hroot, hperm, hwf, hchain⟩ := hinv
    obtain ⟨j, hjlt, hj⟩ := List.getElem_of_mem hnd
    have hget : getNode s j = some nd := by
      rw [getNode, List.getElem?_eq_getElem hjlt, hj]
    have hjids : j ∈ ids d := hperm.mem_iff.mpr (List.mem_range.mpr hjlt)
    obtain ⟨nd2, hget2, hkc, hlv⟩ := decode_size d none none hdec hwf j hjids
    have hnd2 : nd2 = nd := Option.some.inj (hget2.symm.trans hget)
    subst hnd2
    constructor
    · intro ks vs nx he
      subst he
      have hvs := hlv ks vs nx rfl
      exact ⟨hkc, by rw [hvs]; exact hkc⟩
    · intro ks cs he
      subst he
      exact hkc

theorem C3_node_size_bounds_witness :
    Reachable wstate9 ∧ BPlusNode.internal [10] [0, 1] ∈ wstate9.nodes ∧
    ((∀ ks vs nx, BPlusNode.internal [10] [0, 1] = BPlusNode.leaf ks vs nx →
        ks.length ≤ kOrder - 1 ∧ vs.length ≤ kOrder - 1) ∧
     (∀ ks cs, BPlusNode.internal [10] [0, 1] = BPlusNode.internal ks cs →
        ks.length ≤ kOrder - 1)) :=
  ⟨⟨[(10, 100), (20, 200), (5, 50), (6, 60)], rfl⟩, by decide,
    C3_node_size_bounds wstate9 ⟨[(10, 100), (20, 200), (5, 50), (6, 60)], rfl⟩ _ (by decide)⟩

/-- **C4.**  Separator correctness: in every reachable state storing a tree,
for every internal node of that tree and every child index `j`, every key in
the subtree rooted at `children[j]` is `≥ keys[j-1]` when `j > 0` and
`< keys[j]` when `j < keys.length`; consequently `findLeaf` (which advances
the child index while `key ≥ keys[i]`, routing equality right) reaches a
well-formed leaf whose key range covers the searched key — the leaf whose
entries decide the search. -/
theorem C4_separator_and_findLeaf :
    ∀ s : BPlusTreeState, Reachable s → ∀ d, InvTree s d →
      (∀ t ∈ subtrees d, ∀ i ks cs, t = DTree.node i ks cs →
        ∀ (j : Nat) (c : DTree), cs[j]? = some c → ∀ k ∈ allKeys c,
          (∀ kl, 1 ≤ j → ks[j - 1]? = some kl → kl ≤ k) ∧
          (∀ kh, ks[j]? = some kh → k < kh)) ∧
      (∀ key, ∃ lid lks lvs lnx llo lhi,
        findLeaf s key = some lid ∧
        getNode s lid = some (.leaf lks lvs lnx) ∧
        WF llo lhi (.leaf lid lks lvs lnx) ∧ inBounds llo lhi key ∧
        lookupKey key (entries d) = lookupKey key (lks.zip lvs)) := by
  intro s _ d hinv
  constructor
  · intro t ht i ks cs he j c hc k hk
    obtain ⟨lo2, hi2, hwt⟩ := subtrees_wf d none none hinv.2.2.2.1 t ht
    subst he
    exact (wfKids_child_bounds ks cs lo2 hi2 hwt.2.2).1 j c hc k hk
  · intro key
    obtain ⟨ctx, lid, lks, lvs, lnx, llo, lhi, hfl, hget, hplug, hcdec, hcb, hwleaf, hbleaf⟩ :=
      invTree_descend hinv key
    obtain ⟨A, B, hAB, hA, hB⟩ := entriesAt_decomp ctx llo lhi hcb hbleaf
    have hent : entries d = A ++ (lks.zip lvs ++ B) := by
      rw [← hplug, entries_plug_at, hAB]
      rfl
    refine ⟨lid, lks, lvs, lnx, llo, lhi, hfl, hget, hwleaf, hbleaf, ?_⟩
    rw [hent, lookupKey_between A B _ (fun p hp => ne_of_lt (hA p hp))
      (fun p hp => ne_of_gt (hB p hp))]

theorem C4_separator_and_findLeaf_witness :
    Reachable wstate9 ∧ InvTree wstate9 wtree9 ∧
    ((∀ t ∈ subtrees wtree9, ∀ i ks cs, t = DTree.node i ks cs →
        ∀ (j : Nat) (c : DTree), cs[j]? = some c → ∀ k ∈ allKeys c,
          (∀ kl, 1 ≤ j → ks[j - 1]? = some kl → kl ≤ k) ∧
          (∀ kh, ks[j]? = some kh → k < kh)) ∧
     (∀ key, ∃ lid lks lvs lnx llo lhi,
        findLeaf wstate9 key = some lid ∧
        getNode wstate9 lid = some (.leaf lks lvs lnx) ∧
        WF llo lhi (.leaf lid lks lvs lnx) ∧ inBounds llo lhi key ∧
        lookupKey key (entries wtree9) = lookupKey key (lks.zip lvs))) :=
  ⟨⟨[(10, 100), (20, 200), (5, 50), (6, 60)], rfl⟩, wtree9_inv,
    C4_separator_and_findLeaf wstate9 ⟨[(10, 100), (20, 200), (5, 50), (6, 60)], rfl⟩
      wtree9 wtree9_inv⟩

/-- **C5.**  Sibling-chain integrity: in every reachable state storing a
tree, walking the leaves from the leftmost leaf via `next_` links collects
exactly the keys of the tree's entries, in strictly ascending order — every
stored key is visited exactly once (strict ascent forbids repeats); on the
empty tree the walk is empty. -/
theorem C5_chain_walk :
    ∀ s : BPlusTreeState, Reachable s →
      (s.root_ = none → walkAll s = []) ∧
      (∀ d, InvTree s d →
        walkAll s = (entries d).map Prod.fst ∧ (walkAll s).Pairwise (· < ·)) := by
  intro s _
  constructor
  · intro hroot
    rw [walkAll, leftmostLeaf, hroot,
      show leftmostLeafRec s (s.nodes.length + 1) none = none from rfl, walkChain_none]
  · intro d hinv
    obtain ⟨hdec, hroot, hperm, hwf, hchain⟩ := hinv
    have hidlen : (ids d).length = s.nodes.length := by
      rw [hperm.length_eq, List.length_range]
    obtain ⟨r0, rest, heq, hlm⟩ := leftmostLeafRec_eq d none none (s.nodes.length + 1)
      hdec hwf (by have := depth_le_ids_length d; omega)
    have hlen : rest.length < s.nodes.length + 1 := by
      have h1 := leafRecs_length_le d
      rw [heq, List.length_cons] at h1
      omega
    have hwalk : walkAll s = ((r0 :: rest).map (fun r => r.lks)).flatten := by
      rw [walkAll, leftmostLeaf, hroot, hlm]
      exact walkChain_spec s rest r0 (s.nodes.length + 1)
        (by rw [← heq]; exact leafRecs_decode d hdec)
        (by rw [← heq, ← leafRecs_cells d]; exact hchain) hlen
    constructor
    · rw [hwalk, leafRecs_keys d none none hwf, heq]
    · rw [hwalk, ← heq, ← leafRecs_keys d none none hwf]
      exact (wf_entries_facts d none none hwf).1

theorem C5_chain_walk_witness :
    Reachable wstate9 ∧ InvTree wstate9 wtree9 ∧
    (walkAll wstate9 = (entries wtree9).map Prod.fst ∧
     (walkAll wstate9).Pairwise (· < ·)) :=
  ⟨⟨[(10, 100), (20, 200), (5, 50), (6, 60)], rfl⟩, wtree9_inv,
    (C5_chain_walk wstate9 ⟨[(10, 100), (20, 200), (5, 50), (6, 60)], rfl⟩).2
      wtree9 wtree9_inv⟩

/-- **C9.**  Parent lookup never fails on reachable trees: for every node id
`c` of the stored tree other than the root, `findParent` (searching from the
root) returns the unique node that directly holds `c` as a child — the
defensive "no parent found, silently abandon the promotion" branch of the
cascade is unreachable. -/
theorem C9_findParent_total :
    ∀ s : BPlusTreeState, Reachable s → ∀ d, InvTree s d →
      ∀ c ∈ ids d, c ≠ dId d →
        ∃ p, findParent s c = some p ∧ HasPC d p c ∧ (∀ p2, HasPC d p2 c → p2 = p) := by
  intro s _ d hinv c hc hne
  obtain ⟨hdec, hroot, hperm, hwf, hchain⟩ := hinv
  have hnd : (ids d).Nodup := hperm.nodup_iff.mpr (List.nodup_range _)
  have hlen : (ids d).length ≤ s.nodes.length := by
    rw [hperm.length_eq, List.length_range]
  obtain ⟨p, hp⟩ := ids_hasPC d c hc hne
  refine ⟨p, ?_, hp, fun p2 hp2 => hasPC_uniq d hnd p2 p c hp2 hp⟩
  rw [findParent_eq hdec hroot hlen]
  exact parentOf_complete d hnd p c hp

theorem C9_findParent_total_witness :
    Reachable wstate9 ∧ InvTree wstate9 wtree9 ∧ (0 : Nat) ∈ ids wtree9 ∧
    (0 : Nat) ≠ dId wtree9 ∧
    ∃ p, findParent wstate9 0 = some p ∧ HasPC wtree9 p 0 ∧
      (∀ p2, HasPC wtree9 p2 0 → p2 = p) :=
  ⟨⟨[(10, 100), (20, 200), (5, 50), (6, 60)], rfl⟩, wtree9_inv, by decide, by decide,
    C9_findParent_total wstate9 ⟨[(10, 100), (20, 200), (5, 50), (6, 60)], rfl⟩
      wtree9 wtree9_inv 0 (by decide) (by decide)⟩

end BPlusTree
